import Mathlib

/-!
Verification of the core read/write path of an LSM-tree storage engine.

The development shallowly embeds the engine's components as executable Lean
definitions and proves the specified properties about them:

* byte strings are `List Nat` (each element a byte value; keys compare by the
  lexicographic order, which is Mathlib's linear order on `List Nat` and agrees
  with unsigned lexicographic byte order on slices);
* `Block` / `BlockBuilder` / `BlockIterator` embed the block layer
  (`block.rs`, `block/builder.rs`, `block/iterator.rs`);
* `SsTableBuilder` / `SsTable` / `SsTableIterator` embed the table layer
  (`table.rs`, `table/builder.rs`, `table/iterator.rs`);
* `MergeIterator`, `TwoMergeIterator`, `LsmIterator`, `FusedIterator` embed the
  iterator family, and `LsmStorage` operations embed the facade
  (`lsm_storage.rs`, `lsm_iterator.rs`).

Functions that can panic in the source (failed `assert!`, checked `usize`
underflow, `u16::try_from(..).unwrap()`, `Option::unwrap`) return `Option` and
yield `none` on those paths; arithmetic follows the checked (overflow-panicking)
profile of the source where it matters and this is noted at each spot.
-/

namespace Lsm

/-- Entries are (key, value) pairs of byte strings. -/
abbrev Entry := List Nat × List Nat

/-- Big-endian byte pair written by `put_u16`.  The sources cast wider values
with `as u16` (truncation), hence the reduction modulo 65536. -/
def u16be (x : Nat) : List Nat := [x % 65536 / 256, x % 256]

/-- Source `utils::two_u8_to_u16`: big-endian read of two bytes
(`(hi << 8) | lo`; for byte-sized inputs this equals `hi * 256 + lo`). -/
def two_u8_to_u16 (hi lo : Nat) : Nat := hi * 256 + lo

/-- Read a big-endian `u16` at position `i` of a byte list.  The source slices
`buf[i..i+2]`, which panics out of range; every use in this development is in
range for the inputs under consideration. -/
def readU16At (l : List Nat) (i : Nat) : Nat :=
  two_u8_to_u16 (l.getD i 0) (l.getD (i + 1) 0)

theorem u16be_length (x : Nat) : (u16be x).length = 2 := rfl

theorem readU16_u16be (x : Nat) (h : x < 65536) :
    two_u8_to_u16 (x % 65536 / 256) (x % 256) = x := by
  have hx : x % 65536 = x := Nat.mod_eq_of_lt h
  simp only [two_u8_to_u16, hx]
  omega

/-! ### Block (`block.rs`) -/

/-- Source `Block`: the raw entry region plus the `u16` offsets of its entries. -/
structure Block where
  data : List Nat
  offsets : List Nat
  deriving DecidableEq, Repr

/-- Source `Block::encode`: data, then each offset as big-endian `u16`, then the
entry count as big-endian `u16`. -/
def Block.encode (b : Block) : List Nat :=
  b.data ++ b.offsets.flatMap u16be ++ u16be b.offsets.length

/-- Parse a run of big-endian `u16` values (the source maps `two_u8_to_u16` over
`chunks(2)` of the offsets slice; the slice always has even length). -/
def parseU16s : List Nat → List Nat
  | a :: b :: t => two_u8_to_u16 a b :: parseU16s t
  | _ => []

/-- Source `Block::decode`: read the trailing count, slice the offsets region,
and keep the prefix as the data region. -/
def Block.decode (buf : List Nat) : Block :=
  let n := readU16At buf (buf.length - 2)
  let offsets := parseU16s ((buf.take (buf.length - 2)).drop (buf.length - 2 - n * 2))
  { data := buf.take (buf.length - 2 - n * 2), offsets := offsets }

/-! ### BlockBuilder (`block/builder.rs`) -/

/-- Source `BlockBuilder`. -/
structure BlockBuilder where
  occupy_size : Nat
  block_size : Nat
  data : List Nat
  offsets : List Nat
  deriving DecidableEq, Repr

/-- Source `BlockBuilder::new`: no validation of `block_size` is performed. -/
def BlockBuilder.new (block_size : Nat) : BlockBuilder :=
  { occupy_size := 0, block_size := block_size, data := [], offsets := [] }

/-- Source `BlockBuilder::entry_size`: `key_len + key + value_len + value`. -/
def entry_size (key value : List Nat) : Nat := 2 + key.length + 2 + value.length

/-- Source `BlockBuilder::entry_encode`: `[key_len(2B), key, value_len(2B), value]`. -/
def entry_encode (key value : List Nat) : List Nat :=
  u16be key.length ++ key ++ u16be value.length ++ value

theorem entry_encode_length (k v : List Nat) :
    (entry_encode k v).length = entry_size k v := by
  simp [entry_encode, entry_size, u16be]; omega

/-- Source `BlockBuilder::is_empty`. -/
def BlockBuilder.is_empty (b : BlockBuilder) : Bool := b.offsets.isEmpty

/-- Source `BlockBuilder::add`.  `none` models a panic: the `assert!` on an
empty key, the checked `usize` underflow of `block_size - SIZEOF_U16` when
`block_size < 2` (with overflow checks disabled the subtraction would instead
wrap and the guard would never reject such a builder), and the
`u16::try_from(offset).unwrap()` when the entry would start at or past byte
65536. -/
def BlockBuilder.add (b : BlockBuilder) (key value : List Nat) :
    Option (BlockBuilder × Bool) :=
  if key = [] then none
  else
    let entry_total_size := entry_size key value + 2
    if b.block_size < 2 then none
    else if b.block_size - 2 < b.occupy_size + entry_total_size ∧ b.is_empty = false then
      some (b, false)
    else
      let offset := b.data.length
      if 65536 ≤ offset then none
      else some ({ b with
          data := b.data ++ entry_encode key value,
          offsets := b.offsets ++ [offset],
          occupy_size := b.occupy_size + entry_total_size }, true)

/-- Source `BlockBuilder::build`. -/
def BlockBuilder.build (b : BlockBuilder) : Block :=
  { data := b.data, offsets := b.offsets }

/-- Admit a whole sequence of entries: each `add` must return `true`
("admitted"); a rejected or panicking `add` yields `none`. -/
def BlockBuilder.addAll (b : BlockBuilder) : List Entry → Option BlockBuilder
  | [] => some b
  | (k, v) :: es =>
    match b.add k v with
    | some (b', true) => b'.addAll es
    | _ => none

/-! ### BlockIterator (`block/iterator.rs`) -/

/-- Source `BlockIterator`: a cursor over one block, caching the decoded
current key and value. -/
structure BlockIterator where
  block : Block
  key : List Nat
  value : List Nat
  idx : Nat
  deriving DecidableEq, Repr

/-- Source `BlockIterator::new`. -/
def BlockIterator.new (b : Block) : BlockIterator :=
  { block := b, key := [], value := [], idx := 0 }

/-- Source `BlockIterator::seek_to_offset`: decode the entry that starts at
byte `offset` of the data region (the source slices, which panics out of
range; the total `take`/`drop` here agree with it on in-range accesses). -/
def BlockIterator.seek_to_offset (it : BlockIterator) (offset : Nat) : BlockIterator :=
  let key_len := readU16At it.block.data offset
  let key := (it.block.data.drop (offset + 2)).take key_len
  let value_len := readU16At it.block.data (offset + 2 + key_len)
  let value := (it.block.data.drop (offset + 2 + key_len + 2)).take value_len
  { it with key := key, value := value }

/-- Source `BlockIterator::seek_to_idx`: out of range clears both buffers and
leaves `idx` untouched; otherwise decodes the entry and records `idx`. -/
def BlockIterator.seek_to_idx (it : BlockIterator) (idx : Nat) : BlockIterator :=
  if it.block.offsets.length ≤ idx then { it with key := [], value := [] }
  else { it.seek_to_offset (it.block.offsets.getD idx 0) with idx := idx }

/-- Source `BlockIterator::is_valid`: the decoded key is non-empty. -/
def BlockIterator.is_valid (it : BlockIterator) : Bool := !it.key.isEmpty

/-- Source `BlockIterator::seek_to_first`. -/
def BlockIterator.seek_to_first (it : BlockIterator) : BlockIterator :=
  it.seek_to_idx 0

/-- Source `BlockIterator::next`: `self.idx += 1` happens before the seek, so
an out-of-range seek still leaves the incremented index behind. -/
def BlockIterator.next (it : BlockIterator) : BlockIterator :=
  ({ it with idx := it.idx + 1 }).seek_to_idx (it.idx + 1)

/-- Source `BlockIterator::create_and_seek_to_first`. -/
def BlockIterator.create_and_seek_to_first (b : Block) : BlockIterator :=
  (BlockIterator.new b).seek_to_first

/-- Binary-search loop of `BlockIterator::seek_to_key`: probe `mid`, narrow on
the three-way comparison of the probed key with `key`, return immediately on
equality. -/
def BlockIterator.seekLoop (it : BlockIterator) (key : List Nat) (low high : Nat) :
    BlockIterator :=
  if h : low < high then
    let mid := low + (high - low) / 2
    let it' := it.seek_to_idx mid
    if key < it'.key then it'.seekLoop key low mid
    else if it'.key < key then it'.seekLoop key (mid + 1) high
    else it'
  else it.seek_to_idx low
termination_by high - low
decreasing_by
  · omega
  · omega

/-- Source `BlockIterator::seek_to_key`: search on `[0, offsets.len())`. -/
def BlockIterator.seek_to_key (it : BlockIterator) (key : List Nat) : BlockIterator :=
  it.seekLoop key 0 it.block.offsets.length

/-- Source `BlockIterator::create_and_seek_to_key`. -/
def BlockIterator.create_and_seek_to_key (b : Block) (key : List Nat) : BlockIterator :=
  (BlockIterator.new b).seek_to_key key

/-- Collect the entries exposed by repeatedly reading and advancing a block
iterator while it is valid (`fuel` bounds the loop; `Block.toList` supplies
enough for any block). -/
def BlockIterator.collect : Nat → BlockIterator → List Entry
  | 0, _ => []
  | fuel + 1, it =>
    if it.is_valid then (it.key, it.value) :: BlockIterator.collect fuel it.next
    else []

/-- Iterate a block from its first entry to exhaustion. -/
def Block.toList (b : Block) : List Entry :=
  BlockIterator.collect (b.offsets.length + 1) (BlockIterator.create_and_seek_to_first b)

/-! ### Claims C8 and C9: BlockBuilder capacity and construction -/

/-- C8, counterexample.  The claim states that the first `add` on any
`BlockBuilder` with target size `S` returns `true` regardless of entry size.
For `S = 0` the size guard computes `block_size - SIZEOF_U16` on `usize`,
which underflows, so the first `add` panics instead of returning `true` (and
with overflow checks disabled the reject-iff condition of the claim is also
violated, since the wrapped bound never rejects). -/
theorem C8_counterexample : (BlockBuilder.new 0).add [0] [1] = none := by decide

/-- C8 (amended): for a `BlockBuilder` whose target size is at least 2 (so the
size guard does not underflow) and a non-empty key: the first `add` returns
`true` regardless of entry size; a later `add` returns `false` iff the occupied
size plus the entry's encoded bytes plus the 2-byte offset slot plus the
trailing 2-byte count exceeds `S`; and a rejected `add` leaves the builder
unchanged. -/
theorem C8_block_capacity (S : Nat) (hS : 2 ≤ S) :
    (∀ k v, k ≠ [] → ((BlockBuilder.new S).add k v).map Prod.snd = some true) ∧
    (∀ (b : BlockBuilder) k v, b.block_size = S → k ≠ [] → b.offsets ≠ [] →
      (((b.add k v).map Prod.snd = some false) ↔
        S < b.occupy_size + entry_size k v + 2 + 2)) ∧
    (∀ (b b' : BlockBuilder) k v, b.add k v = some (b', false) → b' = b) := by
  refine ⟨?_, ?_, ?_⟩
  · intro k v hk
    simp only [BlockBuilder.add, BlockBuilder.new, BlockBuilder.is_empty, if_neg hk]
    simp only [List.isEmpty_nil]
    have h2 : ¬ S < 2 := by omega
    rw [if_neg h2]
    have hcond : ¬ (S - 2 < 0 + (entry_size k v + 2) ∧ true = false) := by
      simp
    rw [if_neg hcond]
    simp
  · intro b k v hbs hk hoff
    have hemp : b.is_empty = false := by
      simp [BlockBuilder.is_empty, List.isEmpty_iff, hoff]
    simp only [BlockBuilder.add, if_neg hk]
    have h2 : ¬ b.block_size < 2 := by omega
    rw [if_neg h2]
    by_cases hcond : b.block_size - 2 < b.occupy_size + (entry_size k v + 2)
    · rw [if_pos ⟨hcond, hemp⟩]
      constructor
      · intro _; omega
      · intro _; rfl
    · rw [if_neg (by simp [hcond])]
      constructor
      · intro h
        by_cases hov : 65536 ≤ b.data.length
        · rw [if_pos hov] at h; simp at h
        · rw [if_neg hov] at h; simp at h
      · intro h; omega
  · intro b b' k v h
    simp only [BlockBuilder.add] at h
    split at h
    · exact absurd h (by simp)
    · split at h
      · exact absurd h (by simp)
      · split at h
        · cases h; rfl
        · split at h
          · exact absurd h (by simp)
          · simp at h

/-- C8, witness: the amended claim at `S = 16`. -/
theorem C8_witness :
    2 ≤ 16 ∧ ((BlockBuilder.new 16).add [7] [8]).map Prod.snd = some true :=
  ⟨by decide, (C8_block_capacity 16 (by decide)).1 [7] [8] (by decide)⟩

/-- C9, counterexample.  The claim states that constructing a builder with a
non-positive block size is rejected by an assertion.  In the source
`BlockBuilder::new` performs no check at all: `new(0)` returns an ordinary
builder, and the first `add` on it then hits the `usize` underflow of
`block_size - SIZEOF_U16` (a checked-arithmetic panic, not an assertion, and a
silent wraparound with overflow checks disabled). -/
theorem C9_counterexample :
    BlockBuilder.new 0 =
      { occupy_size := 0, block_size := 0, data := [], offsets := [] } ∧
    (BlockBuilder.new 0).add [1] [2] = none :=
  ⟨rfl, by decide⟩

/-- C9 (amended): `BlockBuilder::new` performs no validation of the block size;
a builder with block size `< 2` (in particular 0) is constructed normally, and
the first `add` on such a builder underflows the `usize` computation
`block_size - 2` instead of failing a dedicated assertion. -/
theorem C9_no_size_assertion :
    (∀ S, BlockBuilder.new S =
      { occupy_size := 0, block_size := S, data := [], offsets := [] }) ∧
    (∀ S k v, S < 2 → k ≠ [] → (BlockBuilder.new S).add k v = none) := by
  refine ⟨fun S => rfl, ?_⟩
  intro S k v hS hk
  simp only [BlockBuilder.add, if_neg hk]
  rw [if_pos (by simpa [BlockBuilder.new] using hS)]

/-- C9, witness: the amended claim at block size 1. -/
theorem C9_witness : (BlockBuilder.new 1).add [5] [6] = none :=
  C9_no_size_assertion.2 1 [5] [6] (by decide) (by decide)

/-! ### Block layout facts and the encode/decode round trip (claim C7) -/

/-- Concatenation of the encoded entries of a sequence. -/
def entriesData (es : List Entry) : List Nat :=
  es.flatMap fun kv => entry_encode kv.1 kv.2

/-- Offsets at which successive entries start, the first one at `acc`. -/
def entryOffsets : List Entry → Nat → List Nat
  | [], _ => []
  | kv :: es, acc => acc :: entryOffsets es (acc + entry_size kv.1 kv.2)

theorem entriesData_nil : entriesData [] = [] := rfl

theorem entriesData_cons (kv : Entry) (es : List Entry) :
    entriesData (kv :: es) = entry_encode kv.1 kv.2 ++ entriesData es := by
  simp [entriesData]

theorem entriesData_append (xs ys : List Entry) :
    entriesData (xs ++ ys) = entriesData xs ++ entriesData ys := by
  simp [entriesData]

theorem entryOffsets_length (es : List Entry) (acc : Nat) :
    (entryOffsets es acc).length = es.length := by
  induction es generalizing acc with
  | nil => rfl
  | cons kv t ih => simp [entryOffsets, ih]

theorem entryOffsets_append (xs ys : List Entry) (acc : Nat) :
    entryOffsets (xs ++ ys) acc =
      entryOffsets xs acc ++ entryOffsets ys (acc + (entriesData xs).length) := by
  induction xs generalizing acc with
  | nil => simp [entryOffsets, entriesData]
  | cons kv t ih =>
    simp only [List.cons_append, entryOffsets, List.append_eq]
    rw [ih, entriesData_cons]
    simp [entry_encode_length, Nat.add_assoc]

/-- Offsets pushed by admitted `add`s: the layout invariant of `addAll`. -/
theorem addAll_layout : ∀ (es : List Entry) (b0 b : BlockBuilder),
    b0.addAll es = some b →
    b.data = b0.data ++ entriesData es ∧
    b.offsets = b0.offsets ++ entryOffsets es b0.data.length ∧
    b.block_size = b0.block_size ∧
    (∀ kv ∈ es, kv.1 ≠ []) ∧
    (∀ o ∈ entryOffsets es b0.data.length, o < 65536) := by
  intro es
  induction es with
  | nil =>
    intro b0 b h
    simp only [BlockBuilder.addAll] at h
    cases h
    simp [entriesData, entryOffsets]
  | cons kv t ih =>
    intro b0 b h
    obtain ⟨k, v⟩ := kv
    simp only [BlockBuilder.addAll] at h
    revert h
    unfold BlockBuilder.add
    by_cases hk : k = []
    · simp [hk]
    · rw [if_neg hk]
      by_cases h2 : b0.block_size < 2
      · simp [h2]
      · rw [if_neg h2]
        by_cases hcond : b0.block_size - 2 < b0.occupy_size + (entry_size k v + 2) ∧
            b0.is_empty = false
        · rw [if_pos hcond]; intro h; exact absurd h (by simp)
        · rw [if_neg hcond]
          by_cases hov : 65536 ≤ b0.data.length
          · simp [hov]
          · rw [if_neg hov]
            intro h
            simp only at h
            obtain ⟨hd, ho, hs, hks, hbound⟩ := ih _ _ h
            refine ⟨?_, ?_, by simpa using hs, ?_, ?_⟩
            · rw [hd]; simp [entriesData_cons]
            · rw [ho]
              simp only [entryOffsets, List.length_append, entry_encode_length]
              simp
            · intro kv hkv
              rcases List.mem_cons.mp hkv with h1 | h1
              · simpa [h1] using hk
              · exact hks kv h1
            · intro o ho'
              simp only [entryOffsets] at ho'
              rcases List.mem_cons.mp ho' with h1 | h1
              · omega
              · apply hbound
                simpa [entry_encode_length] using h1

/-- Parsing the big-endian serialization of a list of `u16` values recovers it. -/
theorem parseU16s_flatMap (l : List Nat) (h : ∀ o ∈ l, o < 65536) :
    parseU16s (l.flatMap u16be) = l := by
  induction l with
  | nil => rfl
  | cons a t ih =>
    simp only [List.flatMap_cons, u16be, List.cons_append, List.nil_append]
    show two_u8_to_u16 (a % 65536 / 256) (a % 256) :: parseU16s (t.flatMap u16be) = a :: t
    rw [readU16_u16be a (h a (by simp)), ih (fun o ho => h o (by simp [ho]))]

theorem flatMap_u16be_length (l : List Nat) : (l.flatMap u16be).length = 2 * l.length := by
  induction l with
  | nil => rfl
  | cons a t ih => simp [List.flatMap_cons, u16be, ih]; omega

theorem readU16At_append_self (l : List Nat) (x y : Nat) :
    readU16At (l ++ [x, y]) l.length = two_u8_to_u16 x y := by
  unfold readU16At
  rw [List.getD_append_right _ _ _ _ (Nat.le_refl _),
      List.getD_append_right _ _ _ _ (Nat.le_succ_of_le (Nat.le_refl _))]
  simp

/-- Round trip of `Block::encode` / `Block::decode`: exact whenever every
offset and the entry count fit in a `u16` (they always do for a block built by
`BlockBuilder`, whose `add` checks each offset and whose entries occupy at
least five bytes each). -/
theorem Block.decode_encode (b : Block)
    (hoff : ∀ o ∈ b.offsets, o < 65536) (hcnt : b.offsets.length < 65536) :
    Block.decode b.encode = b := by
  have e1 : Block.encode b = (b.data ++ b.offsets.flatMap u16be) ++
      [b.offsets.length % 65536 / 256, b.offsets.length % 256] := by
    simp [Block.encode, u16be]
  rw [e1]
  simp only [Block.decode]
  have e2 : ((b.data ++ b.offsets.flatMap u16be) ++
      [b.offsets.length % 65536 / 256, b.offsets.length % 256]).length - 2 =
      (b.data ++ b.offsets.flatMap u16be).length := by
    simp; omega
  rw [e2, readU16At_append_self, readU16_u16be _ hcnt, List.take_left]
  have e3 : (b.data ++ b.offsets.flatMap u16be).length - b.offsets.length * 2 =
      b.data.length := by
    rw [List.length_append, flatMap_u16be_length]; omega
  rw [e3, List.drop_left, parseU16s_flatMap _ hoff, List.append_assoc, List.take_left]

/-! ### Iterating a built block -/

/-- The block a `BlockBuilder` holds after admitting `es` from fresh. -/
def builtBlock (es : List Entry) : Block :=
  { data := entriesData es, offsets := entryOffsets es 0 }

theorem readU16At_at_length (pre l : List Nat) :
    readU16At (pre ++ l) pre.length = readU16At l 0 := by
  unfold readU16At
  rw [List.getD_append_right _ _ _ _ (Nat.le_refl _),
      List.getD_append_right _ _ _ _ (Nat.le_succ_of_le (Nat.le_refl _))]
  simp

theorem readU16At_u16be_head (x : Nat) (rest : List Nat) (h : x < 65536) :
    readU16At (u16be x ++ rest) 0 = x := by
  unfold readU16At u16be
  simp only [List.cons_append, List.getD_cons_zero, List.getD_cons_succ]
  exact readU16_u16be x h

/-- Decoding the entry that starts right after `pre` in the data region. -/
theorem seek_to_offset_spec (it : BlockIterator) (pre k v rest : List Nat)
    (hdata : it.block.data = pre ++ entry_encode k v ++ rest)
    (hk : k.length < 65536) (hv : v.length < 65536) :
    it.seek_to_offset pre.length = { it with key := k, value := v } := by
  have h1 : it.block.data = pre ++ (u16be k.length ++ (k ++ (u16be v.length ++ (v ++ rest)))) := by
    rw [hdata]; simp [entry_encode]
  have hkl : readU16At it.block.data pre.length = k.length := by
    rw [h1, readU16At_at_length, readU16At_u16be_head _ _ hk]
  have h2 : it.block.data = (pre ++ u16be k.length) ++ (k ++ (u16be v.length ++ (v ++ rest))) := by
    rw [h1]; simp
  have hklen : (pre ++ u16be k.length).length = pre.length + 2 := by simp [u16be]
  have hkey : (it.block.data.drop (pre.length + 2)).take k.length = k := by
    rw [h2, ← hklen, List.drop_left, List.take_left]
  have h3 : it.block.data =
      ((pre ++ u16be k.length) ++ k) ++ (u16be v.length ++ (v ++ rest)) := by
    rw [h2]; simp
  have hklen2 : ((pre ++ u16be k.length) ++ k).length = pre.length + 2 + k.length := by
    simp [u16be]; omega
  have hvl : readU16At it.block.data (pre.length + 2 + k.length) = v.length := by
    rw [h3, ← hklen2, readU16At_at_length, readU16At_u16be_head _ _ hv]
  have h4 : it.block.data =
      (((pre ++ u16be k.length) ++ k) ++ u16be v.length) ++ (v ++ rest) := by
    rw [h3]; simp
  have hvlen : (((pre ++ u16be k.length) ++ k) ++ u16be v.length).length =
      pre.length + 2 + k.length + 2 := by
    simp [u16be]; omega
  have hval : (it.block.data.drop (pre.length + 2 + k.length + 2)).take v.length = v := by
    rw [h4, ← hvlen, List.drop_left, List.take_left]
  unfold BlockIterator.seek_to_offset
  simp only [hkl, hvl, hkey, hval]

theorem entryOffsets_getD_split (done : List Entry) (kv : Entry) (rest : List Entry) :
    (entryOffsets (done ++ kv :: rest) 0).getD done.length 0 = (entriesData done).length := by
  rw [entryOffsets_append]
  rw [List.getD_append_right _ _ _ _ (by rw [entryOffsets_length])]
  simp [entryOffsets_length, entryOffsets]

/-- Seeking a built block to an in-range index decodes that entry. -/
theorem seek_to_idx_built (es0 : List Entry) (done : List Entry) (kv : Entry)
    (rest : List Entry) (it : BlockIterator)
    (hsplit : es0 = done ++ kv :: rest)
    (hblock : it.block = builtBlock es0)
    (hk : kv.1.length < 65536) (hv : kv.2.length < 65536) :
    it.seek_to_idx done.length = { it with key := kv.1, value := kv.2, idx := done.length } := by
  have hn : it.block.offsets.length = es0.length := by
    rw [hblock]; exact entryOffsets_length _ _
  have hlt : done.length < es0.length := by
    rw [hsplit]; simp
  unfold BlockIterator.seek_to_idx
  rw [if_neg (by omega)]
  have hgd : it.block.offsets.getD done.length 0 = (entriesData done).length := by
    rw [hblock]
    show (entryOffsets es0 0).getD done.length 0 = _
    rw [hsplit]; exact entryOffsets_getD_split done kv rest
  rw [hgd]
  rw [seek_to_offset_spec it (entriesData done) kv.1 kv.2 (entriesData rest) ?_ hk hv]
  rw [hblock]
  show entriesData es0 = _
  rw [hsplit, entriesData_append, entriesData_cons]
  simp

/-- Seeking a built block past the end invalidates the iterator. -/
theorem seek_to_idx_end (es0 : List Entry) (it : BlockIterator) (i : Nat)
    (hblock : it.block = builtBlock es0) (hi : es0.length ≤ i) :
    it.seek_to_idx i = { it with key := [], value := [] } := by
  have hlen : it.block.offsets.length = es0.length := by
    rw [hblock]; exact entryOffsets_length _ _
  unfold BlockIterator.seek_to_idx
  rw [if_pos (by omega)]

/-- Collecting from position `done.length` of a built block yields `rest`. -/
theorem collect_built : ∀ (rest done : List Entry) (es0 : List Entry)
    (hsplit : es0 = done ++ rest)
    (hkeys : ∀ kv ∈ es0, kv.1 ≠ [])
    (hlens : ∀ kv ∈ es0, kv.1.length < 65536 ∧ kv.2.length < 65536)
    (it : BlockIterator) (hblock : it.block = builtBlock es0)
    (fuel : Nat) (hfuel : rest.length < fuel),
    BlockIterator.collect fuel (it.seek_to_idx done.length) = rest := by
  intro rest
  induction rest with
  | nil =>
    intro done es0 hsplit hkeys hlens it hblock fuel hfuel
    obtain ⟨f, rfl⟩ : ∃ f, fuel = f + 1 := ⟨fuel - 1, by omega⟩
    rw [seek_to_idx_end es0 it done.length hblock (by rw [hsplit]; simp)]
    simp [BlockIterator.collect, BlockIterator.is_valid]
  | cons kv rest' ih =>
    intro done es0 hsplit hkeys hlens it hblock fuel hfuel
    obtain ⟨f, rfl⟩ : ∃ f, fuel = f + 1 := ⟨fuel - 1, by omega⟩
    have hmem : kv ∈ es0 := by rw [hsplit]; simp
    have hkv := hlens kv hmem
    rw [seek_to_idx_built es0 done kv rest' it hsplit hblock hkv.1 hkv.2]
    simp only [BlockIterator.collect]
    rw [if_pos (by simp [BlockIterator.is_valid, hkeys kv hmem])]
    have hnext : ({ it with key := kv.1, value := kv.2, idx := done.length } :
        BlockIterator).next =
        ({ it with key := kv.1, value := kv.2, idx := done.length + 1} :
          BlockIterator).seek_to_idx (done.length + 1) := rfl
    rw [hnext]
    have hlen' : done.length + 1 = (done ++ [kv]).length := by simp
    rw [hlen']
    rw [ih (done ++ [kv]) es0 (by rw [hsplit]; simp) hkeys hlens
      { it with key := kv.1, value := kv.2, idx := (done ++ [kv]).length } hblock f
      (by simpa using hfuel)]

/-- Iterating a built block reproduces the admitted entries exactly, provided
every key and value length fits in the `u16` length fields. -/
theorem builtBlock_toList (es : List Entry)
    (hkeys : ∀ kv ∈ es, kv.1 ≠ [])
    (hlens : ∀ kv ∈ es, kv.1.length < 65536 ∧ kv.2.length < 65536) :
    (builtBlock es).toList = es := by
  unfold Block.toList BlockIterator.create_and_seek_to_first BlockIterator.seek_to_first
  have h0 : (0 : Nat) = ([] : List Entry).length := rfl
  rw [h0]
  rw [collect_built es [] es rfl hkeys hlens (BlockIterator.new (builtBlock es)) rfl _ ?_]
  show es.length < (builtBlock es).offsets.length + 1
  rw [show (builtBlock es).offsets.length = es.length from entryOffsets_length _ _]
  omega

/-! ### Claim C7: block round trip -/

/-- Every admitted entry occupies at least five bytes, and `add` checks every
offset against 65536, so an admitted sequence has fewer than 65536 entries. -/
theorem entryOffsets_count_bound : ∀ (es : List Entry) (acc : Nat),
    (∀ kv ∈ es, kv.1 ≠ []) →
    (∀ o ∈ entryOffsets es acc, o < 65536) →
    es ≠ [] → acc + 5 * es.length ≤ 65540 := by
  intro es
  induction es with
  | nil => intro acc _ _ h; exact absurd rfl h
  | cons kv t ih =>
    intro acc hkeys hoff _
    have hacc : acc < 65536 := hoff acc (by simp [entryOffsets])
    have hsize : 5 ≤ entry_size kv.1 kv.2 := by
      have : kv.1 ≠ [] := hkeys kv (by simp)
      have : 1 ≤ kv.1.length := by
        cases h : kv.1 with
        | nil => exact absurd h this
        | cons a l => simp
      simp [entry_size]; omega
    by_cases ht : t = []
    · subst ht; simp; omega
    · have hrec : acc + entry_size kv.1 kv.2 + 5 * t.length ≤ 65540 := by
        apply ih
        · intro x hx; exact hkeys x (List.mem_cons_of_mem _ hx)
        · intro o ho
          apply hoff
          simp only [entryOffsets, List.mem_cons]
          exact Or.inr ho
        · exact ht
      simp only [List.length_cons]
      omega

theorem add_first (b0 : BlockBuilder) (k v : List Nat) (hk : k ≠ [])
    (h2 : 2 ≤ b0.block_size) (hemp : b0.is_empty = true) (hov : b0.data.length < 65536) :
    b0.add k v = some ({ b0 with
        data := b0.data ++ entry_encode k v,
        offsets := b0.offsets ++ [b0.data.length],
        occupy_size := b0.occupy_size + (entry_size k v + 2) }, true) := by
  unfold BlockBuilder.add
  rw [if_neg hk, if_neg (by omega), if_neg (by simp [hemp]), if_neg (by omega)]

theorem addAll_singleton (b0 b1 : BlockBuilder) (k v : List Nat)
    (h : b0.add k v = some (b1, true)) : b0.addAll [(k, v)] = some b1 := by
  simp [BlockBuilder.addAll, h]

/-- C7, counterexample.  The claim quantifies over every sequence of pairs
with non-empty keys admitted by a `BlockBuilder`, but the `u16` length fields
truncate: the first `add` admits any entry regardless of size, so a single
pair whose value is 65536 bytes long is admitted, its value length is encoded
as `65536 % 65536 = 0`, and iterating the decoded block returns `([0], [])`
instead of the original pair. -/
theorem C7_counterexample :
    ((BlockBuilder.new 4096).addAll [([0], List.replicate 65536 1)]).map
        (fun bb => (Block.decode bb.build.encode).toList) = some [([0], [])] ∧
    ([([0], ([] : List Nat))] : List Entry) ≠ [([0], List.replicate 65536 1)] := by
  constructor
  case right =>
    intro h
    have h2 := congrArg (fun l : List Entry => (l.headD ([], [])).2.length) h
    simp only [List.headD_cons, List.length_nil, List.length_replicate] at h2
    exact absurd h2 (by norm_num)
  case left =>
    have hu1 : u16be 1 = [0, 1] := by norm_num [u16be]
    have hu65536 : u16be 65536 = [0, 0] := by norm_num [u16be]
    have hadd := addAll_singleton _ _ [0] (List.replicate 65536 1)
      (add_first (BlockBuilder.new 4096) [0] (List.replicate 65536 1)
        (by decide) (by decide) (by decide) (by decide))
    rw [hadd, Option.map_some', Option.some_inj]
    have hb1 : ({ BlockBuilder.new 4096 with
        data := (BlockBuilder.new 4096).data ++ entry_encode [0] (List.replicate 65536 1),
        offsets := (BlockBuilder.new 4096).offsets ++ [(BlockBuilder.new 4096).data.length],
        occupy_size := (BlockBuilder.new 4096).occupy_size +
          (entry_size [0] (List.replicate 65536 1) + 2) } : BlockBuilder).build =
        builtBlock [([0], List.replicate 65536 1)] := by
      simp only [BlockBuilder.build, builtBlock, entriesData, entryOffsets,
        BlockBuilder.new, List.flatMap_cons, List.flatMap_nil, List.append_nil,
        List.nil_append, List.length_nil]
    rw [hb1]
    rw [Block.decode_encode _ ?hoff ?hcnt]
    case hoff =>
      intro o ho
      simp only [builtBlock, entryOffsets, List.mem_cons, List.not_mem_nil, or_false] at ho
      omega
    case hcnt =>
      show (entryOffsets [([0], List.replicate 65536 1)] 0).length < 65536
      rw [entryOffsets_length]
      norm_num
    have hBd : (builtBlock [([0], List.replicate 65536 1)]).data =
        0 :: 1 :: 0 :: 0 :: 0 :: List.replicate 65536 1 := by
      simp only [builtBlock, entriesData, List.flatMap_cons, List.flatMap_nil,
        List.append_nil, entry_encode, List.length_replicate, List.length_cons,
        List.length_nil, hu1, hu65536, List.cons_append, List.nil_append]
    have hBo : (builtBlock [([0], List.replicate 65536 1)]).offsets = [0] := by
      simp only [builtBlock, entryOffsets]
    unfold Block.toList BlockIterator.create_and_seek_to_first BlockIterator.seek_to_first
    rw [hBo]
    simp only [List.length_cons, List.length_nil]
    have hso : (BlockIterator.new (builtBlock [([0], List.replicate 65536 1)])).seek_to_offset 0 =
        { block := builtBlock [([0], List.replicate 65536 1)],
          key := [0], value := [], idx := 0 } := by
      unfold BlockIterator.seek_to_offset BlockIterator.new
      dsimp only
      rw [hBd]
      simp only [readU16At, two_u8_to_u16, List.getD_cons_zero, List.getD_cons_succ]
      have e8 : (0 : Nat) * 256 + 0 = 0 := by norm_num
      have e1 : (0 : Nat) * 256 + 1 = 1 := by norm_num
      rw [e8, e1]
      have e3 : List.drop (0 + 2) (0 :: 1 :: 0 :: 0 :: 0 :: List.replicate 65536 1) =
          0 :: 0 :: 0 :: List.replicate 65536 1 := rfl
      have e4 : List.take 1 (0 :: 0 :: 0 :: List.replicate 65536 1) = [0] := rfl
      rw [e3, e4]
      simp only [List.take_zero]
    have hblocknew : (BlockIterator.new (builtBlock [([0], List.replicate 65536 1)])).block =
        builtBlock [([0], List.replicate 65536 1)] := rfl
    have hseek : (BlockIterator.new (builtBlock [([0], List.replicate 65536 1)])).seek_to_idx 0 =
        { block := builtBlock [([0], List.replicate 65536 1)],
          key := [0], value := [], idx := 0 } := by
      unfold BlockIterator.seek_to_idx
      rw [hblocknew, hBo]
      rw [if_neg (by norm_num)]
      rw [show ([0] : List Nat).getD 0 0 = 0 from rfl]
      rw [hso]
    rw [hseek]
    unfold BlockIterator.collect
    rw [if_pos (by simp [BlockIterator.is_valid])]
    have hnext : ({ block := builtBlock [([0], List.replicate 65536 1)],
                    key := [0], value := [], idx := 0 } : BlockIterator).next =
        { block := builtBlock [([0], List.replicate 65536 1)],
          key := [], value := [], idx := 1 } := by
      unfold BlockIterator.next BlockIterator.seek_to_idx
      dsimp only
      rw [hBo]
      rw [if_pos (by norm_num)]
    rw [hnext]
    unfold BlockIterator.collect
    rw [if_neg (by simp [BlockIterator.is_valid])]


/-- C7 (amended): for every sequence of pairs admitted (each `add` returning
`true`) by a `BlockBuilder`, decoding the encoded block yields an equal block
(this part needs no further hypothesis), and iterating the decoded block from
the first entry reproduces the admitted sequence exactly provided each key and
value is shorter than 65536 bytes (the `u16` length fields truncate longer
ones, as the counterexample shows). -/
theorem C7_block_roundtrip (S : Nat) (es : List Entry) (b : BlockBuilder)
    (hadd : (BlockBuilder.new S).addAll es = some b)
    (hlens : ∀ kv ∈ es, kv.1.length < 65536 ∧ kv.2.length < 65536) :
    Block.decode b.build.encode = b.build ∧ b.build.toList = es := by
  obtain ⟨hd, ho, _, hkeys, hbound⟩ := addAll_layout es (BlockBuilder.new S) b hadd
  have hb : b.build = builtBlock es := by
    simp only [BlockBuilder.build, builtBlock, Block.mk.injEq]
    constructor
    · simpa [BlockBuilder.new] using hd
    · simpa [BlockBuilder.new] using ho
  have hoff : ∀ o ∈ (builtBlock es).offsets, o < 65536 := by
    intro o hmem
    exact hbound o (by simpa [builtBlock, BlockBuilder.new] using hmem)
  have hcnt : (builtBlock es).offsets.length < 65536 := by
    have hlen : (builtBlock es).offsets.length = es.length := entryOffsets_length _ _
    by_cases hes : es = []
    · subst hes; simp [builtBlock, entryOffsets]
    · have := entryOffsets_count_bound es 0 hkeys
        (by simpa [builtBlock, BlockBuilder.new] using hoff) hes
      omega
  rw [hb]
  exact ⟨Block.decode_encode _ hoff hcnt, builtBlock_toList es hkeys hlens⟩

/-- C7, witness: the amended claim at a concrete three-entry block. -/
theorem C7_witness :
    Block.decode (BlockBuilder.build (BlockBuilder.mk 25 64
        [0, 1, 1, 0, 1, 10, 0, 1, 2, 0, 2, 20, 21, 0, 1, 3, 0, 1, 30]
        [0, 6, 13])).encode =
      BlockBuilder.build (BlockBuilder.mk 25 64
        [0, 1, 1, 0, 1, 10, 0, 1, 2, 0, 2, 20, 21, 0, 1, 3, 0, 1, 30]
        [0, 6, 13]) ∧
    (BlockBuilder.build (BlockBuilder.mk 25 64
        [0, 1, 1, 0, 1, 10, 0, 1, 2, 0, 2, 20, 21, 0, 1, 3, 0, 1, 30]
        [0, 6, 13])).toList =
      [([1], [10]), ([2], [20, 21]), ([3], [30])] := by
  have hadd : (BlockBuilder.new 64).addAll [([1], [10]), ([2], [20, 21]), ([3], [30])] =
      some { occupy_size := 25, block_size := 64,
             data := [0, 1, 1, 0, 1, 10, 0, 1, 2, 0, 2, 20, 21, 0, 1, 3, 0, 1, 30],
             offsets := [0, 6, 13] } := by decide
  exact C7_block_roundtrip 64 _ _ hadd (by decide)

/-! ### MockIterator (`tests/iterator_mock.rs`)

The repository's own list-backed `StorageIterator`, used here to instantiate
the generic iterator combinators.  Keys compare by `<` on `List Nat`, the
lexicographic order, which agrees with `Ord` on Rust byte slices. -/

/-- Source `MockIterator`: a vector of entries and a cursor. -/
structure MockIterator where
  data : List Entry
  index : Nat
  deriving DecidableEq, Repr

/-- Source `MockIterator::key`.  The source indexes `data[index]`, which panics
when the iterator is invalid; the default entry here is never exposed on the
guarded paths the combinators use. -/
def MockIterator.key (m : MockIterator) : List Nat := (m.data.getD m.index ([], [])).1

/-- Source `MockIterator::value`. -/
def MockIterator.value (m : MockIterator) : List Nat := (m.data.getD m.index ([], [])).2

/-- Source `MockIterator::is_valid`. -/
def MockIterator.is_valid (m : MockIterator) : Bool := m.index < m.data.length

/-- Source `MockIterator::next`: advances only while in range and never errors. -/
def MockIterator.next (m : MockIterator) : MockIterator :=
  if m.index < m.data.length then { m with index := m.index + 1 } else m

/-- Remaining entries after the cursor. -/
def MockIterator.suffix (m : MockIterator) : List Entry := m.data.drop m.index

/-- Number of remaining entries (the termination measure of every loop that
advances the iterator). -/
def MockIterator.rem (m : MockIterator) : Nat := m.data.length - m.index

/-! ### MergeIterator (`iterators/merge_iterator.rs`) over MockIterator

`HeapWrapper`'s reversed comparator makes the source's `BinaryHeap` a priority
queue that yields the minimum by (key, input index); with that total order the
heap's observable behavior (push / pop / peek) is that of a sorted list, which
is how the heap is modelled here: `iters` is kept sorted by `wLe`, `pop` takes
the head, and a `PeekMut` mutation re-inserts the modified element. -/

/-- The (key, input index) order that `HeapWrapper`'s reversed comparator
realizes: smaller key first, ties to the smaller input index. -/
def wLe (a b : Nat × MockIterator) : Prop :=
  a.2.key < b.2.key ∨ (a.2.key = b.2.key ∧ a.1 ≤ b.1)

instance wLe.decidableRel : DecidableRel wLe := fun a b =>
  inferInstanceAs (Decidable (_ ∨ _))

instance wLe.isTotal : IsTotal (Nat × MockIterator) wLe where
  total a b := by
    unfold wLe
    rcases lt_trichotomy a.2.key b.2.key with h | h | h
    · exact Or.inl (Or.inl h)
    · rcases Nat.le_total a.1 b.1 with h' | h'
      · exact Or.inl (Or.inr ⟨h, h'⟩)
      · exact Or.inr (Or.inr ⟨h.symm, h'⟩)
    · exact Or.inr (Or.inl h)

instance wLe.isTrans : IsTrans (Nat × MockIterator) wLe where
  trans a b c hab hbc := by
    unfold wLe at *
    rcases hab with h1 | ⟨h1, h1'⟩ <;> rcases hbc with h2 | ⟨h2, h2'⟩
    · exact Or.inl (lt_trans h1 h2)
    · exact Or.inl (h2 ▸ h1)
    · exact Or.inl (h1 ▸ h2)
    · exact Or.inr ⟨h1.trans h2, le_trans h1' h2'⟩

/-- Source `MergeIterator` (specialized to `MockIterator`): the heap, as a
`wLe`-sorted list, plus the popped `current`. -/
structure MergeIter where
  iters : List (Nat × MockIterator)
  current : Option (Nat × MockIterator)
  deriving DecidableEq, Repr

/-- Source `MergeIterator::create`: empty input stays empty; if every input is
invalid, `iters.pop()` keeps the last one as `current`; otherwise all valid
inputs are pushed with their original indices and the minimum is popped. -/
def MergeIter.create (its : List MockIterator) : MergeIter :=
  if its.isEmpty then { iters := [], current := none }
  else if its.all (fun x => !x.is_valid) then
    match its.getLast? with
    | some it => { iters := [], current := some (0, it) }
    | none => { iters := [], current := none }
  else
    let heap := (its.enum.filter (fun p => p.2.is_valid)).foldl
      (fun h p => List.orderedInsert wLe p h) []
    { iters := heap.tail, current := heap.head? }

/-- Source `MergeIterator::key` (`current.unwrap()`: the default is never
exposed on guarded paths). -/
def MergeIter.key (m : MergeIter) : List Nat :=
  match m.current with
  | some c => c.2.key
  | none => []

/-- Source `MergeIterator::value`. -/
def MergeIter.value (m : MergeIter) : List Nat :=
  match m.current with
  | some c => c.2.value
  | none => []

/-- Source `MergeIterator::is_valid`. -/
def MergeIter.is_valid (m : MergeIter) : Bool :=
  match m.current with
  | some c => c.2.is_valid
  | none => false

/-- Measure of a heap: total remaining entries plus the number of iterators. -/
def heapMeasure (l : List (Nat × MockIterator)) : Nat :=
  (l.map (fun p => p.2.rem)).sum + l.length

theorem rem_next_le (m : MockIterator) : m.next.rem ≤ m.rem := by
  unfold MockIterator.next MockIterator.rem
  split <;> simp <;> omega

theorem rem_next_lt (m : MockIterator) (h : m.is_valid = true) : m.next.rem < m.rem := by
  unfold MockIterator.is_valid at h
  unfold MockIterator.next MockIterator.rem
  rw [if_pos (by simpa using h)]
  simp only
  simp at h
  omega

theorem next_of_invalid (m : MockIterator) (h : m.is_valid = false) : m.next = m := by
  unfold MockIterator.is_valid at h
  unfold MockIterator.next
  rw [if_neg (by simpa using h)]

theorem rem_next_lt_of_next_valid (m : MockIterator) (h : m.next.is_valid = true) :
    m.next.rem < m.rem := by
  rcases Bool.eq_false_or_eq_true m.is_valid with hv | hinv
  · exact rem_next_lt m hv
  · rw [next_of_invalid m hinv, hinv] at h
    cases h

theorem heapMeasure_orderedInsert (p : Nat × MockIterator)
    (l : List (Nat × MockIterator)) :
    heapMeasure (List.orderedInsert wLe p l) = p.2.rem + 1 + heapMeasure l := by
  have hperm := List.perm_orderedInsert wLe p l
  unfold heapMeasure
  rw [(hperm.map (fun p => p.2.rem)).sum_eq, hperm.length_eq]
  simp
  omega

/-- The same-key de-duplication loop at the top of `MergeIterator::next`:
while the heap top's key equals `current`'s key, advance it; drop it if it
went invalid, otherwise let `PeekMut` re-sift it.  (The error branch of the
source is unreachable here because `MockIterator::next` never fails.) -/
def dedupAdvance (k : List Nat) (l : List (Nat × MockIterator)) :
    List (Nat × MockIterator) :=
  match l with
  | [] => []
  | h :: t =>
    if h.2.key = k then
      let h' := (h.1, h.2.next)
      if h'.2.is_valid then dedupAdvance k (List.orderedInsert wLe h' t)
      else dedupAdvance k t
    else h :: t
termination_by heapMeasure l
decreasing_by
  · rw [heapMeasure_orderedInsert]
    show (h.1, h.2.next).2.rem + 1 + heapMeasure t < heapMeasure (h :: t)
    have := rem_next_lt_of_next_valid h.2 (by assumption)
    simp [heapMeasure]
    omega
  · show heapMeasure t < heapMeasure (h :: t)
    simp [heapMeasure]
    omega

/-- Source `MergeIterator::next`: de-duplicate the heap top, advance
`current`, replace it from the heap if it went invalid, otherwise swap with
the heap top if the top is smaller.  `none` models the `unwrap` panic when
`current` is absent. -/
def MergeIter.next (m : MergeIter) : Option MergeIter :=
  match m.current with
  | none => none
  | some cur =>
    let iters1 := dedupAdvance cur.2.key m.iters
    let cur' := (cur.1, cur.2.next)
    if cur'.2.is_valid = false then
      match iters1 with
      | [] => some { iters := [], current := some cur' }
      | h :: t => some { iters := t, current := some h }
    else
      match iters1 with
      | [] => some { iters := [], current := some cur' }
      | h :: t =>
        if wLe cur' h then some { iters := h :: t, current := some cur' }
        else some { iters := List.orderedInsert wLe cur' t, current := some h }

/-- Read-and-advance loop over a `MergeIter`, `fuel`-bounded. -/
def MergeIter.collect : Nat → MergeIter → List Entry
  | 0, _ => []
  | fuel + 1, m =>
    if m.is_valid then
      (m.key, m.value) ::
        (match m.next with
         | some m' => MergeIter.collect fuel m'
         | none => [])
    else []

/-- Total measure of a merge iterator state. -/
def MergeIter.measure (m : MergeIter) : Nat :=
  heapMeasure m.iters + (match m.current with | some c => c.2.rem + 1 | none => 0)

/-- Iterate a `MergeIter` to exhaustion. -/
def MergeIter.emitAll (m : MergeIter) : List Entry :=
  MergeIter.collect (m.measure + 1) m

/-! ### Facts about MockIterator positions -/

/-- Entries ordered by strictly ascending key. -/
def keyLt (e f : Entry) : Prop := e.1 < f.1

instance keyLt.decidableRel : DecidableRel keyLt := fun e f =>
  inferInstanceAs (Decidable (e.1 < f.1))

theorem is_valid_iff (m : MockIterator) : m.is_valid = true ↔ m.index < m.data.length := by
  simp [MockIterator.is_valid]

theorem suffix_eq_nil_iff (m : MockIterator) : m.suffix = [] ↔ m.is_valid = false := by
  unfold MockIterator.suffix
  rw [List.drop_eq_nil_iff]
  simp [MockIterator.is_valid]

theorem suffix_of_valid (m : MockIterator) (h : m.is_valid = true) :
    m.suffix = (m.key, m.value) :: m.next.suffix := by
  have hlt : m.index < m.data.length := (is_valid_iff m).mp h
  unfold MockIterator.suffix MockIterator.key MockIterator.value MockIterator.next
  rw [if_pos hlt]
  rw [List.drop_eq_getElem_cons hlt, List.getD_eq_getElem _ _ hlt]

theorem suffix_next_of_valid (m : MockIterator) (h : m.is_valid = true) :
    m.next.suffix = m.suffix.tail := by
  rw [suffix_of_valid m h]
  rfl

theorem rem_eq_suffix_length (m : MockIterator) : m.rem = m.suffix.length := by
  unfold MockIterator.rem MockIterator.suffix
  simp

theorem key_head_of_valid (m : MockIterator) (h : m.is_valid = true) :
    m.suffix.head? = some (m.key, m.value) := by
  rw [suffix_of_valid m h]
  rfl

/-- The advanced iterator's key is strictly greater when the data is strictly
sorted and the iterator stays valid. -/
theorem key_next_gt (m : MockIterator) (hsort : List.Chain' keyLt m.suffix)
    (hv : m.is_valid = true) (hv' : m.next.is_valid = true) :
    m.key < m.next.key := by
  have h1 := suffix_of_valid m hv
  have h2 := suffix_of_valid m.next hv'
  rw [h1, h2] at hsort
  exact (List.chain'_cons.mp hsort).1

/-! ### The de-duplication loop: specification -/

/-- Advance every iterator whose key equals `k`, then drop the invalid ones:
the abstract effect of `dedupAdvance`. -/
def advStep (k : List Nat) (p : Nat × MockIterator) : Nat × MockIterator :=
  if p.2.key = k then (p.1, p.2.next) else p

theorem dedupAdvance_spec (k : List Nat) : ∀ (n : Nat) (l : List (Nat × MockIterator)),
    heapMeasure l ≤ n →
    List.Sorted wLe l →
    (∀ p ∈ l, p.2.is_valid = true) →
    (∀ p ∈ l, List.Chain' keyLt p.2.suffix) →
    (∀ p ∈ l, k ≤ p.2.key) →
    (dedupAdvance k l).Perm ((l.map (advStep k)).filter (fun p => p.2.is_valid)) ∧
    (dedupAdvance k l).Sorted wLe ∧
    (∀ p ∈ dedupAdvance k l,
      p.2.is_valid = true ∧ List.Chain' keyLt p.2.suffix ∧ k < p.2.key) := by
  intro n
  induction n with
  | zero =>
    intro l hμ _ _ _ _
    match l with
    | [] => simp [dedupAdvance]
    | h :: t => simp [heapMeasure] at hμ
  | succ n ih =>
    intro l hμ hsort hvalid hdata hk
    match l with
    | [] => simp [dedupAdvance]
    | h :: t =>
      have hvh := hvalid h (by simp)
      have hdh := hdata h (by simp)
      have hkh := hk h (by simp)
      have hst := (List.sorted_cons.mp hsort).2
      have hht := (List.sorted_cons.mp hsort).1
      by_cases hkey : h.2.key = k
      · by_cases hval' : (h.1, h.2.next).2.is_valid = true
        · -- advanced and still valid: re-sift and continue
          have hgt : k < h.2.next.key := by
            rw [← hkey]
            exact key_next_gt h.2 hdh hvh (by simpa using hval')
          have hrec := ih (List.orderedInsert wLe (h.1, h.2.next) t) ?_ ?_ ?_ ?_ ?_
          · have hunfold : dedupAdvance k (h :: t) =
                dedupAdvance k (List.orderedInsert wLe (h.1, h.2.next) t) := by
              rw [dedupAdvance]
              rw [if_pos hkey, if_pos (by simpa using hval')]
            rw [hunfold]
            refine ⟨?_, hrec.2.1, hrec.2.2⟩
            refine hrec.1.trans ?_
            have hperm1 : (List.orderedInsert wLe (h.1, h.2.next) t).Perm
                ((h.1, h.2.next) :: t) := List.perm_orderedInsert _ _ _
            refine ((hperm1.map (advStep k)).filter _).trans ?_
            have hfix : advStep k (h.1, h.2.next) = (h.1, h.2.next) := by
              unfold advStep
              rw [if_neg (ne_of_gt hgt)]
            have hmapcons : ((h.1, h.2.next) :: t).map (advStep k) =
                advStep k (h.1, h.2.next) :: t.map (advStep k) := rfl
            rw [hmapcons, hfix]
            have hstep : advStep k h = (h.1, h.2.next) := by
              unfold advStep
              rw [if_pos hkey]
            show (((h.1, h.2.next) :: t.map (advStep k)).filter (fun p => p.2.is_valid)).Perm
              (((h :: t).map (advStep k)).filter (fun p => p.2.is_valid))
            rw [List.map_cons, hstep]
          · -- measure decreases
            rw [heapMeasure_orderedInsert]
            have := rem_next_lt h.2 hvh
            simp only [heapMeasure, List.map_cons, List.sum_cons, List.length_cons] at hμ ⊢
            omega
          · exact (List.sorted_cons.mp hsort).2.orderedInsert _ _
          · intro p hp
            rcases List.mem_cons.mp ((List.perm_orderedInsert wLe _ t).mem_iff.mp hp) with rfl | hp'
            · exact hval'
            · exact hvalid p (by simp [hp'])
          · intro p hp
            rcases List.mem_cons.mp ((List.perm_orderedInsert wLe _ t).mem_iff.mp hp) with rfl | hp'
            · show List.Chain' keyLt h.2.next.suffix
              rw [suffix_next_of_valid h.2 hvh]
              exact hdh.tail
            · exact hdata p (by simp [hp'])
          · intro p hp
            rcases List.mem_cons.mp ((List.perm_orderedInsert wLe _ t).mem_iff.mp hp) with rfl | hp'
            · exact le_of_lt hgt
            · exact hk p (by simp [hp'])
        · -- advanced and went invalid: pop it
          have hunfold : dedupAdvance k (h :: t) = dedupAdvance k t := by
            rw [dedupAdvance]
            rw [if_pos hkey, if_neg (by simpa using hval')]
          have hrec := ih t ?_ hst (fun p hp => hvalid p (by simp [hp]))
            (fun p hp => hdata p (by simp [hp])) (fun p hp => hk p (by simp [hp]))
          · rw [hunfold]
            refine ⟨?_, hrec.2.1, hrec.2.2⟩
            refine hrec.1.trans ?_
            have hstep : advStep k h = (h.1, h.2.next) := by
              unfold advStep
              rw [if_pos hkey]
            rw [List.map_cons, hstep]
            rw [List.filter_cons_of_neg (by simpa using hval')]
          · simp only [heapMeasure, List.map_cons, List.sum_cons, List.length_cons] at hμ ⊢
            omega
      · -- heap top's key differs: the loop stops; nothing changes
        have hunfold : dedupAdvance k (h :: t) = h :: t := by
          rw [dedupAdvance]
          rw [if_neg hkey]
        rw [hunfold]
        have hgt : ∀ p ∈ h :: t, k < p.2.key := by
          intro p hp
          rcases List.mem_cons.mp hp with rfl | hp'
          · exact lt_of_le_of_ne hkh (fun he => hkey he.symm)
          · have h1 : k < h.2.key := lt_of_le_of_ne hkh (fun he => hkey he.symm)
            have h2 := hht p hp'
            unfold wLe at h2
            rcases h2 with h2 | ⟨h2, _⟩
            · exact lt_trans h1 h2
            · exact h2 ▸ h1
        refine ⟨?_, hsort, ?_⟩
        · have hmap : (h :: t).map (advStep k) = h :: t := by
            have : (h :: t).map (advStep k) = (h :: t).map id := by
              apply List.map_congr_left
              intro p hp
              unfold advStep
              rw [if_neg (ne_of_gt (hgt p hp))]
              rfl
            rw [this, List.map_id]
          rw [hmap, List.filter_eq_self.mpr (fun p hp => hvalid p hp)]
        · intro p hp
          exact ⟨hvalid p hp, hdata p hp, hgt p hp⟩

/-! ### The MergeIterator invariant and the effect of one `next` -/

/-- All sub-iterators of a merge state: `current` (when present) and the heap. -/
def MergeIter.members (m : MergeIter) : List (Nat × MockIterator) :=
  (match m.current with | some c => [c] | none => []) ++ m.iters

/-- The input index paired with the remaining entries of a sub-iterator. -/
def pairSuffix (p : Nat × MockIterator) : Nat × List Entry := (p.1, p.2.suffix)

/-- Indexed remaining sequences of all non-exhausted sub-iterators. -/
def memberSuffixes (m : MergeIter) : List (Nat × List Entry) :=
  ((m.members).map pairSuffix).filter (fun q => !q.2.isEmpty)

/-- Abstract effect of one `next` on one remaining sequence: drop the head if
its key is the consumed key. -/
def stepPair (k : List Nat) (q : Nat × List Entry) : Nat × List Entry :=
  match q.2 with
  | (k', _) :: t => if k' = k then (q.1, t) else q
  | [] => q

/-- The invariant maintained by `MergeIterator::create` and
`MergeIterator::next`. -/
structure MInv (m : MergeIter) : Prop where
  hsorted : List.Sorted wLe m.iters
  hvalid : ∀ p ∈ m.iters, p.2.is_valid = true
  hcur_le : ∀ c, m.current = some c → ∀ p ∈ m.iters, wLe c p
  hnone : m.current = none → m.iters = []
  hcur_inv : ∀ c, m.current = some c → c.2.is_valid = false → m.iters = []
  hdata : ∀ p ∈ m.members, List.Chain' keyLt p.2.suffix

theorem wLe_key_le {a b : Nat × MockIterator} (h : wLe a b) : a.2.key ≤ b.2.key := by
  rcases h with h | ⟨h, _⟩
  · exact le_of_lt h
  · exact le_of_eq h

theorem suffix_isEmpty_eq (m : MockIterator) : m.suffix.isEmpty = !m.is_valid := by
  rcases Bool.eq_false_or_eq_true m.is_valid with hv | hv
  · rw [hv]
    rw [suffix_of_valid m hv]
    rfl
  · rw [hv]
    rw [(suffix_eq_nil_iff m).mpr hv]
    rfl

theorem stepPair_pairSuffix (k : List Nat) (p : Nat × MockIterator)
    (hv : p.2.is_valid = true) :
    stepPair k (pairSuffix p) = pairSuffix (advStep k p) := by
  have hsfx := suffix_of_valid p.2 hv
  show stepPair k (p.1, p.2.suffix) = pairSuffix (advStep k p)
  rw [hsfx]
  show (if p.2.key = k then (p.1, p.2.next.suffix)
      else (p.1, (p.2.key, p.2.value) :: p.2.next.suffix)) = pairSuffix (advStep k p)
  by_cases hkey : p.2.key = k
  · rw [if_pos hkey]
    unfold advStep pairSuffix
    rw [if_pos hkey]
  · rw [if_neg hkey]
    unfold advStep pairSuffix
    rw [if_neg hkey]
    rw [hsfx]

theorem heapMeasure_perm {l l' : List (Nat × MockIterator)} (h : l.Perm l') :
    heapMeasure l = heapMeasure l' := by
  unfold heapMeasure
  rw [(h.map (fun p => p.2.rem)).sum_eq, h.length_eq]

theorem heapMeasure_filter_le (q : Nat × MockIterator → Bool)
    (l : List (Nat × MockIterator)) : heapMeasure (l.filter q) ≤ heapMeasure l := by
  unfold heapMeasure
  have hsub := List.filter_sublist l (p := q)
  have h1 : ((l.filter q).map (fun p => p.2.rem)).sum ≤ (l.map (fun p => p.2.rem)).sum :=
    (hsub.map _).sum_le_sum (by simp)
  have h2 := hsub.length_le
  omega

theorem heapMeasure_advStep_le (k : List Nat) (l : List (Nat × MockIterator)) :
    heapMeasure (l.map (advStep k)) ≤ heapMeasure l := by
  unfold heapMeasure
  rw [List.map_map, List.length_map]
  have : ∀ p ∈ l, ((fun p => p.2.rem) ∘ advStep k) p ≤ p.2.rem := by
    intro p _
    show (advStep k p).2.rem ≤ p.2.rem
    unfold advStep
    split
    · exact rem_next_le p.2
    · exact le_refl _
  have := List.sum_le_sum this
  omega

theorem heapMeasure_nil : heapMeasure [] = 0 := rfl

theorem heapMeasure_cons (h : Nat × MockIterator) (t : List (Nat × MockIterator)) :
    heapMeasure (h :: t) = h.2.rem + 1 + heapMeasure t := by
  simp [heapMeasure]
  omega

theorem members_of_some (m : MergeIter) (c : Nat × MockIterator)
    (hc : m.current = some c) : m.members = c :: m.iters := by
  unfold MergeIter.members
  rw [hc]
  rfl

theorem memberSuffixes_form (m : MergeIter) (c : Nat × MockIterator)
    (hc : m.current = some c) (hval : ∀ p ∈ m.iters, p.2.is_valid = true) :
    memberSuffixes m =
      (if c.2.is_valid then [pairSuffix c] else []) ++ m.iters.map pairSuffix := by
  unfold memberSuffixes
  rw [members_of_some m c hc]
  rw [List.map_cons, List.filter_cons]
  have hpred : ∀ p : Nat × MockIterator,
      (!(pairSuffix p).2.isEmpty) = p.2.is_valid := by
    intro p
    show (!p.2.suffix.isEmpty) = p.2.is_valid
    rw [suffix_isEmpty_eq, Bool.not_not]
  have hrest : (m.iters.map pairSuffix).filter (fun q => !q.2.isEmpty) =
      m.iters.map pairSuffix := by
    rw [List.filter_map]
    have hall : List.filter ((fun q : Nat × List Entry => !q.2.isEmpty) ∘ pairSuffix)
        m.iters = m.iters := by
      apply List.filter_eq_self.mpr
      intro p hp
      exact (hpred p).trans (hval p hp)
    rw [hall]
  rw [hrest, hpred c]
  rcases Bool.eq_false_or_eq_true c.2.is_valid with hcv | hcv
  · rw [hcv]
    simp
  · rw [hcv]
    simp

/-- Effect of one successful `next` from a well-formed state with a valid
`current`: the invariant is preserved, the measure strictly decreases, every
sub-iterator positioned at the consumed key has advanced past it (so the new
remaining sequences are exactly the old ones with their `key`-headed entries
dropped and exhausted iterators removed), and every surviving sub-iterator sits
strictly beyond the consumed key. -/
theorem merge_next_spec (m : MergeIter) (hinv : MInv m)
    (c : Nat × MockIterator) (hc : m.current = some c) (hv : c.2.is_valid = true) :
    ∃ m', m.next = some m' ∧ MInv m' ∧ m'.measure < m.measure ∧
      (memberSuffixes m').Perm
        (((memberSuffixes m).map (stepPair c.2.key)).filter (fun q => !q.2.isEmpty)) ∧
      (∀ p ∈ m'.members, p.2.is_valid = true → c.2.key < p.2.key) := by
  have hks : ∀ p ∈ m.iters, c.2.key ≤ p.2.key :=
    fun p hp => wLe_key_le (hinv.hcur_le c hc p hp)
  have hcmem : c ∈ m.members := by rw [members_of_some m c hc]; simp
  have hdc : List.Chain' keyLt c.2.suffix := hinv.hdata c hcmem
  have hdh : ∀ p ∈ m.iters, List.Chain' keyLt p.2.suffix :=
    fun p hp => hinv.hdata p (by rw [members_of_some m c hc]; simp [hp])
  obtain ⟨hdperm, hdsort, hdmem⟩ := dedupAdvance_spec c.2.key (heapMeasure m.iters)
    m.iters le_rfl hinv.hsorted hinv.hvalid hdh hks
  have hμ1 : heapMeasure (dedupAdvance c.2.key m.iters) ≤ heapMeasure m.iters := by
    rw [heapMeasure_perm hdperm]
    exact le_trans (heapMeasure_filter_le _ _) (heapMeasure_advStep_le _ _)
  have hcrem : 1 ≤ c.2.rem := by
    rw [rem_eq_suffix_length, suffix_of_valid c.2 hv]
    simp
  have hcrem' : (c.1, c.2.next).2.rem < c.2.rem := rem_next_lt c.2 hv
  have hcremN : c.2.next.rem < c.2.rem := rem_next_lt c.2 hv
  have hmm : m.measure = heapMeasure m.iters + (c.2.rem + 1) := by
    unfold MergeIter.measure
    rw [hc]
  -- the advanced current
  have hstepc : stepPair c.2.key (pairSuffix c) = pairSuffix (c.1, c.2.next) := by
    rw [stepPair_pairSuffix c.2.key c hv]
    unfold advStep
    rw [if_pos rfl]
  -- shape of the target multiset
  have hRHS : (((memberSuffixes m).map (stepPair c.2.key)).filter
        (fun q => !q.2.isEmpty)).Perm
      ((if (c.1, c.2.next).2.is_valid then [pairSuffix (c.1, c.2.next)] else []) ++
        (dedupAdvance c.2.key m.iters).map pairSuffix) := by
    rw [memberSuffixes_form m c hc hinv.hvalid]
    rw [hv]
    rw [if_pos rfl]
    rw [List.singleton_append, List.map_cons, hstepc, List.filter_cons]
    have hmapheap : (m.iters.map pairSuffix).map (stepPair c.2.key) =
        (m.iters.map (advStep c.2.key)).map pairSuffix := by
      rw [List.map_map, List.map_map]
      exact List.map_congr_left fun p hp => stepPair_pairSuffix _ p (hinv.hvalid p hp)
    rw [hmapheap]
    have hfiltheap : ((m.iters.map (advStep c.2.key)).map pairSuffix).filter
        (fun q => !q.2.isEmpty) =
        ((m.iters.map (advStep c.2.key)).filter (fun p => p.2.is_valid)).map pairSuffix := by
      rw [List.filter_map]
      apply congrArg
      apply List.filter_congr
      intro p _
      show ((fun q : Nat × List Entry => !q.2.isEmpty) (pairSuffix p)) = p.2.is_valid
      show (!p.2.suffix.isEmpty) = p.2.is_valid
      rw [suffix_isEmpty_eq, Bool.not_not]
    have hcondeq : (!(pairSuffix (c.1, c.2.next)).2.isEmpty) =
        (c.1, c.2.next).2.is_valid := by
      show (!(c.1, c.2.next).2.suffix.isEmpty) = (c.1, c.2.next).2.is_valid
      rw [suffix_isEmpty_eq, Bool.not_not]
    rw [hcondeq, hfiltheap]
    have hcore : (((m.iters.map (advStep c.2.key)).filter
        (fun p => p.2.is_valid)).map pairSuffix).Perm
        ((dedupAdvance c.2.key m.iters).map pairSuffix) := (hdperm.map pairSuffix).symm
    rcases Bool.eq_false_or_eq_true (c.1, c.2.next).2.is_valid with hnv | hnv
    · rw [hnv]
      rw [if_pos rfl, if_pos rfl, List.singleton_append]
      exact hcore.cons _
    · rw [hnv]
      rw [if_neg (by simp), if_neg (by simp), List.nil_append]
      exact hcore
  -- shape of the produced state in each branch of the source
  have hform : ∀ m' : MergeIter, ∀ c', m'.current = some c' →
      (∀ p ∈ m'.iters, p.2.is_valid = true) →
      memberSuffixes m' =
        (if c'.2.is_valid then [pairSuffix c'] else []) ++ m'.iters.map pairSuffix :=
    fun m' c' hcur hval => memberSuffixes_form m' c' hcur hval
  have hprog_next : c.2.next.is_valid = true → c.2.key < c.2.next.key :=
    fun h => key_next_gt c.2 hdc hv h
  have htail_suffix : List.Chain' keyLt c.2.next.suffix := by
    rw [suffix_next_of_valid c.2 hv]
    exact hdc.tail
  have hcrem2 : c.2.next.rem < c.2.rem := rem_next_lt c.2 hv
  rcases Bool.eq_false_or_eq_true c.2.next.is_valid with hnv | hnv
  · -- current stayed valid
    have hgtc := hprog_next hnv
    cases hiter : dedupAdvance c.2.key m.iters with
    | nil =>
      rw [hiter] at hdperm hdsort hdmem hμ1
      refine ⟨{ iters := [], current := some (c.1, c.2.next) }, ?_, ?_, ?_, ?_, ?_⟩
      · simp only [MergeIter.next, hc, hiter]
        rw [ite_self]
      · exact ⟨by simp, by simp, by simp, by simp, fun c' hc' hinvld => rfl,
          by
            intro p hp
            rw [members_of_some _ _ rfl] at hp
            rcases List.mem_cons.mp hp with rfl | hp'
            · exact htail_suffix
            · simp at hp'⟩
      · simp only [MergeIter.measure, hc, heapMeasure_nil]
        omega
      · refine List.Perm.trans ?_ hRHS.symm
        rw [hform { iters := [], current := some (c.1, c.2.next) } (c.1, c.2.next) rfl
          (by simp)]
        rw [hiter]
      · intro p hp hpv
        rw [members_of_some _ _ rfl] at hp
        rcases List.mem_cons.mp hp with rfl | hp'
        · exact hgtc
        · simp at hp'
    | cons h t =>
      rw [hiter] at hdperm hdsort hdmem hμ1
      have hhval := (hdmem h (by simp)).1
      have hhdata := (hdmem h (by simp)).2.1
      have hhkey := (hdmem h (by simp)).2.2
      rw [heapMeasure_cons] at hμ1
      by_cases hwle : wLe (c.1, c.2.next) h
      · -- keep current
        refine ⟨{ iters := h :: t, current := some (c.1, c.2.next) }, ?_, ?_, ?_, ?_, ?_⟩
        · simp only [MergeIter.next, hc, hiter]
          rw [if_neg (by rw [hnv]; simp)]
          rw [if_pos hwle]
        · refine ⟨hdsort, fun p hp => (hdmem p hp).1, ?_, by simp, ?_, ?_⟩
          · intro c' hc' p hp
            cases Option.some.inj hc'
            rcases List.mem_cons.mp hp with rfl | hp'
            · exact hwle
            · exact wLe.isTrans.trans _ _ _ hwle ((List.sorted_cons.mp hdsort).1 p hp')
          · intro c' hc' hinvld
            cases Option.some.inj hc'
            have hnvP : (c.1, c.2.next).2.is_valid = true := hnv
            rw [hnvP] at hinvld
            cases hinvld
          · intro p hp
            rw [members_of_some _ _ rfl] at hp
            rcases List.mem_cons.mp hp with rfl | hp'
            · exact htail_suffix
            · exact (hdmem p hp').2.1
        · simp only [MergeIter.measure, hc]
          rw [heapMeasure_cons]
          omega
        · refine List.Perm.trans ?_ hRHS.symm
          rw [hform { iters := h :: t, current := some (c.1, c.2.next) } (c.1, c.2.next)
            rfl (fun p hp => (hdmem p hp).1)]
          rw [hiter]
        · intro p hp hpv
          rw [members_of_some _ _ rfl] at hp
          rcases List.mem_cons.mp hp with rfl | hp'
          · exact hgtc
          · exact (hdmem p hp').2.2
      · -- swap with the heap top
        refine ⟨{ iters := List.orderedInsert wLe (c.1, c.2.next) t, current := some h },
          ?_, ?_, ?_, ?_, ?_⟩
        · simp only [MergeIter.next, hc, hiter]
          rw [if_neg (by rw [hnv]; simp)]
          rw [if_neg hwle]
        · refine ⟨(List.sorted_cons.mp hdsort).2.orderedInsert _ _, ?_, ?_, by simp, ?_, ?_⟩
          · intro p hp
            rcases List.mem_cons.mp ((List.perm_orderedInsert wLe _ t).mem_iff.mp hp)
              with rfl | hp'
            · exact hnv
            · exact (hdmem p (by simp [hp'])).1
          · intro c' hc' p hp
            cases Option.some.inj hc'
            rcases List.mem_cons.mp ((List.perm_orderedInsert wLe _ t).mem_iff.mp hp)
              with rfl | hp'
            · rcases (wLe.isTotal.total (c.1, c.2.next) h) with h1 | h1
              · exact absurd h1 hwle
              · exact h1
            · exact (List.sorted_cons.mp hdsort).1 p hp'
          · intro c' hc' hinvld
            cases Option.some.inj hc'
            rw [hhval] at hinvld
            cases hinvld
          · intro p hp
            rw [members_of_some _ _ rfl] at hp
            rcases List.mem_cons.mp hp with rfl | hp'
            · exact hhdata
            · rcases List.mem_cons.mp ((List.perm_orderedInsert wLe _ t).mem_iff.mp hp')
                with rfl | hp''
              · exact htail_suffix
              · exact (hdmem p (by simp [hp''])).2.1
        · simp only [MergeIter.measure, hc]
          rw [heapMeasure_orderedInsert]
          omega
        · refine List.Perm.trans ?_ hRHS.symm
          rw [hform { iters := List.orderedInsert wLe (c.1, c.2.next) t, current := some h }
            h rfl ?_]
          · rw [hiter, if_pos hhval]
            have hnvP : (c.1, c.2.next).2.is_valid = true := hnv
            rw [if_pos hnvP]
            rw [List.singleton_append, List.singleton_append]
            refine List.Perm.trans
              (((List.perm_orderedInsert wLe (c.1, c.2.next) t).map pairSuffix).cons _) ?_
            rw [List.map_cons]
            exact List.Perm.swap _ _ _
          · intro p hp
            rcases List.mem_cons.mp ((List.perm_orderedInsert wLe _ t).mem_iff.mp hp)
              with rfl | hp'
            · exact hnv
            · exact (hdmem p (by simp [hp'])).1
        · intro p hp hpv
          rw [members_of_some _ _ rfl] at hp
          rcases List.mem_cons.mp hp with rfl | hp'
          · exact hhkey
          · rcases List.mem_cons.mp ((List.perm_orderedInsert wLe _ t).mem_iff.mp hp')
              with rfl | hp''
            · exact hgtc
            · exact (hdmem p (by simp [hp''])).2.2

  · -- current went invalid: replace it from the heap (or keep it if none)
    cases hiter : dedupAdvance c.2.key m.iters with
    | nil =>
      rw [hiter] at hdperm hdsort hdmem hμ1
      refine ⟨{ iters := [], current := some (c.1, c.2.next) }, ?_, ?_, ?_, ?_, ?_⟩
      · simp only [MergeIter.next, hc, hiter]
        rw [ite_self]
      · exact ⟨by simp, by simp, by simp, by simp, fun c' hc' _ => rfl,
          by
            intro p hp
            rw [members_of_some _ _ rfl] at hp
            rcases List.mem_cons.mp hp with rfl | hp'
            · exact htail_suffix
            · simp at hp'⟩
      · simp only [MergeIter.measure, hc, heapMeasure_nil]
        omega
      · refine List.Perm.trans ?_ hRHS.symm
        rw [hform { iters := [], current := some (c.1, c.2.next) } (c.1, c.2.next) rfl
          (by simp)]
        rw [hiter]
      · intro p hp hpv
        rw [members_of_some _ _ rfl] at hp
        rcases List.mem_cons.mp hp with rfl | hp'
        · exact hprog_next hpv
        · simp at hp'
    | cons h t =>
      rw [hiter] at hdperm hdsort hdmem hμ1
      have hhval := (hdmem h (by simp)).1
      have hhdata := (hdmem h (by simp)).2.1
      have hhkey := (hdmem h (by simp)).2.2
      rw [heapMeasure_cons] at hμ1
      refine ⟨{ iters := t, current := some h }, ?_, ?_, ?_, ?_, ?_⟩
      · simp only [MergeIter.next, hc, hiter]
        rw [if_pos hnv]
      · refine ⟨(List.sorted_cons.mp hdsort).2, ?_, ?_, by simp, ?_, ?_⟩
        · intro p hp
          exact (hdmem p (by simp [hp])).1
        · intro c' hc' p hp
          cases Option.some.inj hc'
          exact (List.sorted_cons.mp hdsort).1 p hp
        · intro c' hc' hinvld
          cases Option.some.inj hc'
          rw [hhval] at hinvld
          cases hinvld
        · intro p hp
          rw [members_of_some _ _ rfl] at hp
          rcases List.mem_cons.mp hp with rfl | hp'
          · exact hhdata
          · exact (hdmem p (by simp [hp'])).2.1
      · simp only [MergeIter.measure, hc]
        omega
      · refine List.Perm.trans ?_ hRHS.symm
        rw [hform { iters := t, current := some h } h rfl
          (fun p hp => (hdmem p (by simp [hp])).1)]
        rw [hiter, if_pos hhval]
        have hnvP : (c.1, c.2.next).2.is_valid = false := hnv
        rw [if_neg (by rw [hnvP]; simp)]
        rw [List.nil_append, List.singleton_append, List.map_cons]
      · intro p hp _
        rw [members_of_some _ _ rfl] at hp
        rcases List.mem_cons.mp hp with rfl | hp'
        · exact hhkey
        · exact (hdmem p (by simp [hp'])).2.2
/-! ### Create establishes the invariant; full-run specification -/

instance keyLt.isTrans : IsTrans Entry keyLt where
  trans _ _ _ hab hbc := lt_trans hab hbc

theorem chain'_head_le {s : List Entry} (hs : List.Chain' keyLt s) {x e : Entry}
    (hhead : s.head? = some x) (he : e ∈ s) : x.1 ≤ e.1 := by
  cases s with
  | nil => cases hhead
  | cons y t =>
    cases Option.some.inj hhead
    rcases List.mem_cons.mp he with rfl | he'
    · exact le_refl _
    · have hpw := (List.chain'_iff_pairwise).mp hs
      exact le_of_lt ((List.pairwise_cons.mp hpw).1 e he')

theorem stepPair_fst (k : List Nat) (q : Nat × List Entry) : (stepPair k q).1 = q.1 := by
  obtain ⟨i, s⟩ := q
  cases s with
  | nil => rfl
  | cons e t =>
    show (if e.1 = k then (i, t) else (i, e :: t)).1 = i
    split
    · rfl
    · rfl

/-- A `stepPair` image contains every entry of the original sequence whose key
is not the consumed one. -/
theorem mem_stepPair {k : List Nat} {q : Nat × List Entry} {e : Entry}
    (hs : List.Chain' keyLt q.2) (he : e ∈ q.2) (hne : e.1 ≠ k) :
    e ∈ (stepPair k q).2 := by
  obtain ⟨i, s⟩ := q
  cases s with
  | nil => cases he
  | cons x t =>
    show e ∈ (if x.1 = k then (i, t) else (i, x :: t)).2
    by_cases hx : x.1 = k
    · rw [if_pos hx]
      rcases List.mem_cons.mp he with rfl | he'
      · exact absurd hx hne
      · exact he'
    · rw [if_neg hx]
      exact he

/-- Entries of a `stepPair` image come from the original sequence. -/
theorem stepPair_subset {k : List Nat} {q : Nat × List Entry} {e : Entry}
    (he : e ∈ (stepPair k q).2) : e ∈ q.2 := by
  obtain ⟨i, s⟩ := q
  cases s with
  | nil => exact he
  | cons x t =>
    have he' : e ∈ (if x.1 = k then (i, t) else (i, x :: t)).2 := he
    by_cases hx : x.1 = k
    · rw [if_pos hx] at he'
      exact List.mem_cons_of_mem _ he'
    · rw [if_neg hx] at he'
      exact he'

/-- Sortedness and permutation facts about the fold that pushes the valid
inputs onto the heap in `MergeIterator::create`. -/
theorem foldl_orderedInsert_spec (xs : List (Nat × MockIterator)) :
    ∀ acc, List.Sorted wLe acc →
    List.Sorted wLe (xs.foldl (fun h p => List.orderedInsert wLe p h) acc) ∧
    (xs.foldl (fun h p => List.orderedInsert wLe p h) acc).Perm (acc ++ xs) := by
  induction xs with
  | nil =>
    intro acc hacc
    refine ⟨hacc, ?_⟩
    simp
  | cons x t ih =>
    intro acc hacc
    have := ih (List.orderedInsert wLe x acc) (hacc.orderedInsert _ _)
    refine ⟨this.1, this.2.trans ?_⟩
    refine List.Perm.trans (List.Perm.append_right t (List.perm_orderedInsert wLe x acc)) ?_
    have h1 : (x :: acc) ++ t = x :: (acc ++ t) := rfl
    rw [h1]
    exact List.perm_middle.symm

theorem pairSuffix_isEmpty (p : Nat × MockIterator) :
    (!(pairSuffix p).2.isEmpty) = p.2.is_valid := by
  show (!p.2.suffix.isEmpty) = p.2.is_valid
  rw [suffix_isEmpty_eq, Bool.not_not]

theorem filter_pairSuffix (l : List (Nat × MockIterator)) :
    (l.map pairSuffix).filter (fun q => !q.2.isEmpty) =
      (l.filter (fun p => p.2.is_valid)).map pairSuffix := by
  rw [List.filter_map]
  apply congrArg
  apply List.filter_congr
  intro p _
  exact pairSuffix_isEmpty p

/-- `MergeIterator::create` establishes the invariant, and the remaining
sequences of its state are exactly the non-exhausted inputs with their
original indices. -/
theorem create_spec (its : List MockIterator)
    (hdata : ∀ it ∈ its, List.Chain' keyLt it.suffix) :
    MInv (MergeIter.create its) ∧
    (memberSuffixes (MergeIter.create its)).Perm
      ((its.enum.map pairSuffix).filter (fun q => !q.2.isEmpty)) := by
  unfold MergeIter.create
  by_cases h1 : its.isEmpty
  · rw [if_pos h1]
    have hits : its = [] := List.isEmpty_iff.mp h1
    subst hits
    refine ⟨⟨by simp, by simp, by simp, fun _ => rfl, by simp, by simp [MergeIter.members]⟩, ?_⟩
    simp [memberSuffixes, MergeIter.members]
  · rw [if_neg h1]
    by_cases h2 : its.all (fun x => !x.is_valid)
    · rw [if_pos h2]
      have hlast : ∃ l, its.getLast? = some l := by
        cases hits : its.getLast? with
        | some l => exact ⟨l, rfl⟩
        | none =>
          rw [List.getLast?_eq_none_iff] at hits
          rw [hits] at h1
          exact absurd rfl h1
      obtain ⟨l, hl⟩ := hlast
      rw [hl]
      have hlmem : l ∈ its := List.mem_of_mem_getLast? hl
      have hlinv : l.is_valid = false := by
        have := List.all_eq_true.mp h2 l hlmem
        simpa using this
      refine ⟨⟨by simp, by simp, by simp, by simp, fun _ _ _ => rfl, ?_⟩, ?_⟩
      · intro p hp
        have : p ∈ [(0, l)] := by
          simpa [MergeIter.members] using hp
        rcases List.mem_cons.mp this with rfl | habs
        · exact hdata l hlmem
        · cases habs
      · have hms : memberSuffixes { iters := [], current := some (0, l) } = [] := by
          unfold memberSuffixes
          rw [members_of_some _ _ rfl]
          simp only [List.append_nil, List.map_cons, List.map_nil, List.filter_cons]
          rw [pairSuffix_isEmpty]
          show (if ((0, l) : Nat × MockIterator).2.is_valid = true then _ else _) = _
          rw [if_neg (by rw [hlinv]; simp)]
          rfl
        rw [hms]
        have hrhs : (its.enum.map pairSuffix).filter (fun q => !q.2.isEmpty) = [] := by
          apply List.filter_eq_nil_iff.mpr
          intro q hq
          obtain ⟨p, hp, rfl⟩ := List.mem_map.mp hq
          rw [pairSuffix_isEmpty]
          have hsnd : p.2 ∈ its := by
            have := List.enum_map_snd its
            exact this ▸ List.mem_map_of_mem Prod.snd hp
          have := List.all_eq_true.mp h2 p.2 hsnd
          simpa using this
        rw [hrhs]
    · rw [if_neg h2]
      obtain ⟨hs, hp⟩ := foldl_orderedInsert_spec
        (its.enum.filter (fun p => p.2.is_valid)) [] (by simp)
      have hmemheap : ∀ p ∈ (its.enum.filter (fun p => p.2.is_valid)).foldl
          (fun h p => List.orderedInsert wLe p h) [],
          p.2.is_valid = true ∧ p.2 ∈ its := by
        intro p hpmem
        have h3 := hp.mem_iff.mp hpmem
        rw [List.nil_append] at h3
        have h4 := List.mem_filter.mp h3
        refine ⟨by simpa using h4.2, ?_⟩
        have := List.enum_map_snd its
        exact this ▸ List.mem_map_of_mem Prod.snd h4.1
      cases hheap : (its.enum.filter (fun p => p.2.is_valid)).foldl
          (fun h p => List.orderedInsert wLe p h) [] with
      | nil =>
        exfalso
        rw [hheap] at hp
        have hvnil : its.enum.filter (fun p => p.2.is_valid) = [] := by
          have h5 := hp.symm
          rw [List.nil_append] at h5
          exact h5.eq_nil
        apply h2
        apply List.all_eq_true.mpr
        intro x hx
        have hex : ∃ p ∈ its.enum, p.2 = x := by
          have hmap := List.enum_map_snd its
          obtain ⟨p, hp', he⟩ := List.mem_map.mp (hmap ▸ hx)
          exact ⟨p, hp', he⟩
        obtain ⟨p, hpe, rfl⟩ := hex
        have hnot : p ∉ its.enum.filter (fun p => p.2.is_valid) := by
          rw [hvnil]
          simp
        rcases Bool.eq_false_or_eq_true p.2.is_valid with hv | hv
        · exact absurd (List.mem_filter.mpr ⟨hpe, hv⟩) hnot
        · simpa using hv
      | cons hh ht =>
        rw [hheap] at hs hp hmemheap
        have hhvalid := (hmemheap hh (by simp)).1
        show MInv ({ iters := ht, current := some hh } : MergeIter) ∧
          (memberSuffixes ({ iters := ht, current := some hh } : MergeIter)).Perm
            ((its.enum.map pairSuffix).filter (fun q => !q.2.isEmpty))
        refine ⟨⟨(List.sorted_cons.mp hs).2, ?_, ?_, by simp, ?_, ?_⟩, ?_⟩
        · intro p hpmem
          exact (hmemheap p (List.mem_cons_of_mem _ hpmem)).1
        · intro c' hc' p hpmem
          cases Option.some.inj hc'
          exact (List.sorted_cons.mp hs).1 p hpmem
        · intro c' hc' hinvld
          cases Option.some.inj hc'
          rw [hhvalid] at hinvld
          cases hinvld
        · intro p hpmem
          rw [members_of_some _ _ rfl] at hpmem
          exact hdata p.2 (hmemheap p (by simpa using hpmem)).2
        · rw [memberSuffixes_form _ hh rfl
            (fun p hpmem => (hmemheap p (List.mem_cons_of_mem _ hpmem)).1)]
          rw [if_pos hhvalid]
          rw [filter_pairSuffix]
          rw [List.singleton_append]
          have hcons : (pairSuffix hh :: List.map pairSuffix ht) =
              List.map pairSuffix (hh :: ht) := rfl
          rw [hcons]
          apply List.Perm.map
          have h6 := hp
          rw [List.nil_append] at h6
          exact h6

/-! ### Running the merge iterator to exhaustion -/

/-- A merge iterator that is not valid yields nothing. -/
theorem collect_invalid (m : MergeIter) (hv : m.is_valid = false) :
    ∀ fuel, MergeIter.collect fuel m = [] := by
  intro fuel
  cases fuel with
  | zero => rfl
  | succ f =>
    show (if m.is_valid then _ else []) = []
    rw [hv]
    rfl

/-- A merge iterator that is not valid has no remaining sequences. -/
theorem memberSuffixes_of_invalid (m : MergeIter) (hinv : MInv m)
    (hv : m.is_valid = false) : memberSuffixes m = [] := by
  unfold MergeIter.is_valid at hv
  cases hc : m.current with
  | none =>
    unfold memberSuffixes MergeIter.members
    rw [hc, hinv.hnone hc]
    rfl
  | some c =>
    have hcv : c.2.is_valid = false := by
      rw [hc] at hv
      exact hv
    have hiters : m.iters = [] := hinv.hcur_inv c hc hcv
    unfold memberSuffixes
    rw [members_of_some m c hc, hiters]
    simp only [List.map_cons, List.map_nil, List.filter_cons, List.filter_nil]
    rw [pairSuffix_isEmpty]
    rw [hcv]
    rfl

/-- Remaining sequences of an invariant-satisfying state are strictly sorted. -/
theorem memberSuffixes_chain (m : MergeIter) (hinv : MInv m)
    {q : Nat × List Entry} (hq : q ∈ memberSuffixes m) : List.Chain' keyLt q.2 := by
  have hq' := (List.mem_filter.mp hq).1
  obtain ⟨p, hp, rfl⟩ := List.mem_map.mp hq'
  exact hinv.hdata p hp

/-- If every valid member sits strictly above key `k`, every remaining entry of
every remaining sequence has key strictly above `k`. -/
theorem memberSuffixes_entry_gt (m : MergeIter) (hinv : MInv m) (k : List Nat)
    (hgt : ∀ p ∈ m.members, p.2.is_valid = true → k < p.2.key) :
    ∀ q ∈ memberSuffixes m, ∀ e ∈ q.2, k < e.1 := by
  intro q hq e he
  obtain ⟨hmap, hne⟩ := List.mem_filter.mp hq
  obtain ⟨p, hp, rfl⟩ := List.mem_map.mp hmap
  have hnonempty : p.2.suffix ≠ [] := by
    intro hnil
    have : (pairSuffix p).2.isEmpty = true := by
      show p.2.suffix.isEmpty = true
      rw [hnil]
      rfl
    rw [this] at hne
    cases hne
  have hpv : p.2.is_valid = true := by
    rcases Bool.eq_false_or_eq_true p.2.is_valid with hb | hb
    · exact hb
    · exact absurd ((suffix_eq_nil_iff p.2).mpr hb) hnonempty
  have hk : k < p.2.key := hgt p hp hpv
  have hhead := key_head_of_valid p.2 hpv
  have hle := chain'_head_le (hinv.hdata p hp) hhead he
  exact lt_of_lt_of_le hk hle

/-- The current entry's sequence is among the remaining sequences when the
current sub-iterator is valid. -/
theorem pairSuffix_current_mem (m : MergeIter) (c : Nat × MockIterator)
    (hc : m.current = some c) (hv : c.2.is_valid = true) :
    pairSuffix c ∈ memberSuffixes m := by
  apply List.mem_filter.mpr
  constructor
  · apply List.mem_map_of_mem
    rw [members_of_some m c hc]
    exact List.mem_cons_self _ _
  · rw [pairSuffix_isEmpty]
    exact hv

/-- Dropping the consumed key from a remaining sequence that still holds an
entry keeps it among the remaining sequences of the successor state. -/
theorem stepPair_mem_next {m m' : MergeIter} {k : List Nat}
    (hperm : (memberSuffixes m').Perm
      (((memberSuffixes m).map (stepPair k)).filter (fun q => !q.2.isEmpty)))
    {q : Nat × List Entry} (hq : q ∈ memberSuffixes m)
    {e : Entry} (he : e ∈ (stepPair k q).2) :
    stepPair k q ∈ memberSuffixes m' := by
  apply hperm.mem_iff.mpr
  apply List.mem_filter.mpr
  refine ⟨List.mem_map_of_mem _ hq, ?_⟩
  rw [List.isEmpty_eq_false.mpr (List.ne_nil_of_mem he)]
  rfl

/-- Full run of `MergeIterator::next` from any invariant-satisfying state:
the emitted entries are strictly ascending by key, each emitted entry comes
from the remaining sequence of smallest input index holding its key, and every
remaining key is emitted. -/
theorem merge_run_props (n : Nat) : ∀ m : MergeIter, MInv m → m.measure ≤ n →
    ∀ fuel, m.measure < fuel →
    List.Chain' keyLt (MergeIter.collect fuel m) ∧
    (∀ e ∈ MergeIter.collect fuel m, ∃ q ∈ memberSuffixes m, e ∈ q.2 ∧
      ∀ q' ∈ memberSuffixes m, (∃ v, (e.1, v) ∈ q'.2) → q.1 ≤ q'.1) ∧
    (∀ q ∈ memberSuffixes m, ∀ e ∈ q.2, ∃ v, (e.1, v) ∈ MergeIter.collect fuel m) := by
  induction n with
  | zero =>
    intro m hinv hle fuel _
    have hc : m.current = none := by
      cases hc : m.current with
      | none => rfl
      | some c =>
        exfalso
        have : m.measure = heapMeasure m.iters + (c.2.rem + 1) := by
          unfold MergeIter.measure
          rw [hc]
        omega
    have hv : m.is_valid = false := by
      unfold MergeIter.is_valid
      rw [hc]
    rw [collect_invalid m hv fuel, memberSuffixes_of_invalid m hinv hv]
    refine ⟨List.chain'_nil, ?_, ?_⟩
    · intro e he
      cases he
    · intro q hq
      cases hq
  | succ n ih =>
    intro m hinv hle fuel hfuel
    by_cases hvb : m.is_valid = true
    case neg =>
      have hval : m.is_valid = false := by
        rcases Bool.eq_false_or_eq_true m.is_valid with hb | hb
        · exact absurd hb hvb
        · exact hb
      rw [collect_invalid m hval fuel, memberSuffixes_of_invalid m hinv hval]
      refine ⟨List.chain'_nil, ?_, ?_⟩
      · intro e he
        cases he
      · intro q hq
        cases hq
    case pos =>
      have hval : m.is_valid = true := hvb
      cases hc : m.current with
      | none =>
        exfalso
        unfold MergeIter.is_valid at hval
        rw [hc] at hval
        cases hval
      | some c =>
        have hv : c.2.is_valid = true := by
          unfold MergeIter.is_valid at hval
          rw [hc] at hval
          exact hval
        obtain ⟨m', hnext, hinv', hmeas, hperm, hgt⟩ := merge_next_spec m hinv c hc hv
        cases fuel with
        | zero => omega
        | succ f =>
          have hkey : m.key = c.2.key := by
            unfold MergeIter.key
            rw [hc]
          have hvalue : m.value = c.2.value := by
            unfold MergeIter.value
            rw [hc]
          have hcollect : MergeIter.collect (f + 1) m =
              (c.2.key, c.2.value) :: MergeIter.collect f m' := by
            show (if m.is_valid then (m.key, m.value) ::
                (match m.next with
                 | some m2 => MergeIter.collect f m2
                 | none => []) else []) = _
            rw [hval, if_pos rfl, hnext, hkey, hvalue]
          have hm'n : m'.measure ≤ n := by omega
          have hm'f : m'.measure < f := by omega
          obtain ⟨ihchain, ihprov, ihcov⟩ := ih m' hinv' hm'n f hm'f
          have hentry_gt : ∀ q ∈ memberSuffixes m', ∀ e ∈ q.2, c.2.key < e.1 :=
            memberSuffixes_entry_gt m' hinv' c.2.key hgt
          have hout_gt : ∀ e ∈ MergeIter.collect f m', c.2.key < e.1 := by
            intro e he
            obtain ⟨q, hq, heq, _⟩ := ihprov e he
            exact hentry_gt q hq e heq
          rw [hcollect]
          refine ⟨?_, ?_, ?_⟩
          · rw [List.chain'_cons']
            refine ⟨?_, ihchain⟩
            intro y hy
            exact hout_gt y (List.mem_of_mem_head? hy)
          · intro e he
            rcases List.mem_cons.mp he with rfl | he'
            · refine ⟨pairSuffix c, pairSuffix_current_mem m c hc hv, ?_, ?_⟩
              · show (c.2.key, c.2.value) ∈ c.2.suffix
                rw [suffix_of_valid c.2 hv]
                exact List.mem_cons_self _ _
              · intro q' hq' hkv
                obtain ⟨v', hv'⟩ := hkv
                obtain ⟨hmap, hne⟩ := List.mem_filter.mp hq'
                obtain ⟨p, hp, rfl⟩ := List.mem_map.mp hmap
                rw [members_of_some m c hc] at hp
                rcases List.mem_cons.mp hp with rfl | hp'
                · exact le_refl _
                · have hpv : p.2.is_valid = true := hinv.hvalid p hp'
                  have hwle : wLe c p := hinv.hcur_le c hc p hp'
                  have hple : p.2.key ≤ c.2.key := by
                    have hhead := key_head_of_valid p.2 hpv
                    have := chain'_head_le
                      (hinv.hdata p (by rw [members_of_some m c hc]; exact
                        List.mem_cons_of_mem _ hp')) hhead
                      (show (((c.2.key, c.2.value) : Entry).1, v') ∈ p.2.suffix from hv')
                    exact this
                  have hcle : c.2.key ≤ p.2.key := wLe_key_le hwle
                  have hkeq : c.2.key = p.2.key := le_antisymm hcle hple
                  show c.1 ≤ p.1
                  rcases hwle with hlt | ⟨_, hle'⟩
                  · exact absurd hkeq (ne_of_lt hlt)
                  · exact hle'
            · obtain ⟨q₁, hq₁, he₁, hmin₁⟩ := ihprov e he'
              obtain ⟨hmap₁, _⟩ := List.mem_filter.mp (hperm.mem_iff.mp hq₁)
              obtain ⟨q₀, hq₀, hstep₀⟩ := List.mem_map.mp hmap₁
              have hegt : c.2.key < e.1 := hentry_gt q₁ hq₁ e he₁
              refine ⟨q₀, hq₀, ?_, ?_⟩
              · apply stepPair_subset
                rw [hstep₀]
                exact he₁
              · intro q'' hq'' hkv
                obtain ⟨v, hvmem⟩ := hkv
                have hne : ((e.1, v) : Entry).1 ≠ c.2.key := ne_of_gt hegt
                have hstepmem : ((e.1, v) : Entry) ∈ (stepPair c.2.key q'').2 :=
                  mem_stepPair (memberSuffixes_chain m hinv hq'') hvmem hne
                have hq''m' : stepPair c.2.key q'' ∈ memberSuffixes m' :=
                  stepPair_mem_next hperm hq'' hstepmem
                have := hmin₁ (stepPair c.2.key q'') hq''m' ⟨v, hstepmem⟩
                rw [stepPair_fst] at this
                calc q₀.1 = (stepPair c.2.key q₀).1 := (stepPair_fst _ _).symm
                  _ = q₁.1 := by rw [hstep₀]
                  _ ≤ q''.1 := this
          · intro q hq e he
            by_cases hek : e.1 = c.2.key
            · refine ⟨c.2.value, ?_⟩
              rw [hek]
              exact List.mem_cons_self _ _
            · have hstepmem : e ∈ (stepPair c.2.key q).2 :=
                mem_stepPair (memberSuffixes_chain m hinv hq) he hek
              have hqm' : stepPair c.2.key q ∈ memberSuffixes m' :=
                stepPair_mem_next hperm hq hstepmem
              obtain ⟨v, hvmem⟩ := ihcov (stepPair c.2.key q) hqm' e hstepmem
              exact ⟨v, List.mem_cons_of_mem _ hvmem⟩

/-- Fresh sub-iterators over given entry lists: enumerating and taking
suffixes recovers the enumerated lists themselves. -/
theorem map_pairSuffix_enum_fresh (datas : List (List Entry)) :
    ((datas.map (fun d => MockIterator.mk d 0)).enum).map pairSuffix = datas.enum := by
  rw [List.enum_map, List.map_map]
  have hf : (pairSuffix ∘ Prod.map id (fun d => MockIterator.mk d 0)) =
      (id : Nat × List Entry → Nat × List Entry) := funext (fun p => rfl)
  rw [hf, List.map_id]

/-- **C3.** For every list of sub-iterators, each individually sorted in
strictly ascending key order, iterating a `MergeIterator` built from them to
exhaustion emits entries in strictly ascending key order (hence each distinct
key exactly once); the keys emitted are exactly the keys present in some
input; and each emitted entry is taken verbatim from the input of smallest
index among those containing its key. -/
theorem C3_merge_dedup (datas : List (List Entry))
    (hsorted : ∀ d ∈ datas, List.Chain' keyLt d) :
    List.Chain' keyLt
      (MergeIter.emitAll (MergeIter.create (datas.map (fun d => MockIterator.mk d 0)))) ∧
    (∀ k : List Nat,
      (∃ v, (k, v) ∈ MergeIter.emitAll
          (MergeIter.create (datas.map (fun d => MockIterator.mk d 0)))) ↔
      (∃ d ∈ datas, ∃ v, (k, v) ∈ d)) ∧
    (∀ e ∈ MergeIter.emitAll
        (MergeIter.create (datas.map (fun d => MockIterator.mk d 0))),
      ∃ i, ∃ hi : i < datas.length, e ∈ datas[i] ∧
        ∀ j, ∀ hj : j < datas.length, j < i → ∀ v, (e.1, v) ∉ datas[j]) := by
  have hits : ∀ it ∈ datas.map (fun d => MockIterator.mk d 0),
      List.Chain' keyLt it.suffix := by
    intro it hit
    obtain ⟨d, hd, rfl⟩ := List.mem_map.mp hit
    exact hsorted d hd
  obtain ⟨hinv, hperm0⟩ := create_spec (datas.map (fun d => MockIterator.mk d 0)) hits
  rw [map_pairSuffix_enum_fresh] at hperm0
  obtain ⟨hchain, hprov, hcov⟩ := merge_run_props
    (MergeIter.create (datas.map (fun d => MockIterator.mk d 0))).measure
    (MergeIter.create (datas.map (fun d => MockIterator.mk d 0))) hinv le_rfl
    ((MergeIter.create (datas.map (fun d => MockIterator.mk d 0))).measure + 1)
    (Nat.lt_succ_self _)
  have hout : MergeIter.emitAll (MergeIter.create (datas.map (fun d => MockIterator.mk d 0))) =
      MergeIter.collect
        ((MergeIter.create (datas.map (fun d => MockIterator.mk d 0))).measure + 1)
        (MergeIter.create (datas.map (fun d => MockIterator.mk d 0))) := rfl
  rw [hout]
  refine ⟨hchain, ?_, ?_⟩
  · intro k
    constructor
    · rintro ⟨v, hv⟩
      obtain ⟨q, hq, hkv, _⟩ := hprov (k, v) hv
      have hq' := List.mem_filter.mp (hperm0.mem_iff.mp hq)
      have hq2 : q.2 ∈ datas := by
        have := List.enum_map_snd datas
        exact this ▸ List.mem_map_of_mem Prod.snd hq'.1
      exact ⟨q.2, hq2, v, hkv⟩
    · rintro ⟨d, hd, v, hv⟩
      have hde : ∃ p ∈ datas.enum, Prod.snd p = d := by
        apply List.mem_map.mp
        rw [List.enum_map_snd]
        exact hd
      obtain ⟨p, hpe, hpd⟩ := hde
      have hvp : (k, v) ∈ p.2 := by
        rw [hpd]
        exact hv
      have hpmem : p ∈ memberSuffixes
          (MergeIter.create (datas.map (fun d => MockIterator.mk d 0))) := by
        apply hperm0.mem_iff.mpr
        apply List.mem_filter.mpr
        refine ⟨hpe, ?_⟩
        rw [List.isEmpty_eq_false.mpr (List.ne_nil_of_mem hvp)]
        rfl
      obtain ⟨v', hv'⟩ := hcov p hpmem (k, v) hvp
      exact ⟨v', hv'⟩
  · intro e he
    obtain ⟨q, hq, heq, hmin⟩ := hprov e he
    obtain ⟨i, s⟩ := q
    have hq' := List.mem_filter.mp (hperm0.mem_iff.mp hq)
    have hgetq : datas[i]? = some s := List.mk_mem_enum_iff_getElem?.mp hq'.1
    obtain ⟨hi, hsi⟩ := List.getElem?_eq_some.mp hgetq
    refine ⟨i, hi, by rw [hsi]; exact heq, ?_⟩
    intro j hj hji v hvmem
    have hje : (j, datas[j]) ∈ datas.enum :=
      List.mk_mem_enum_iff_getElem?.mpr (List.getElem?_eq_some.mpr ⟨hj, rfl⟩)
    have hjmem : (j, datas[j]) ∈ memberSuffixes
        (MergeIter.create (datas.map (fun d => MockIterator.mk d 0))) := by
      apply hperm0.mem_iff.mpr
      apply List.mem_filter.mpr
      refine ⟨hje, ?_⟩
      rw [List.isEmpty_eq_false.mpr (List.ne_nil_of_mem hvmem)]
      rfl
    have := hmin (j, datas[j]) hjmem ⟨v, hvmem⟩
    omega

/-- Concrete instance of `C3_merge_dedup`: two strictly sorted inputs sharing
the key `[99]`. -/
theorem C3_witness :
    (∀ d ∈ [[(([97], [1]) : Entry), ([99], [2])], [([98], [3]), ([99], [4])]],
      List.Chain' keyLt d) ∧
    (List.Chain' keyLt
      (MergeIter.emitAll (MergeIter.create
        ([[(([97], [1]) : Entry), ([99], [2])], [([98], [3]), ([99], [4])]].map
          (fun d => MockIterator.mk d 0)))) ∧
    (∀ k : List Nat,
      (∃ v, (k, v) ∈ MergeIter.emitAll
          (MergeIter.create
            ([[(([97], [1]) : Entry), ([99], [2])], [([98], [3]), ([99], [4])]].map
              (fun d => MockIterator.mk d 0)))) ↔
      (∃ d ∈ [[(([97], [1]) : Entry), ([99], [2])], [([98], [3]), ([99], [4])]],
        ∃ v, (k, v) ∈ d)) ∧
    (∀ e ∈ MergeIter.emitAll
        (MergeIter.create
          ([[(([97], [1]) : Entry), ([99], [2])], [([98], [3]), ([99], [4])]].map
            (fun d => MockIterator.mk d 0))),
      ∃ i, ∃ hi : i <
          [[(([97], [1]) : Entry), ([99], [2])], [([98], [3]), ([99], [4])]].length,
        e ∈ [[(([97], [1]) : Entry), ([99], [2])], [([98], [3]), ([99], [4])]][i] ∧
        ∀ j, ∀ hj : j <
            [[(([97], [1]) : Entry), ([99], [2])], [([98], [3]), ([99], [4])]].length,
          j < i → ∀ v, (e.1, v) ∉
            [[(([97], [1]) : Entry), ([99], [2])], [([98], [3]), ([99], [4])]][j])) :=
  ⟨by
    intro d hd
    simp only [List.mem_cons, List.not_mem_nil, or_false] at hd
    rcases hd with rfl | rfl
    · simp only [List.chain'_cons, List.chain'_singleton, and_true]
      show [97] < [99]
      decide
    · simp only [List.chain'_cons, List.chain'_singleton, and_true]
      show [98] < [99]
      decide,
  C3_merge_dedup
    [[(([97], [1]) : Entry), ([99], [2])], [([98], [3]), ([99], [4])]]
    (by
      intro d hd
      simp only [List.mem_cons, List.not_mem_nil, or_false] at hd
      rcases hd with rfl | rfl
      · simp only [List.chain'_cons, List.chain'_singleton, and_true]
        show [97] < [99]
        decide
      · simp only [List.chain'_cons, List.chain'_singleton, and_true]
        show [98] < [99]
        decide)⟩

/-- C4, counterexample.  After one successful `next` on a merge iterator over
the three sorted inputs `[(97,·),(99,·)]`, `[(99,·)]`, `[(99,·)]`, the two heap
sub-iterators (input indices 1 and 2) are both valid and both positioned at
the same key `[99]`, so "no two sub-iterators are positioned at the same key"
fails; the de-duplication loop only advances iterators whose key equals the
consumed key `[97]`. -/
theorem C4_counterexample :
    ((MergeIter.create
        [⟨[([97], [1]), ([99], [2])], 0⟩, ⟨[([99], [3])], 0⟩, ⟨[([99], [4])], 0⟩]).next.map
      (fun m => (m.is_valid, m.key, m.iters.map (fun p => (p.1, p.2.is_valid, p.2.key)))))
      = some (true, [99], [(1, true, [99]), (2, true, [99])]) := by
  have hcreate : MergeIter.create
      [⟨[([97], [1]), ([99], [2])], 0⟩, ⟨[([99], [3])], 0⟩, ⟨[([99], [4])], 0⟩] =
      { iters := [(1, ⟨[([99], [3])], 0⟩), (2, ⟨[([99], [4])], 0⟩)],
        current := some (0, ⟨[([97], [1]), ([99], [2])], 0⟩) } := rfl
  have hded : dedupAdvance [97]
      [(1, (⟨[([99], [3])], 0⟩ : MockIterator)), (2, ⟨[([99], [4])], 0⟩)] =
      [(1, ⟨[([99], [3])], 0⟩), (2, ⟨[([99], [4])], 0⟩)] := by
    rw [dedupAdvance]
    rw [if_neg (by decide)]
  have hkey : ({ data := [([97], [1]), ([99], [2])], index := 0 } : MockIterator).key =
      [97] := rfl
  rw [hcreate]
  simp only [MergeIter.next]
  rw [hkey, hded]
  rfl

/-- **C4** (amended).  After a successful `next` from an invariant-satisfying
state whose current sub-iterator is valid at key `k`: the new current (if
valid) is the minimum under (key ascending, input index ascending) over all
heap sub-iterators, and every still-valid sub-iterator — current included —
sits at a key strictly greater than the consumed key `k`; but two heap
sub-iterators may share such a later key (see the counterexample), so only
this weaker form of the claimed invariant holds. -/
theorem C4_current_minimum (m : MergeIter) (hinv : MInv m)
    (c : Nat × MockIterator) (hc : m.current = some c) (hv : c.2.is_valid = true) :
    ∃ m', m.next = some m' ∧
      (∀ c', m'.current = some c' → ∀ p ∈ m'.iters, wLe c' p) ∧
      (∀ p ∈ m'.members, p.2.is_valid = true → c.2.key < p.2.key) := by
  obtain ⟨m', h1, h2, _, _, h5⟩ := merge_next_spec m hinv c hc hv
  exact ⟨m', h1, h2.hcur_le, h5⟩

/-- C4, witness: the amended claim at a concrete one-iterator state. -/
theorem C4_witness :
    ∃ m', (MergeIter.mk [] (some (0, ⟨[([97], [1]), ([98], [2])], 0⟩))).next = some m' ∧
      (∀ c', m'.current = some c' → ∀ p ∈ m'.iters, wLe c' p) ∧
      (∀ p ∈ m'.members, p.2.is_valid = true →
        ((0, (⟨[([97], [1]), ([98], [2])], 0⟩ : MockIterator)) :
          Nat × MockIterator).2.key < p.2.key) :=
  C4_current_minimum (MergeIter.mk [] (some (0, ⟨[([97], [1]), ([98], [2])], 0⟩)))
    { hsorted := List.sorted_nil
      hvalid := fun p hp => absurd hp (List.not_mem_nil p)
      hcur_le := fun _ _ p hp => absurd hp (List.not_mem_nil p)
      hnone := fun _ => rfl
      hcur_inv := fun _ _ _ => rfl
      hdata := fun p hp => by
        have hp' : p = (0, (⟨[([97], [1]), ([98], [2])], 0⟩ : MockIterator)) := by
          simpa [MergeIter.members] using hp
        rw [hp']
        show List.Chain' keyLt [([97], [1]), ([98], [2])]
        simp only [List.chain'_cons, List.chain'_singleton, and_true]
        show [97] < [98]
        decide }
    (0, ⟨[([97], [1]), ([98], [2])], 0⟩) rfl rfl

/-! ### TwoMergeIterator (source `iterators/two_merge_iterator.rs`),
specialized to `MockIterator` on both sides -/

/-- Source `TwoMergeIterator::skip_b`: while `b` is valid and sits at `a`'s
key, advance `b` (the whole loop body runs only when `a` is valid). -/
def skipB (a b : MockIterator) : MockIterator :=
  if h : a.is_valid = true ∧ b.is_valid = true ∧ b.key = a.key then skipB a b.next
  else b
termination_by b.rem
decreasing_by
  exact rem_next_lt b h.2.1

/-- Source `TwoMergeIterator`. -/
structure TwoMergeIter where
  a : MockIterator
  b : MockIterator
  choose_a : Bool

/-- Source `TwoMergeIterator::choose_a` (the static method). -/
def chooseA (a b : MockIterator) : Bool :=
  if a.is_valid = false then false
  else if b.is_valid = false then true
  else decide (a.key < b.key)

/-- Source `TwoMergeIterator::create`. -/
def TwoMergeIter.create (a b : MockIterator) : TwoMergeIter :=
  let b1 := skipB a b
  { a := a, b := b1, choose_a := chooseA a b1 }

/-- Source `TwoMergeIterator::key`. -/
def TwoMergeIter.key (t : TwoMergeIter) : List Nat :=
  if t.choose_a then t.a.key else t.b.key

/-- Source `TwoMergeIterator::value`. -/
def TwoMergeIter.value (t : TwoMergeIter) : List Nat :=
  if t.choose_a then t.a.value else t.b.value

/-- Source `TwoMergeIterator::is_valid`. -/
def TwoMergeIter.is_valid (t : TwoMergeIter) : Bool :=
  if t.choose_a then t.a.is_valid else t.b.is_valid

/-- Source `TwoMergeIterator::next`: advance the chosen side, re-run
`skip_b`, recompute `choose_a`. -/
def TwoMergeIter.next (t : TwoMergeIter) : TwoMergeIter :=
  let a1 := if t.choose_a then t.a.next else t.a
  let b1 := if t.choose_a then t.b else t.b.next
  let b2 := skipB a1 b1
  { a := a1, b := b2, choose_a := chooseA a1 b2 }

/-- Read-and-advance loop over a `TwoMergeIter`, `fuel`-bounded. -/
def TwoMergeIter.collect : Nat → TwoMergeIter → List Entry
  | 0, _ => []
  | fuel + 1, t =>
    if t.is_valid then (t.key, t.value) :: TwoMergeIter.collect fuel t.next else []

/-- Iterate a `TwoMergeIter` to exhaustion. -/
def TwoMergeIter.emitAll (t : TwoMergeIter) : List Entry :=
  TwoMergeIter.collect (t.a.rem + t.b.rem + 1) t

/-- Reference A-precedence merge of two key-sorted entry lists, following the
spec's description of `TwoMergeIterator`: at equal keys take A's entry and
drop B's, otherwise take the smaller key first. -/
def mergeAB : List Entry → List Entry → List Entry
  | [], ys => ys
  | x :: xs, [] => x :: xs
  | x :: xs, y :: ys =>
    if x.1 = y.1 then x :: mergeAB xs ys
    else if x.1 < y.1 then x :: mergeAB xs (y :: ys)
    else y :: mergeAB (x :: xs) ys
termination_by xs ys => xs.length + ys.length

/-- Advancing a sub-iterator preserves strict sortedness of its suffix. -/
theorem chain_suffix_next (m : MockIterator) (h : List.Chain' keyLt m.suffix) :
    List.Chain' keyLt m.next.suffix := by
  rcases Bool.eq_false_or_eq_true m.is_valid with hv | hv
  · rw [suffix_of_valid m hv] at h
    exact h.tail
  · rw [next_of_invalid m hv]
    exact h

theorem skipB_of_neg {a b : MockIterator}
    (h : ¬(a.is_valid = true ∧ b.is_valid = true ∧ b.key = a.key)) :
    skipB a b = b := by
  rw [skipB]
  rw [dif_neg h]

theorem skipB_of_pos {a b : MockIterator}
    (h : a.is_valid = true ∧ b.is_valid = true ∧ b.key = a.key) :
    skipB a b = skipB a b.next := by
  rw [skipB]
  rw [dif_pos h]

/-- `skip_b` preserves strict sortedness of `b`'s suffix. -/
theorem chain_skipB (a b : MockIterator) (hb : List.Chain' keyLt b.suffix) :
    List.Chain' keyLt (skipB a b).suffix := by
  induction b using skipB.induct with
  | a => exact a
  | case1 b h ih =>
    rw [skipB_of_pos h]
    exact ih (chain_suffix_next b hb)
  | case2 b h =>
    rw [skipB_of_neg h]
    exact hb

/-- `skip_b` never increases the number of remaining entries. -/
theorem skipB_rem_le (a b : MockIterator) : (skipB a b).rem ≤ b.rem := by
  induction b using skipB.induct with
  | a => exact a
  | case1 b h ih =>
    rw [skipB_of_pos h]
    exact le_trans ih (rem_next_le b)
  | case2 b h =>
    rw [skipB_of_neg h]

/-- After `skip_b`, a valid `b` no longer sits at `a`'s key. -/
theorem skipB_post (a b : MockIterator) (ha : a.is_valid = true) :
    (skipB a b).is_valid = true → (skipB a b).key ≠ a.key := by
  induction b using skipB.induct with
  | a => exact a
  | case1 b h ih =>
    rw [skipB_of_pos h]
    exact ih
  | case2 b h =>
    rw [skipB_of_neg h]
    intro hbv hk
    exact h ⟨ha, hbv, hk⟩

theorem mergeAB_nil_left (ys : List Entry) : mergeAB [] ys = ys := by
  rw [mergeAB]

theorem mergeAB_nil_right (xs : List Entry) : mergeAB xs [] = xs := by
  cases xs with
  | nil => rw [mergeAB]
  | cons x t => rw [mergeAB]

theorem mergeAB_cons_eq {x y : Entry} {xs ys : List Entry} (h : x.1 = y.1) :
    mergeAB (x :: xs) (y :: ys) = x :: mergeAB xs ys := by
  rw [mergeAB]
  rw [if_pos h]

theorem mergeAB_cons_lt {x y : Entry} {xs ys : List Entry} (h1 : ¬x.1 = y.1)
    (h2 : x.1 < y.1) :
    mergeAB (x :: xs) (y :: ys) = x :: mergeAB xs (y :: ys) := by
  rw [mergeAB]
  rw [if_neg h1, if_pos h2]

theorem mergeAB_cons_gt {x y : Entry} {xs ys : List Entry} (h1 : ¬x.1 = y.1)
    (h2 : ¬x.1 < y.1) :
    mergeAB (x :: xs) (y :: ys) = y :: mergeAB (x :: xs) ys := by
  rw [mergeAB]
  rw [if_neg h1, if_neg h2]

/-- Entries of the reference merge come from one of the two inputs. -/
theorem mergeAB_mem {e : Entry} : ∀ {xs ys : List Entry},
    e ∈ mergeAB xs ys → e ∈ xs ∨ e ∈ ys := by
  intro xs ys
  induction xs, ys using mergeAB.induct with
  | case1 ys =>
    rw [mergeAB_nil_left]
    exact Or.inr
  | case2 x xs =>
    rw [mergeAB_nil_right]
    exact Or.inl
  | case3 x xs y ys h ih =>
    rw [mergeAB_cons_eq h]
    intro he
    rcases List.mem_cons.mp he with rfl | he'
    · exact Or.inl (List.mem_cons_self _ _)
    · rcases ih he' with h' | h'
      · exact Or.inl (List.mem_cons_of_mem _ h')
      · exact Or.inr (List.mem_cons_of_mem _ h')
  | case4 x xs y ys h1 h2 ih =>
    rw [mergeAB_cons_lt h1 h2]
    intro he
    rcases List.mem_cons.mp he with rfl | he'
    · exact Or.inl (List.mem_cons_self _ _)
    · rcases ih he' with h' | h'
      · exact Or.inl (List.mem_cons_of_mem _ h')
      · exact Or.inr h'
  | case5 x xs y ys h1 h2 ih =>
    rw [mergeAB_cons_gt h1 h2]
    intro he
    rcases List.mem_cons.mp he with rfl | he'
    · exact Or.inr (List.mem_cons_self _ _)
    · rcases ih he' with h' | h'
      · exact Or.inl h'
      · exact Or.inr (List.mem_cons_of_mem _ h')

/-- Every key of the left input appears in the reference merge. -/
theorem mergeAB_covers_left {k v : List Nat} : ∀ {xs ys : List Entry},
    (k, v) ∈ xs → ∃ v', (k, v') ∈ mergeAB xs ys := by
  intro xs ys
  induction xs, ys using mergeAB.induct with
  | case1 ys =>
    intro hv
    cases hv
  | case2 x xs =>
    intro hv
    rw [mergeAB_nil_right]
    exact ⟨v, hv⟩
  | case3 x xs y ys h ih =>
    rw [mergeAB_cons_eq h]
    intro hv
    rcases List.mem_cons.mp hv with heq | hv'
    · exact ⟨v, heq ▸ List.mem_cons_self _ _⟩
    · obtain ⟨v', hv'⟩ := ih hv'
      exact ⟨v', List.mem_cons_of_mem _ hv'⟩
  | case4 x xs y ys h1 h2 ih =>
    rw [mergeAB_cons_lt h1 h2]
    intro hv
    rcases List.mem_cons.mp hv with heq | hv'
    · exact ⟨v, heq ▸ List.mem_cons_self _ _⟩
    · obtain ⟨v', hv'⟩ := ih hv'
      exact ⟨v', List.mem_cons_of_mem _ hv'⟩
  | case5 x xs y ys h1 h2 ih =>
    rw [mergeAB_cons_gt h1 h2]
    intro hv
    obtain ⟨v', hv'⟩ := ih hv
    exact ⟨v', List.mem_cons_of_mem _ hv'⟩

/-- Every key of the right input appears in the reference merge (possibly with
the left input's value). -/
theorem mergeAB_covers_right {k v : List Nat} : ∀ {xs ys : List Entry},
    (k, v) ∈ ys → ∃ v', (k, v') ∈ mergeAB xs ys := by
  intro xs ys
  induction xs, ys using mergeAB.induct with
  | case1 ys =>
    intro hv
    rw [mergeAB_nil_left]
    exact ⟨v, hv⟩
  | case2 x xs =>
    intro hv
    cases hv
  | case3 x xs y ys h ih =>
    rw [mergeAB_cons_eq h]
    intro hv
    rcases List.mem_cons.mp hv with heq | hv'
    · refine ⟨x.2, ?_⟩
      have hk : k = x.1 := by
        rw [h]
        exact congrArg Prod.fst heq
      rw [hk]
      exact List.mem_cons_self _ _
    · obtain ⟨v', hv'⟩ := ih hv'
      exact ⟨v', List.mem_cons_of_mem _ hv'⟩
  | case4 x xs y ys h1 h2 ih =>
    rw [mergeAB_cons_lt h1 h2]
    intro hv
    obtain ⟨v', hv'⟩ := ih hv
    exact ⟨v', List.mem_cons_of_mem _ hv'⟩
  | case5 x xs y ys h1 h2 ih =>
    rw [mergeAB_cons_gt h1 h2]
    intro hv
    rcases List.mem_cons.mp hv with heq | hv'
    · exact ⟨v, heq ▸ List.mem_cons_self _ _⟩
    · obtain ⟨v', hv'⟩ := ih hv'
      exact ⟨v', List.mem_cons_of_mem _ hv'⟩

/-- The reference merge of two strictly key-sorted lists is strictly
key-sorted. -/
theorem mergeAB_chain : ∀ {xs ys : List Entry}, List.Chain' keyLt xs →
    List.Chain' keyLt ys → List.Chain' keyLt (mergeAB xs ys) := by
  intro xs ys
  induction xs, ys using mergeAB.induct with
  | case1 ys =>
    intro _ hys
    rw [mergeAB_nil_left]
    exact hys
  | case2 x xs =>
    intro hxs _
    rw [mergeAB_nil_right]
    exact hxs
  | case3 x xs y ys h ih =>
    intro hxs hys
    rw [mergeAB_cons_eq h]
    rw [List.chain'_cons']
    refine ⟨?_, ih hxs.tail hys.tail⟩
    intro z hz
    have hzm := List.mem_of_mem_head? hz
    have hxp := List.pairwise_cons.mp (List.chain'_iff_pairwise.mp hxs)
    have hyp := List.pairwise_cons.mp (List.chain'_iff_pairwise.mp hys)
    rcases mergeAB_mem hzm with h' | h'
    · exact hxp.1 z h'
    · show x.1 < z.1
      rw [h]
      exact hyp.1 z h'
  | case4 x xs y ys h1 h2 ih =>
    intro hxs hys
    rw [mergeAB_cons_lt h1 h2]
    rw [List.chain'_cons']
    refine ⟨?_, ih hxs.tail hys⟩
    intro z hz
    have hzm := List.mem_of_mem_head? hz
    have hxp := List.pairwise_cons.mp (List.chain'_iff_pairwise.mp hxs)
    have hyp := List.pairwise_cons.mp (List.chain'_iff_pairwise.mp hys)
    rcases mergeAB_mem hzm with h' | h'
    · exact hxp.1 z h'
    · rcases List.mem_cons.mp h' with rfl | h''
      · exact h2
      · exact lt_trans h2 (hyp.1 z h'')
  | case5 x xs y ys h1 h2 ih =>
    intro hxs hys
    rw [mergeAB_cons_gt h1 h2]
    rw [List.chain'_cons']
    refine ⟨?_, ih hxs hys.tail⟩
    have hylt : y.1 < x.1 := by
      rcases lt_trichotomy x.1 y.1 with h' | h' | h'
      · exact absurd h' h2
      · exact absurd h' h1
      · exact h'
    intro z hz
    have hzm := List.mem_of_mem_head? hz
    have hxp := List.pairwise_cons.mp (List.chain'_iff_pairwise.mp hxs)
    have hyp := List.pairwise_cons.mp (List.chain'_iff_pairwise.mp hys)
    rcases mergeAB_mem hzm with h' | h'
    · rcases List.mem_cons.mp h' with rfl | h''
      · exact hylt
      · exact lt_trans hylt (hxp.1 z h'')
    · exact hyp.1 z h'

/-- A-precedence of the reference merge: every emitted entry is taken verbatim
from A, or from B when A does not hold its key at all. -/
theorem mergeAB_prec : ∀ {xs ys : List Entry}, List.Chain' keyLt xs →
    List.Chain' keyLt ys → ∀ e ∈ mergeAB xs ys,
    e ∈ xs ∨ (e ∈ ys ∧ ∀ v, (e.1, v) ∉ xs) := by
  intro xs ys
  induction xs, ys using mergeAB.induct with
  | case1 ys =>
    intro _ _ e he
    rw [mergeAB_nil_left] at he
    exact Or.inr ⟨he, fun v hv => absurd hv (List.not_mem_nil _)⟩
  | case2 x xs =>
    intro _ _ e he
    rw [mergeAB_nil_right] at he
    exact Or.inl he
  | case3 x xs y ys h ih =>
    intro hxs hys e he
    rw [mergeAB_cons_eq h] at he
    rcases List.mem_cons.mp he with rfl | he'
    · exact Or.inl (List.mem_cons_self _ _)
    · rcases ih hxs.tail hys.tail e he' with h' | ⟨hey, hnx⟩
      · exact Or.inl (List.mem_cons_of_mem _ h')
      · refine Or.inr ⟨List.mem_cons_of_mem _ hey, ?_⟩
        intro v hv
        rcases List.mem_cons.mp hv with heq | hv'
        · have hke : e.1 = x.1 :=
            show ((e.1, v) : Entry).1 = x.1 from congrArg Prod.fst heq
          have hyp := List.pairwise_cons.mp (List.chain'_iff_pairwise.mp hys)
          have : y.1 < e.1 := hyp.1 e hey
          rw [hke, h] at this
          exact absurd this (lt_irrefl _)
        · exact hnx v hv'
  | case4 x xs y ys h1 h2 ih =>
    intro hxs hys e he
    rw [mergeAB_cons_lt h1 h2] at he
    rcases List.mem_cons.mp he with rfl | he'
    · exact Or.inl (List.mem_cons_self _ _)
    · rcases ih hxs.tail hys e he' with h' | ⟨hey, hnx⟩
      · exact Or.inl (List.mem_cons_of_mem _ h')
      · refine Or.inr ⟨hey, ?_⟩
        intro v hv
        rcases List.mem_cons.mp hv with heq | hv'
        · have hke : e.1 = x.1 :=
            show ((e.1, v) : Entry).1 = x.1 from congrArg Prod.fst heq
          have hyle : y.1 ≤ e.1 := chain'_head_le hys rfl hey
          rw [hke] at hyle
          exact absurd (lt_of_lt_of_le h2 hyle) (lt_irrefl _)
        · exact hnx v hv'
  | case5 x xs y ys h1 h2 ih =>
    intro hxs hys e he
    have hylt : y.1 < x.1 := by
      rcases lt_trichotomy x.1 y.1 with h' | h' | h'
      · exact absurd h' h2
      · exact absurd h' h1
      · exact h'
    rw [mergeAB_cons_gt h1 h2] at he
    rcases List.mem_cons.mp he with rfl | he'
    · refine Or.inr ⟨List.mem_cons_self _ _, ?_⟩
      intro v hv
      rcases List.mem_cons.mp hv with heq | hv'
      · have : e.1 = x.1 :=
          show ((e.1, v) : Entry).1 = x.1 from congrArg Prod.fst heq
        rw [this] at hylt
        exact absurd hylt (lt_irrefl _)
      · have hxp := List.pairwise_cons.mp (List.chain'_iff_pairwise.mp hxs)
        have : x.1 < (e.1, v).1 := hxp.1 _ hv'
        have h3 : x.1 < e.1 := this
        exact absurd (lt_trans h3 hylt) (lt_irrefl _)
    · rcases ih hxs hys.tail e he' with h' | ⟨hey, hnx⟩
      · exact Or.inl h'
      · exact Or.inr ⟨List.mem_cons_of_mem _ hey, hnx⟩

/-- `skip_b` drops only entries whose key the `a`-side is about to emit, so it
does not change the reference merge. -/
theorem mergeAB_skipB (a b : MockIterator) (hb : List.Chain' keyLt b.suffix) :
    mergeAB a.suffix (skipB a b).suffix = mergeAB a.suffix b.suffix := by
  induction b using skipB.induct with
  | a => exact a
  | case1 b h ih =>
    rw [skipB_of_pos h]
    rw [ih (chain_suffix_next b hb)]
    obtain ⟨hav, hbv, hkeq⟩ := h
    rw [suffix_of_valid a hav, suffix_of_valid b hbv]
    rw [@mergeAB_cons_eq (a.key, a.value) (b.key, b.value) a.next.suffix b.next.suffix
      hkeq.symm]
    cases hbn : b.next.suffix with
    | nil =>
      rw [mergeAB_nil_right, mergeAB_nil_right]
    | cons z zs =>
      have hz : b.key < z.1 := by
        rw [suffix_of_valid b hbv, hbn] at hb
        exact (List.chain'_cons.mp hb).1
      have hne : ¬((a.key, a.value) : Entry).1 = z.1 := by
        intro hc
        have hc' : a.key = z.1 := hc
        rw [← hc', ← hkeq] at hz
        exact lt_irrefl _ hz
      have hlt : ((a.key, a.value) : Entry).1 < z.1 := by
        show a.key < z.1
        rw [hkeq] at hz
        exact hz
      rw [@mergeAB_cons_lt (a.key, a.value) z a.next.suffix zs hne hlt]
  | case2 b h =>
    rw [skipB_of_neg h]

theorem is_valid_of_choose_true (t : TwoMergeIter) (h : t.choose_a = true) :
    t.is_valid = t.a.is_valid := by
  unfold TwoMergeIter.is_valid
  rw [h]
  rfl

theorem is_valid_of_choose_false (t : TwoMergeIter) (h : t.choose_a = false) :
    t.is_valid = t.b.is_valid := by
  unfold TwoMergeIter.is_valid
  rw [h]
  rfl

theorem key_of_choose_true (t : TwoMergeIter) (h : t.choose_a = true) :
    t.key = t.a.key := by
  unfold TwoMergeIter.key
  rw [h]
  rfl

theorem key_of_choose_false (t : TwoMergeIter) (h : t.choose_a = false) :
    t.key = t.b.key := by
  unfold TwoMergeIter.key
  rw [h]
  rfl

theorem value_of_choose_true (t : TwoMergeIter) (h : t.choose_a = true) :
    t.value = t.a.value := by
  unfold TwoMergeIter.value
  rw [h]
  rfl

theorem value_of_choose_false (t : TwoMergeIter) (h : t.choose_a = false) :
    t.value = t.b.value := by
  unfold TwoMergeIter.value
  rw [h]
  rfl

theorem next_of_choose_true (t : TwoMergeIter) (h : t.choose_a = true) :
    t.next = { a := t.a.next, b := skipB t.a.next t.b,
               choose_a := chooseA t.a.next (skipB t.a.next t.b) } := by
  unfold TwoMergeIter.next
  rw [h]
  rfl

theorem next_of_choose_false (t : TwoMergeIter) (h : t.choose_a = false) :
    t.next = { a := t.a, b := skipB t.a t.b.next,
               choose_a := chooseA t.a (skipB t.a t.b.next) } := by
  unfold TwoMergeIter.next
  rw [h]
  rfl

theorem chooseA_of_a_invalid (a b : MockIterator) (h : a.is_valid = false) :
    chooseA a b = false := by
  unfold chooseA
  rw [if_pos h]

theorem chooseA_of_b_invalid (a b : MockIterator) (ha : a.is_valid = true)
    (hb : b.is_valid = false) : chooseA a b = true := by
  unfold chooseA
  rw [if_neg (by rw [ha]; exact fun hc => Bool.true_eq_false.mp hc), if_pos hb]

theorem chooseA_of_both (a b : MockIterator) (ha : a.is_valid = true)
    (hb : b.is_valid = true) : chooseA a b = decide (a.key < b.key) := by
  unfold chooseA
  rw [if_neg (by rw [ha]; exact fun hc => Bool.true_eq_false.mp hc),
    if_neg (by rw [hb]; exact fun hc => Bool.true_eq_false.mp hc)]

theorem twoCollect_invalid (t : TwoMergeIter) (hv : t.is_valid = false) :
    ∀ fuel, TwoMergeIter.collect fuel t = [] := by
  intro fuel
  cases fuel with
  | zero => rfl
  | succ f =>
    show (if t.is_valid then _ else []) = []
    rw [hv]
    rfl

/-- The invariant maintained by `TwoMergeIterator::create` and `next`:
both suffixes strictly sorted, `b` not positioned at `a`'s key (the `skip_b`
postcondition), and the `choose_a` flag coherent with the two sides. -/
structure TInv (t : TwoMergeIter) : Prop where
  ha : List.Chain' keyLt t.a.suffix
  hb : List.Chain' keyLt t.b.suffix
  hskip : t.a.is_valid = true → t.b.is_valid = true → t.b.key ≠ t.a.key
  hch : t.choose_a = chooseA t.a t.b

/-- Full run of a `TwoMergeIterator` from any invariant-satisfying state: it
emits exactly the reference A-precedence merge of the two remaining
sequences. -/
theorem twoMerge_run (n : Nat) : ∀ t : TwoMergeIter, TInv t →
    t.a.rem + t.b.rem ≤ n → ∀ fuel, t.a.rem + t.b.rem < fuel →
    TwoMergeIter.collect fuel t = mergeAB t.a.suffix t.b.suffix := by
  induction n with
  | zero =>
    intro t hinv hle fuel hf
    have hsa : t.a.suffix = [] := by
      have h1 := rem_eq_suffix_length t.a
      have h2 : t.a.rem = 0 := by omega
      rw [h2] at h1
      exact List.eq_nil_of_length_eq_zero h1.symm
    have hsb : t.b.suffix = [] := by
      have h1 := rem_eq_suffix_length t.b
      have h2 : t.b.rem = 0 := by omega
      rw [h2] at h1
      exact List.eq_nil_of_length_eq_zero h1.symm
    have havF : t.a.is_valid = false := (suffix_eq_nil_iff t.a).mp hsa
    have hbvF : t.b.is_valid = false := (suffix_eq_nil_iff t.b).mp hsb
    have hch : t.choose_a = false := by
      rw [hinv.hch]
      exact chooseA_of_a_invalid _ _ havF
    have hv : t.is_valid = false := by
      rw [is_valid_of_choose_false t hch]
      exact hbvF
    rw [twoCollect_invalid t hv fuel, hsa, hsb, mergeAB_nil_left]
  | succ n ih =>
    intro t hinv hle fuel hf
    cases fuel with
    | zero => omega
    | succ f =>
      by_cases hav : t.a.is_valid = true
      case pos =>
        by_cases hbv : t.b.is_valid = true
        case pos =>
          have hne : t.b.key ≠ t.a.key := hinv.hskip hav hbv
          have hsa := suffix_of_valid t.a hav
          have hsb := suffix_of_valid t.b hbv
          by_cases hlt : t.a.key < t.b.key
          case pos =>
            have hch : t.choose_a = true := by
              rw [hinv.hch, chooseA_of_both t.a t.b hav hbv]
              exact decide_eq_true hlt
            have hv : t.is_valid = true := by
              rw [is_valid_of_choose_true t hch]
              exact hav
            have hnext := next_of_choose_true t hch
            have hinv' : TInv t.next := by
              rw [hnext]
              exact { ha := chain_suffix_next t.a hinv.ha
                      hb := chain_skipB t.a.next t.b hinv.hb
                      hskip := skipB_post t.a.next t.b
                      hch := rfl }
            have hrema : t.a.next.rem < t.a.rem := rem_next_lt t.a hav
            have hremb : (skipB t.a.next t.b).rem ≤ t.b.rem := skipB_rem_le t.a.next t.b
            have hmeas : t.next.a.rem + t.next.b.rem < t.a.rem + t.b.rem := by
              rw [hnext]
              show t.a.next.rem + (skipB t.a.next t.b).rem < t.a.rem + t.b.rem
              omega
            have hIH2 : TwoMergeIter.collect f t.next =
                mergeAB t.a.next.suffix (skipB t.a.next t.b).suffix := by
              rw [ih t.next hinv' (by omega) f (by omega), hnext]
            rw [mergeAB_skipB t.a.next t.b hinv.hb] at hIH2
            show (if t.is_valid then (t.key, t.value) ::
                TwoMergeIter.collect f t.next else []) = _
            rw [hv, if_pos rfl, key_of_choose_true t hch, value_of_choose_true t hch,
              hIH2, hsa, hsb]
            rw [@mergeAB_cons_lt (t.a.key, t.a.value) (t.b.key, t.b.value)
              t.a.next.suffix t.b.next.suffix
              (fun hc => hne (Eq.symm (show t.a.key = t.b.key from hc)))
              (show t.a.key < t.b.key from hlt)]
          case neg =>
            have hblt : t.b.key < t.a.key := by
              rcases lt_trichotomy t.a.key t.b.key with h' | h' | h'
              · exact absurd h' hlt
              · exact absurd h'.symm hne
              · exact h'
            have hch : t.choose_a = false := by
              rw [hinv.hch, chooseA_of_both t.a t.b hav hbv]
              exact decide_eq_false hlt
            have hv : t.is_valid = true := by
              rw [is_valid_of_choose_false t hch]
              exact hbv
            have hnext := next_of_choose_false t hch
            have hinv' : TInv t.next := by
              rw [hnext]
              exact { ha := hinv.ha
                      hb := chain_skipB t.a t.b.next (chain_suffix_next t.b hinv.hb)
                      hskip := skipB_post t.a t.b.next
                      hch := rfl }
            have hremb : t.b.next.rem < t.b.rem := rem_next_lt t.b hbv
            have hremb2 : (skipB t.a t.b.next).rem ≤ t.b.next.rem := skipB_rem_le t.a t.b.next
            have hmeas : t.next.a.rem + t.next.b.rem < t.a.rem + t.b.rem := by
              rw [hnext]
              show t.a.rem + (skipB t.a t.b.next).rem < t.a.rem + t.b.rem
              omega
            have hIH2 : TwoMergeIter.collect f t.next =
                mergeAB t.a.suffix (skipB t.a t.b.next).suffix := by
              rw [ih t.next hinv' (by omega) f (by omega), hnext]
            rw [mergeAB_skipB t.a t.b.next (chain_suffix_next t.b hinv.hb)] at hIH2
            show (if t.is_valid then (t.key, t.value) ::
                TwoMergeIter.collect f t.next else []) = _
            rw [hv, if_pos rfl, key_of_choose_false t hch, value_of_choose_false t hch,
              hIH2, hsa, hsb]
            rw [@mergeAB_cons_gt (t.a.key, t.a.value) (t.b.key, t.b.value)
              t.a.next.suffix t.b.next.suffix
              (fun hc => hne (Eq.symm (show t.a.key = t.b.key from hc)))
              (not_lt.mpr (le_of_lt (show t.b.key < t.a.key from hblt)))]
        case neg =>
          have hbvF : t.b.is_valid = false := by
            rcases Bool.eq_false_or_eq_true t.b.is_valid with h' | h'
            · exact absurd h' hbv
            · exact h'
          have hsbn : t.b.suffix = [] := (suffix_eq_nil_iff t.b).mpr hbvF
          have hsa := suffix_of_valid t.a hav
          have hch : t.choose_a = true := by
            rw [hinv.hch]
            exact chooseA_of_b_invalid t.a t.b hav hbvF
          have hv : t.is_valid = true := by
            rw [is_valid_of_choose_true t hch]
            exact hav
          have hnext := next_of_choose_true t hch
          have hsk : skipB t.a.next t.b = t.b :=
            skipB_of_neg (by simp [hbvF])
          rw [hsk] at hnext
          have hinv' : TInv t.next := by
            rw [hnext]
            exact { ha := chain_suffix_next t.a hinv.ha
                    hb := hinv.hb
                    hskip := fun _ h2 => absurd h2 (by simp [hbvF])
                    hch := rfl }
          have hrema : t.a.next.rem < t.a.rem := rem_next_lt t.a hav
          have hmeas : t.next.a.rem + t.next.b.rem < t.a.rem + t.b.rem := by
            rw [hnext]
            show t.a.next.rem + t.b.rem < t.a.rem + t.b.rem
            omega
          have hIH2 : TwoMergeIter.collect f t.next =
              mergeAB t.a.next.suffix t.b.suffix := by
            rw [ih t.next hinv' (by omega) f (by omega), hnext]
          rw [hsbn, mergeAB_nil_right] at hIH2
          show (if t.is_valid then (t.key, t.value) ::
              TwoMergeIter.collect f t.next else []) = _
          rw [hv, if_pos rfl, key_of_choose_true t hch, value_of_choose_true t hch,
            hIH2, hsbn, mergeAB_nil_right, hsa]
      case neg =>
        have havF : t.a.is_valid = false := by
          rcases Bool.eq_false_or_eq_true t.a.is_valid with h' | h'
          · exact absurd h' hav
          · exact h'
        have hsan : t.a.suffix = [] := (suffix_eq_nil_iff t.a).mpr havF
        have hch : t.choose_a = false := by
          rw [hinv.hch]
          exact chooseA_of_a_invalid t.a t.b havF
        by_cases hbv : t.b.is_valid = true
        case pos =>
          have hsb := suffix_of_valid t.b hbv
          have hv : t.is_valid = true := by
            rw [is_valid_of_choose_false t hch]
            exact hbv
          have hnext := next_of_choose_false t hch
          have hsk : skipB t.a t.b.next = t.b.next :=
            skipB_of_neg (by simp [havF])
          rw [hsk] at hnext
          have hinv' : TInv t.next := by
            rw [hnext]
            exact { ha := hinv.ha
                    hb := chain_suffix_next t.b hinv.hb
                    hskip := fun h1 => absurd h1 (by simp [havF])
                    hch := rfl }
          have hremb : t.b.next.rem < t.b.rem := rem_next_lt t.b hbv
          have hmeas : t.next.a.rem + t.next.b.rem < t.a.rem + t.b.rem := by
            rw [hnext]
            show t.a.rem + t.b.next.rem < t.a.rem + t.b.rem
            omega
          have hIH2 : TwoMergeIter.collect f t.next =
              mergeAB t.a.suffix t.b.next.suffix := by
            rw [ih t.next hinv' (by omega) f (by omega), hnext]
          rw [hsan, mergeAB_nil_left] at hIH2
          show (if t.is_valid then (t.key, t.value) ::
              TwoMergeIter.collect f t.next else []) = _
          rw [hv, if_pos rfl, key_of_choose_false t hch, value_of_choose_false t hch,
            hIH2, hsan, mergeAB_nil_left, hsb]
        case neg =>
          have hbvF : t.b.is_valid = false := by
            rcases Bool.eq_false_or_eq_true t.b.is_valid with h' | h'
            · exact absurd h' hbv
            · exact h'
          have hsbn : t.b.suffix = [] := (suffix_eq_nil_iff t.b).mpr hbvF
          have hv : t.is_valid = false := by
            rw [is_valid_of_choose_false t hch]
            exact hbvF
          rw [twoCollect_invalid t hv, hsan, hsbn, mergeAB_nil_left]

/-- `TwoMergeIterator::create` establishes the invariant. -/
theorem TInv_create (a b : MockIterator) (ha : List.Chain' keyLt a.suffix)
    (hb : List.Chain' keyLt b.suffix) : TInv (TwoMergeIter.create a b) :=
  { ha := ha
    hb := chain_skipB a b hb
    hskip := skipB_post a b
    hch := rfl }

/-- **C5.** For every pair of individually strictly-sorted inputs A and B,
iterating `TwoMergeIterator(A, B)` to exhaustion emits entries in strictly
ascending key order (each key once); the emitted keys are exactly the union of
the key sets of A and B; and every emitted entry is taken verbatim from A, or
from B only when A does not contain its key — so for keys present in both the
emitted value is A's. -/
theorem C5_two_merge (da db : List Entry)
    (hda : List.Chain' keyLt da) (hdb : List.Chain' keyLt db) :
    List.Chain' keyLt
      (TwoMergeIter.emitAll (TwoMergeIter.create ⟨da, 0⟩ ⟨db, 0⟩)) ∧
    (∀ k : List Nat,
      (∃ v, (k, v) ∈ TwoMergeIter.emitAll (TwoMergeIter.create ⟨da, 0⟩ ⟨db, 0⟩)) ↔
      ((∃ v, (k, v) ∈ da) ∨ (∃ v, (k, v) ∈ db))) ∧
    (∀ e ∈ TwoMergeIter.emitAll (TwoMergeIter.create ⟨da, 0⟩ ⟨db, 0⟩),
      e ∈ da ∨ (e ∈ db ∧ ∀ v, (e.1, v) ∉ da)) := by
  have hinv : TInv (TwoMergeIter.create ⟨da, 0⟩ ⟨db, 0⟩) :=
    TInv_create ⟨da, 0⟩ ⟨db, 0⟩ hda hdb
  have hrun := twoMerge_run
    ((TwoMergeIter.create ⟨da, 0⟩ ⟨db, 0⟩).a.rem +
      (TwoMergeIter.create ⟨da, 0⟩ ⟨db, 0⟩).b.rem)
    (TwoMergeIter.create ⟨da, 0⟩ ⟨db, 0⟩) hinv le_rfl
    ((TwoMergeIter.create ⟨da, 0⟩ ⟨db, 0⟩).a.rem +
      (TwoMergeIter.create ⟨da, 0⟩ ⟨db, 0⟩).b.rem + 1)
    (Nat.lt_succ_self _)
  have hout : TwoMergeIter.emitAll (TwoMergeIter.create ⟨da, 0⟩ ⟨db, 0⟩) =
      mergeAB da db := by
    show TwoMergeIter.collect
      ((TwoMergeIter.create ⟨da, 0⟩ ⟨db, 0⟩).a.rem +
        (TwoMergeIter.create ⟨da, 0⟩ ⟨db, 0⟩).b.rem + 1)
      (TwoMergeIter.create ⟨da, 0⟩ ⟨db, 0⟩) = mergeAB da db
    rw [hrun]
    show mergeAB (MockIterator.mk da 0).suffix
      (skipB ⟨da, 0⟩ ⟨db, 0⟩).suffix = mergeAB da db
    rw [mergeAB_skipB ⟨da, 0⟩ ⟨db, 0⟩ hdb]
    rfl
  rw [hout]
  refine ⟨mergeAB_chain hda hdb, ?_, mergeAB_prec hda hdb⟩
  intro k
  constructor
  · rintro ⟨v, hv⟩
    rcases mergeAB_mem hv with h' | h'
    · exact Or.inl ⟨v, h'⟩
    · exact Or.inr ⟨v, h'⟩
  · rintro (⟨v, hv⟩ | ⟨v, hv⟩)
    · exact mergeAB_covers_left hv
    · exact mergeAB_covers_right hv

/-- Concrete instance of `C5_two_merge`: two sorted inputs sharing key `[99]`;
the merged output takes A's value for it. -/
theorem C5_witness :
    List.Chain' keyLt [(([97], [1]) : Entry), ([99], [2])] ∧
    List.Chain' keyLt [(([98], [3]) : Entry), ([99], [4])] ∧
    (List.Chain' keyLt
      (TwoMergeIter.emitAll (TwoMergeIter.create
        ⟨[(([97], [1]) : Entry), ([99], [2])], 0⟩
        ⟨[(([98], [3]) : Entry), ([99], [4])], 0⟩)) ∧
    (∀ k : List Nat,
      (∃ v, (k, v) ∈ TwoMergeIter.emitAll (TwoMergeIter.create
        ⟨[(([97], [1]) : Entry), ([99], [2])], 0⟩
        ⟨[(([98], [3]) : Entry), ([99], [4])], 0⟩)) ↔
      ((∃ v, (k, v) ∈ [(([97], [1]) : Entry), ([99], [2])]) ∨
       (∃ v, (k, v) ∈ [(([98], [3]) : Entry), ([99], [4])]))) ∧
    (∀ e ∈ TwoMergeIter.emitAll (TwoMergeIter.create
        ⟨[(([97], [1]) : Entry), ([99], [2])], 0⟩
        ⟨[(([98], [3]) : Entry), ([99], [4])], 0⟩),
      e ∈ [(([97], [1]) : Entry), ([99], [2])] ∨
        (e ∈ [(([98], [3]) : Entry), ([99], [4])] ∧
          ∀ v, (e.1, v) ∉ [(([97], [1]) : Entry), ([99], [2])]))) := by
  have h1 : List.Chain' keyLt [(([97], [1]) : Entry), ([99], [2])] := by
    simp only [List.chain'_cons, List.chain'_singleton, and_true]
    show [97] < [99]
    decide
  have h2 : List.Chain' keyLt [(([98], [3]) : Entry), ([99], [4])] := by
    simp only [List.chain'_cons, List.chain'_singleton, and_true]
    show [98] < [99]
    decide
  exact ⟨h1, h2, C5_two_merge _ _ h1 h2⟩

/-! ### Seeking a built block by key -/

theorem seek_to_idx_built_at (es0 : List Entry) (j : Nat) (hj : j < es0.length)
    (it : BlockIterator) (hblock : it.block = builtBlock es0)
    (hk : (es0.get ⟨j, hj⟩).1.length < 65536)
    (hv : (es0.get ⟨j, hj⟩).2.length < 65536) :
    it.seek_to_idx j =
      BlockIterator.mk it.block (es0.get ⟨j, hj⟩).1 (es0.get ⟨j, hj⟩).2 j := by
  have hsplit : es0 = es0.take j ++ es0.get ⟨j, hj⟩ :: es0.drop (j + 1) := by
    conv_lhs => rw [← List.take_append_drop j es0]
    rw [List.drop_eq_getElem_cons hj]
    rfl
  have hlen : (es0.take j).length = j := by
    simp [List.length_take]
    omega
  have h := seek_to_idx_built es0 (es0.take j) (es0.get ⟨j, hj⟩) (es0.drop (j + 1))
    it hsplit hblock hk hv
  rw [hlen] at h
  exact h

theorem sorted_key_lt (es0 : List Entry) (hsort : List.Chain' keyLt es0) {i j : Nat}
    (hi : i < es0.length) (hj : j < es0.length) (hij : i < j) :
    (es0.get ⟨i, hi⟩).1 < (es0.get ⟨j, hj⟩).1 := by
  have hp := List.chain'_iff_pairwise.mp hsort
  rw [List.pairwise_iff_getElem] at hp
  exact hp i j hi hj hij

theorem sorted_key_le (es0 : List Entry) (hsort : List.Chain' keyLt es0) {i j : Nat}
    (hi : i < es0.length) (hj : j < es0.length) (hij : i ≤ j) :
    (es0.get ⟨i, hi⟩).1 ≤ (es0.get ⟨j, hj⟩).1 := by
  rcases Nat.eq_or_lt_of_le hij with rfl | h
  · exact le_refl _
  · exact le_of_lt (sorted_key_lt es0 hsort hi hj h)

/-- The terminal step of the binary-search loop. -/
theorem seekLoop_term (es0 : List Entry) (k : List Nat)
    (hlens : ∀ kv ∈ es0, kv.1.length < 65536 ∧ kv.2.length < 65536)
    (low high : Nat) (it : BlockIterator) (hblock : it.block = builtBlock es0)
    (hstop : ¬low < high) (hlen : low ≤ es0.length) :
    (∀ hj : low < es0.length,
      it.seekLoop k low high =
        BlockIterator.mk it.block (es0.get ⟨low, hj⟩).1 (es0.get ⟨low, hj⟩).2 low) ∧
    (es0.length ≤ low → (it.seekLoop k low high).is_valid = false) := by
  have hstep : it.seekLoop k low high = it.seek_to_idx low := by
    rw [BlockIterator.seekLoop]
    rw [dif_neg hstop]
  constructor
  · intro hj
    rw [hstep]
    have hmem : es0.get ⟨low, hj⟩ ∈ es0 := es0.get_mem _ _
    exact seek_to_idx_built_at es0 low hj it hblock (hlens _ hmem).1 (hlens _ hmem).2
  · intro hj
    rw [hstep, seek_to_idx_end es0 it low hblock hj]
    rfl

/-- Correctness of the binary-search loop of `BlockIterator::seek_to_key` on a
built block: starting from a bracket `[low, high)` whose outside is already
classified, the loop lands on the unique boundary index `j` — every entry
before `j` is `< k`, every entry from `j` on is `≥ k` — positioning the
iterator at entry `j`, or invalidating it when `j` is past the end. -/
theorem seekLoop_built (es0 : List Entry) (k : List Nat)
    (hkeys : ∀ kv ∈ es0, kv.1 ≠ [])
    (hlens : ∀ kv ∈ es0, kv.1.length < 65536 ∧ kv.2.length < 65536)
    (hsort : List.Chain' keyLt es0) :
    ∀ (d low high : Nat) (it : BlockIterator),
    high - low ≤ d → it.block = builtBlock es0 →
    high ≤ es0.length → low ≤ high →
    (∀ i (hi : i < es0.length), i < low → (es0.get ⟨i, hi⟩).1 < k) →
    (∀ i (hi : i < es0.length), high ≤ i → k < (es0.get ⟨i, hi⟩).1) →
    ∃ j, low ≤ j ∧ j ≤ es0.length ∧
      (∀ i (hi : i < es0.length), i < j → (es0.get ⟨i, hi⟩).1 < k) ∧
      (∀ i (hi : i < es0.length), j ≤ i → k ≤ (es0.get ⟨i, hi⟩).1) ∧
      (∀ hj : j < es0.length,
        it.seekLoop k low high =
          BlockIterator.mk it.block (es0.get ⟨j, hj⟩).1 (es0.get ⟨j, hj⟩).2 j) ∧
      (es0.length ≤ j → (it.seekLoop k low high).is_valid = false) := by
  intro d
  induction d with
  | zero =>
    intro low high it hd hblock hhigh hlh hlow hup
    obtain ⟨hA, hB⟩ := seekLoop_term es0 k hlens low high it hblock (by omega) (by omega)
    refine ⟨low, le_refl _, by omega, hlow, ?_, hA, hB⟩
    intro i hi hli
    exact le_of_lt (hup i hi (by omega))
  | succ d ih =>
    intro low high it hd hblock hhigh hlh hlow hup
    by_cases hlt : low < high
    case neg =>
      obtain ⟨hA, hB⟩ := seekLoop_term es0 k hlens low high it hblock hlt (by omega)
      refine ⟨low, le_refl _, by omega, hlow, ?_, hA, hB⟩
      intro i hi hli
      exact le_of_lt (hup i hi (by omega))
    case pos =>
      have hmlt : low + (high - low) / 2 < high := by omega
      have hmlen : low + (high - low) / 2 < es0.length := by omega
      have hmem : es0.get ⟨low + (high - low) / 2, hmlen⟩ ∈ es0 := es0.get_mem _ _
      have hseek := seek_to_idx_built_at es0 (low + (high - low) / 2) hmlen it hblock
        (hlens _ hmem).1 (hlens _ hmem).2
      have hkeyp : (it.seek_to_idx (low + (high - low) / 2)).key =
          (es0.get ⟨low + (high - low) / 2, hmlen⟩).1 := by
        rw [hseek]
      have hblock' : (it.seek_to_idx (low + (high - low) / 2)).block = builtBlock es0 := by
        rw [hseek]
        exact hblock
      have hshow : it.seekLoop k low high =
          (if k < (it.seek_to_idx (low + (high - low) / 2)).key then
            (it.seek_to_idx (low + (high - low) / 2)).seekLoop k low
              (low + (high - low) / 2)
          else if (it.seek_to_idx (low + (high - low) / 2)).key < k then
            (it.seek_to_idx (low + (high - low) / 2)).seekLoop k
              (low + (high - low) / 2 + 1) high
          else (it.seek_to_idx (low + (high - low) / 2))) := by
        rw [BlockIterator.seekLoop]
        rw [dif_pos hlt]
      rcases lt_trichotomy k (es0.get ⟨low + (high - low) / 2, hmlen⟩).1 with
        hcmp | hcmp | hcmp
      · have hstep : it.seekLoop k low high =
            (it.seek_to_idx (low + (high - low) / 2)).seekLoop k low
              (low + (high - low) / 2) := by
          rw [hshow, hkeyp, if_pos hcmp]
        have hup' : ∀ i (hi : i < es0.length), low + (high - low) / 2 ≤ i →
            k < (es0.get ⟨i, hi⟩).1 :=
          fun i hi hge => lt_of_lt_of_le hcmp (sorted_key_le es0 hsort hmlen hi hge)
        obtain ⟨j, hj1, hj2, hj3, hj4, hj5, hj6⟩ := ih low (low + (high - low) / 2)
          (it.seek_to_idx (low + (high - low) / 2)) (by omega) hblock' (by omega)
          (by omega) hlow hup'
        refine ⟨j, hj1, hj2, hj3, hj4, ?_, ?_⟩
        · intro hj
          rw [hstep, hj5 hj, hseek]
        · intro hj
          rw [hstep]
          exact hj6 hj
      · have hstep : it.seekLoop k low high =
            it.seek_to_idx (low + (high - low) / 2) := by
          rw [hshow, hkeyp, if_neg (by rw [← hcmp]; exact lt_irrefl k),
            if_neg (by rw [← hcmp]; exact lt_irrefl k)]
        refine ⟨low + (high - low) / 2, by omega, le_of_lt hmlen, ?_, ?_, ?_, ?_⟩
        · intro i hi hli
          rw [hcmp]
          exact sorted_key_lt es0 hsort hi hmlen hli
        · intro i hi hge
          rw [hcmp]
          exact sorted_key_le es0 hsort hmlen hi hge
        · intro hj
          rw [hstep]
          exact hseek
        · intro hj
          exact absurd hmlen (by omega)
      · have hstep : it.seekLoop k low high =
            (it.seek_to_idx (low + (high - low) / 2)).seekLoop k
              (low + (high - low) / 2 + 1) high := by
          rw [hshow, hkeyp, if_neg (not_lt.mpr (le_of_lt hcmp)), if_pos hcmp]
        have hlow' : ∀ i (hi : i < es0.length), i < low + (high - low) / 2 + 1 →
            (es0.get ⟨i, hi⟩).1 < k :=
          fun i hi hli => lt_of_le_of_lt (sorted_key_le es0 hsort hi hmlen (by omega)) hcmp
        obtain ⟨j, hj1, hj2, hj3, hj4, hj5, hj6⟩ := ih (low + (high - low) / 2 + 1) high
          (it.seek_to_idx (low + (high - low) / 2)) (by omega) hblock' (by omega)
          (by omega) hlow' hup
        refine ⟨j, by omega, hj2, hj3, hj4, ?_, ?_⟩
        · intro hj
          rw [hstep, hj5 hj, hseek]
        · intro hj
          rw [hstep]
          exact hj6 hj

/-- `BlockIterator::create_and_seek_to_key` on a built block lands on the
first entry with key `≥ k`, or becomes invalid when there is none. -/
theorem create_and_seek_to_key_built (es0 : List Entry) (k : List Nat)
    (hkeys : ∀ kv ∈ es0, kv.1 ≠ [])
    (hlens : ∀ kv ∈ es0, kv.1.length < 65536 ∧ kv.2.length < 65536)
    (hsort : List.Chain' keyLt es0) :
    ∃ j, j ≤ es0.length ∧
      (∀ i (hi : i < es0.length), i < j → (es0.get ⟨i, hi⟩).1 < k) ∧
      (∀ i (hi : i < es0.length), j ≤ i → k ≤ (es0.get ⟨i, hi⟩).1) ∧
      (∀ hj : j < es0.length,
        (BlockIterator.create_and_seek_to_key (builtBlock es0) k).key =
          (es0.get ⟨j, hj⟩).1 ∧
        (BlockIterator.create_and_seek_to_key (builtBlock es0) k).value =
          (es0.get ⟨j, hj⟩).2 ∧
        (BlockIterator.create_and_seek_to_key (builtBlock es0) k).is_valid = true) ∧
      (es0.length ≤ j →
        (BlockIterator.create_and_seek_to_key (builtBlock es0) k).is_valid = false) := by
  have hit : BlockIterator.create_and_seek_to_key (builtBlock es0) k =
      (BlockIterator.new (builtBlock es0)).seekLoop k 0 es0.length := by
    unfold BlockIterator.create_and_seek_to_key BlockIterator.seek_to_key
    have : (BlockIterator.new (builtBlock es0)).block.offsets.length = es0.length := by
      show (entryOffsets es0 0).length = es0.length
      exact entryOffsets_length _ _
    rw [this]
  obtain ⟨j, _, hj2, hj3, hj4, hj5, hj6⟩ := seekLoop_built es0 k hkeys hlens hsort
    es0.length 0 es0.length (BlockIterator.new (builtBlock es0)) (by omega) rfl
    (le_refl _) (by omega) (fun i hi hlt => absurd hlt (by omega))
    (fun i hi hge => absurd hi (by omega))
  refine ⟨j, hj2, hj3, hj4, ?_, ?_⟩
  · intro hj
    rw [hit, hj5 hj]
    refine ⟨rfl, rfl, ?_⟩
    show (!(es0.get ⟨j, hj⟩).1.isEmpty) = true
    rw [List.isEmpty_eq_false.mpr (hkeys _ (es0.get_mem _ _))]
    rfl
  · intro hj
    rw [hit]
    exact hj6 hj

/-! ### SsTable and SsTableBuilder (source `table.rs`, `table/builder.rs`) -/

/-- Source `BlockMeta`. -/
structure BlockMeta where
  offset : Nat
  first_key : List Nat
  deriving DecidableEq, Repr

/-- Big-endian four bytes written by `put_u32` (wider values are cast with
`as u32` first, which truncates). -/
def u32be (x : Nat) : List Nat :=
  [x % 4294967296 / 16777216, x % 16777216 / 65536, x % 65536 / 256, x % 256]

/-- Source `BlockMeta::encode_block_meta`: `offset(4B) ++ first_key_len(2B) ++
first_key` per meta. -/
def encode_block_meta (metas : List BlockMeta) : List Nat :=
  metas.flatMap fun m => u32be m.offset ++ u16be m.first_key.length ++ m.first_key

/-- Source `SsTable`, keeping the fields the reads depend on: the file bytes
(`FileObject`), the decoded metas, and the meta-region offset. -/
structure SsTable where
  fileData : List Nat
  block_metas : List BlockMeta
  block_meta_offset : Nat

/-- Source `SsTable::num_of_blocks`. -/
def SsTable.num_of_blocks (t : SsTable) : Nat := t.block_metas.length

/-- Source `SsTable::read_block`: slice the file between this meta's offset
and the next one (or the meta-region offset for the last block) and decode.
`none` models the index-out-of-bounds panic of `self.block_metas[block_idx]`;
`FileObject::read` slices the file, embedded as `drop`/`take` (they agree on
the in-range reads performed here). -/
def SsTable.read_block (t : SsTable) (block_idx : Nat) : Option Block :=
  if h : block_idx < t.block_metas.length then
    let start_offset := (t.block_metas.get ⟨block_idx, h⟩).offset
    let end_offset := if block_idx + 1 = t.block_metas.length then t.block_meta_offset
      else (t.block_metas.getD (block_idx + 1) ⟨0, []⟩).offset
    some (Block.decode ((t.fileData.drop start_offset).take (end_offset - start_offset)))
  else none

/-- Source `SsTable::find_block_idx`: `partition_point(|meta| meta.first_key
<= key)` is a binary search whose documented contract, on a slice partitioned
by the predicate (always the case for the key-ascending metas of a built SST),
is to return the length of the prefix satisfying it; it is embedded as that
length.  The result is then decremented unless it is zero. -/
def SsTable.find_block_idx (t : SsTable) (key : List Nat) : Nat :=
  let i := (t.block_metas.takeWhile (fun m => decide (m.first_key ≤ key))).length
  if i = 0 then i else i - 1

/-- Source `SsTableBuilder`. -/
structure SsTableBuilder where
  meta : List BlockMeta
  data : List Nat
  block_builder : BlockBuilder
  block_size : Nat

/-- Source `SsTableBuilder::new`. -/
def SsTableBuilder.new (block_size : Nat) : SsTableBuilder :=
  { meta := [], data := [], block_builder := BlockBuilder.new block_size,
    block_size := block_size }

/-- Source `SsTableBuilder::finish_block`: flush the current block's encoding
and start a fresh `BlockBuilder`. -/
def SsTableBuilder.finish_block (sb : SsTableBuilder) : SsTableBuilder :=
  { sb with data := sb.data ++ sb.block_builder.build.encode,
            block_builder := BlockBuilder.new sb.block_size }

/-- Source `SsTableBuilder::add`: push a meta when the current block is empty,
try the block-level `add`, and on a reject (`false`) finish the block and
re-add into the fresh builder.  The source recurses after `finish_block`; a
first `add` on a fresh builder never returns `false` (it rejects only
non-empty builders), so the recursion is unrolled once here, and the
unreachable second reject maps to `none` (in the source it would recurse
forever).  `none` also models the panics propagated from `BlockBuilder::add`. -/
def SsTableBuilder.add (sb : SsTableBuilder) (key value : List Nat) :
    Option SsTableBuilder :=
  let meta1 := if sb.block_builder.is_empty then
      sb.meta ++ [⟨sb.data.length, key⟩] else sb.meta
  match sb.block_builder.add key value with
  | none => none
  | some (bb, true) => some { sb with meta := meta1, block_builder := bb }
  | some (_, false) =>
    let data1 := sb.data ++ sb.block_builder.build.encode
    let meta2 := meta1 ++ [⟨data1.length, key⟩]
    match (BlockBuilder.new sb.block_size).add key value with
    | some (bb2, true) =>
      some { meta := meta2, data := data1, block_builder := bb2,
             block_size := sb.block_size }
    | _ => none

/-- Feed a whole sequence of entries to an `SsTableBuilder`. -/
def SsTableBuilder.addAll (sb : SsTableBuilder) : List Entry → Option SsTableBuilder
  | [] => some sb
  | (k, v) :: es =>
    match sb.add k v with
    | some sb' => sb'.addAll es
    | none => none

/-- Source `SsTableBuilder::build`: flush the last block, then lay out
`blocks ++ block metas ++ block_meta_offset(4B)`. -/
def SsTableBuilder.build (sb : SsTableBuilder) : SsTable :=
  let sb1 := sb.finish_block
  { fileData := sb1.data ++ encode_block_meta sb1.meta ++ u32be sb1.data.length,
    block_metas := sb1.meta,
    block_meta_offset := sb1.data.length }

/-- Source `SsTableIterator`. -/
structure SsTableIter where
  table : SsTable
  block_idx : Nat
  block_iter : BlockIterator

/-- Source `SsTableIterator::key`. -/
def SsTableIter.key (it : SsTableIter) : List Nat := it.block_iter.key

/-- Source `SsTableIterator::value`. -/
def SsTableIter.value (it : SsTableIter) : List Nat := it.block_iter.value

/-- Source `SsTableIterator::is_valid`. -/
def SsTableIter.is_valid (it : SsTableIter) : Bool := it.block_iter.is_valid

/-- Source `SsTableIterator::create_and_seek_to_key` /  `seek_to_key_inner`:
seek the block chosen by `find_block_idx`; when that leaves the block iterator
invalid and a next block exists, move to the next block's first entry.
`none` propagates the `read_block` panic on an out-of-range block index. -/
def SsTableIter.create_and_seek_to_key (t : SsTable) (key : List Nat) :
    Option SsTableIter :=
  match t.read_block (t.find_block_idx key) with
  | none => none
  | some blk =>
    let block_iter := BlockIterator.create_and_seek_to_key blk key
    if block_iter.is_valid = false ∧ t.find_block_idx key + 1 < t.num_of_blocks then
      match t.read_block (t.find_block_idx key + 1) with
      | none => none
      | some blk2 =>
        some { table := t, block_idx := t.find_block_idx key + 1,
               block_iter := BlockIterator.create_and_seek_to_first blk2 }
    else
      some { table := t, block_idx := t.find_block_idx key, block_iter := block_iter }

/-! ### How the SsTableBuilder groups entries into blocks -/

/-- Concatenated encodings of a list of built blocks. -/
def encodesData (gs : List (List Entry)) : List Nat :=
  (gs.map fun g => (builtBlock g).encode).flatten

/-- The metas the builder pushes: one per block, at the cumulative offset of
that block's encoding, carrying the block's first key. -/
def metasAux : List (List Entry) → Nat → List BlockMeta
  | [], _ => []
  | g :: gs, off =>
    ⟨off, (g.headD ([], [])).1⟩ :: metasAux gs (off + (builtBlock g).encode.length)

theorem encodesData_append (gs : List (List Entry)) (g : List Entry) :
    encodesData (gs ++ [g]) = encodesData gs ++ (builtBlock g).encode := by
  simp [encodesData]

theorem metasAux_length (gs : List (List Entry)) :
    ∀ off, (metasAux gs off).length = gs.length := by
  induction gs with
  | nil => intro off; rfl
  | cons g gs ih =>
    intro off
    simp [metasAux, ih]

theorem metasAux_append (gs : List (List Entry)) (g : List Entry) :
    ∀ off, metasAux (gs ++ [g]) off =
      metasAux gs off ++ [⟨off + (encodesData gs).length, (g.headD ([], [])).1⟩] := by
  induction gs with
  | nil =>
    intro off
    simp [metasAux, encodesData]
  | cons g0 gs ih =>
    intro off
    simp only [List.cons_append, metasAux]
    rw [List.append_eq, ih]
    have h : (encodesData (g0 :: gs)).length =
        (builtBlock g0).encode.length + (encodesData gs).length := by
      simp [encodesData]
    rw [h, Nat.add_assoc]

/-- `addAll` tracks the occupied size exactly: encoded entry bytes plus two
offset bytes per entry. -/
theorem addAll_occupy : ∀ (es : List Entry) (b0 b : BlockBuilder),
    b0.addAll es = some b →
    b.occupy_size = b0.occupy_size + (entriesData es).length + 2 * es.length := by
  intro es
  induction es with
  | nil =>
    intro b0 b h
    simp only [BlockBuilder.addAll] at h
    cases h
    simp [entriesData]
  | cons kv t ih =>
    intro b0 b h
    obtain ⟨k, v⟩ := kv
    simp only [BlockBuilder.addAll] at h
    revert h
    unfold BlockBuilder.add
    by_cases hk : k = []
    · simp [hk]
    · rw [if_neg hk]
      by_cases h2 : b0.block_size < 2
      · simp [h2]
      · rw [if_neg h2]
        by_cases hcond : b0.block_size - 2 < b0.occupy_size + (entry_size k v + 2) ∧
            b0.is_empty = false
        · rw [if_pos hcond]; intro h; exact absurd h (by simp)
        · rw [if_neg hcond]
          by_cases hov : 65536 ≤ b0.data.length
          · simp [hov]
          · rw [if_neg hov]
            intro h
            simp only at h
            have := ih _ _ h
            rw [this]
            simp only [entriesData_cons, List.length_append, List.length_cons,
              entry_encode_length]
            omega

/-- From a fresh builder, the admitted sequence is empty iff the builder still
reports empty. -/
theorem addAll_is_empty (S : Nat) (es : List Entry) (b : BlockBuilder)
    (h : (BlockBuilder.new S).addAll es = some b) :
    b.is_empty = es.isEmpty := by
  obtain ⟨hd, ho, _, _, _⟩ := addAll_layout es _ b h
  show b.offsets.isEmpty = es.isEmpty
  rw [ho]
  show (entryOffsets es ((BlockBuilder.new S).data.length)).isEmpty = es.isEmpty
  cases es with
  | nil => rfl
  | cons kv t => rfl

theorem addAll_snoc : ∀ (es : List Entry) (b0 b1 b2 : BlockBuilder) (k v : List Nat),
    b0.addAll es = some b1 → b1.add k v = some (b2, true) →
    b0.addAll (es ++ [(k, v)]) = some b2 := by
  intro es
  induction es with
  | nil =>
    intro b0 b1 b2 k v h1 h2
    simp only [BlockBuilder.addAll] at h1
    cases h1
    simp [BlockBuilder.addAll, h2]
  | cons kv t ih =>
    intro b0 b1 b2 k v h1 h2
    obtain ⟨k', v'⟩ := kv
    simp only [BlockBuilder.addAll] at h1 ⊢
    revert h1
    cases hadd : b0.add k' v' with
    | none => intro h1; exact absurd h1 (by simp)
    | some r =>
      obtain ⟨b', fl⟩ := r
      cases fl with
      | false => intro h1; exact absurd h1 (by simp)
      | true =>
        intro h1
        exact ih b' b1 b2 k v h1 h2

theorem build_of_builder (bb : BlockBuilder) (cur : List Entry)
    (hd : bb.data = entriesData cur) (ho : bb.offsets = entryOffsets cur 0) :
    bb.build = builtBlock cur := by
  unfold BlockBuilder.build builtBlock
  rw [hd, ho]

theorem headD_append_ne {α} (c : α) (t l : List α) (d : α) :
    ((c :: t) ++ l).headD d = (c :: t).headD d := rfl

/-- The builder invariant: `gs` are the flushed blocks, `cur` the entries of
the block being built. -/
structure GInv (S : Nat) (sb : SsTableBuilder) (gs : List (List Entry))
    (cur : List Entry) : Prop where
  hsize : sb.block_size = S
  hdata : sb.data = encodesData gs
  hmeta : sb.meta = metasAux (gs ++ if cur.isEmpty then [] else [cur]) 0
  hbb : (BlockBuilder.new S).addAll cur = some sb.block_builder
  hgs : ∀ g ∈ gs, g ≠ [] ∧ ∃ bb, (BlockBuilder.new S).addAll g = some bb

theorem sst_add_accept (sb : SsTableBuilder) (k v : List Nat) (bb' : BlockBuilder)
    (hadd : sb.block_builder.add k v = some (bb', true)) :
    sb.add k v = some { sb with
      meta := if sb.block_builder.is_empty then sb.meta ++ [⟨sb.data.length, k⟩]
        else sb.meta,
      block_builder := bb' } := by
  unfold SsTableBuilder.add
  rw [hadd]

theorem sst_add_reject (sb : SsTableBuilder) (k v : List Nat) (bb2 : BlockBuilder)
    (hadd : sb.block_builder.add k v = some (sb.block_builder, false))
    (hemp : sb.block_builder.is_empty = false)
    (hadd2 : (BlockBuilder.new sb.block_size).add k v = some (bb2, true)) :
    sb.add k v = some
      { meta := sb.meta ++ [⟨(sb.data ++ sb.block_builder.build.encode).length, k⟩],
        data := sb.data ++ sb.block_builder.build.encode,
        block_builder := bb2, block_size := sb.block_size } := by
  unfold SsTableBuilder.add
  rw [hadd, hemp, hadd2]
  rfl

/-- One `SsTableBuilder::add` preserves the grouping invariant: the entry
either joins the current block or closes it and opens a new one. -/
theorem sst_add_step (S : Nat) (hS2 : 2 ≤ S) (hS : S < 65536)
    (sb : SsTableBuilder) (gs : List (List Entry)) (cur : List Entry)
    (hinv : GInv S sb gs cur) (k v : List Nat) (hk : k ≠ []) :
    ∃ sb', sb.add k v = some sb' ∧
      (GInv S sb' gs (cur ++ [(k, v)]) ∨
       (cur ≠ [] ∧ GInv S sb' (gs ++ [cur]) [(k, v)])) := by
  obtain ⟨hbd, hbo, hbs, _, _⟩ := addAll_layout cur _ _ hinv.hbb
  have hbd' : sb.block_builder.data = entriesData cur := by
    rw [hbd]
    rfl
  have hbo' : sb.block_builder.offsets = entryOffsets cur 0 := by
    rw [hbo]
    rfl
  have hbs' : sb.block_builder.block_size = S := by
    rw [hbs]
    rfl
  have hocc' : sb.block_builder.occupy_size = (entriesData cur).length + 2 * cur.length := by
    rw [addAll_occupy cur _ _ hinv.hbb]
    show 0 + _ + _ = _
    omega
  have hdlen : sb.block_builder.data.length = (entriesData cur).length := by
    rw [hbd']
  have hje : sb.block_builder.is_empty = cur.isEmpty := addAll_is_empty S cur _ hinv.hbb
  by_cases hg : sb.block_builder.block_size - 2 <
      sb.block_builder.occupy_size + (entry_size k v + 2) ∧
      sb.block_builder.is_empty = false
  case pos =>
    have hcur : cur ≠ [] := by
      intro hc
      rw [hje, hc] at hg
      exact absurd hg.2 (by simp)
    have hadd : sb.block_builder.add k v = some (sb.block_builder, false) := by
      unfold BlockBuilder.add
      rw [if_neg hk, if_neg (by rw [hbs']; omega), if_pos hg]
    have hadd2 := add_first (BlockBuilder.new sb.block_size) k v hk
      (show 2 ≤ sb.block_size by rw [hinv.hsize]; exact hS2) rfl
      (show (0 : Nat) < 65536 by omega)
    have hstep := sst_add_reject sb k v _ hadd hg.2 hadd2
    refine ⟨_, hstep, Or.inr ⟨hcur, ?_⟩⟩
    have hbuild : sb.block_builder.build = builtBlock cur := build_of_builder _ _ hbd' hbo'
    have hdata1 : sb.data ++ sb.block_builder.build.encode = encodesData (gs ++ [cur]) := by
      rw [hinv.hdata, hbuild, encodesData_append]
    refine { hsize := hinv.hsize, hdata := hdata1, hmeta := ?_, hbb := ?_, hgs := ?_ }
    · show sb.meta ++ [⟨(sb.data ++ sb.block_builder.build.encode).length, k⟩] =
        metasAux ((gs ++ [cur]) ++ if ([(k, v)] : List Entry).isEmpty then []
          else [[(k, v)]]) 0
      have hmeta0 : sb.meta = metasAux (gs ++ [cur]) 0 := by
        rw [hinv.hmeta]
        have hce : cur.isEmpty = false := by
          cases cur with
          | nil => exact absurd rfl hcur
          | cons c t => rfl
        rw [hce]
        rfl
      rw [hmeta0]
      show _ = metasAux ((gs ++ [cur]) ++ [[(k, v)]]) 0
      conv_rhs => rw [metasAux_append]
      rw [hdata1]
      rw [Nat.zero_add]
      rfl
    · show (BlockBuilder.new S).addAll [(k, v)] = some _
      rw [← hinv.hsize]
      exact addAll_singleton _ _ k v hadd2
    · intro g hg'
      rcases List.mem_append.mp hg' with h1 | h1
      · exact hinv.hgs g h1
      · rcases List.mem_cons.mp h1 with rfl | h2
        · exact ⟨hcur, ⟨sb.block_builder, hinv.hbb⟩⟩
        · cases h2
  case neg =>
    have hov : sb.block_builder.data.length < 65536 := by
      by_cases hemp : sb.block_builder.is_empty = true
      · have hcur : cur = [] := by
          rw [hemp] at hje
          exact List.isEmpty_iff.mp hje.symm
        rw [hbd', hcur]
        decide
      · have hempF : sb.block_builder.is_empty = false := by
          rcases Bool.eq_false_or_eq_true sb.block_builder.is_empty with h' | h'
          · exact absurd h' hemp
          · exact h'
        have hle : ¬(sb.block_builder.block_size - 2 <
            sb.block_builder.occupy_size + (entry_size k v + 2)) := by
          intro hc
          exact hg ⟨hc, hempF⟩
        rw [hbs'] at hle
        omega
    have hadd : sb.block_builder.add k v = some ({ sb.block_builder with
        data := sb.block_builder.data ++ entry_encode k v,
        offsets := sb.block_builder.offsets ++ [sb.block_builder.data.length],
        occupy_size := sb.block_builder.occupy_size + (entry_size k v + 2) }, true) := by
      unfold BlockBuilder.add
      rw [if_neg hk, if_neg (by rw [hbs']; omega), if_neg hg, if_neg (by omega)]
    have hstep := sst_add_accept sb k v _ hadd
    refine ⟨_, hstep, Or.inl ?_⟩
    refine { hsize := hinv.hsize, hdata := hinv.hdata, hmeta := ?_, hbb := ?_, hgs := hinv.hgs }
    · show (if sb.block_builder.is_empty then sb.meta ++ [⟨sb.data.length, k⟩]
          else sb.meta) =
        metasAux (gs ++ if (cur ++ [(k, v)]).isEmpty then [] else [cur ++ [(k, v)]]) 0
      have hne : (cur ++ [(k, v)]).isEmpty = false := by
        cases cur with
        | nil => rfl
        | cons c t => rfl
      rw [hne]
      cases hcur : cur with
      | nil =>
        have hempT : sb.block_builder.is_empty = true := by
          rw [hje, hcur]
          rfl
        rw [hempT]
        show sb.meta ++ [⟨sb.data.length, k⟩] = metasAux (gs ++ [[(k, v)]]) 0
        have hmeta0 : sb.meta = metasAux gs 0 := by
          rw [hinv.hmeta, hcur]
          show metasAux (gs ++ []) 0 = _
          rw [List.append_nil]
        rw [hmeta0, metasAux_append, hinv.hdata, Nat.zero_add]
        rfl
      | cons c t =>
        have hempF : sb.block_builder.is_empty = false := by
          rw [hje, hcur]
          rfl
        rw [hempF]
        show sb.meta = metasAux (gs ++ [(c :: t) ++ [(k, v)]]) 0
        have hmeta0 : sb.meta = metasAux (gs ++ [c :: t]) 0 := by
          rw [hinv.hmeta, hcur]
          rfl
        rw [hmeta0, metasAux_append, metasAux_append]
        rw [headD_append_ne]
    · show (BlockBuilder.new S).addAll (cur ++ [(k, v)]) = some _
      exact addAll_snoc cur _ _ _ k v hinv.hbb hadd

/-- Feeding any sequence of non-empty-keyed entries preserves the grouping
invariant and partitions the entries. -/
theorem sst_addAll_groups (S : Nat) (hS2 : 2 ≤ S) (hS : S < 65536) :
    ∀ (es : List Entry) (sb : SsTableBuilder) (gs : List (List Entry)) (cur : List Entry),
    GInv S sb gs cur → (∀ e ∈ es, e.1 ≠ []) →
    ∃ sb' gs' cur', sb.addAll es = some sb' ∧ GInv S sb' gs' cur' ∧
      gs'.flatten ++ cur' = gs.flatten ++ cur ++ es ∧
      (cur' = [] → es = [] ∧ cur = []) := by
  intro es
  induction es with
  | nil =>
    intro sb gs cur hinv _
    exact ⟨sb, gs, cur, rfl, hinv, by simp, fun h => ⟨rfl, h⟩⟩
  | cons e es ih =>
    intro sb gs cur hinv hkeys
    obtain ⟨k, v⟩ := e
    obtain ⟨sb1, hadd, hcases⟩ := sst_add_step S hS2 hS sb gs cur hinv k v
      (hkeys (k, v) (by simp))
    have hkeys' : ∀ e ∈ es, e.1 ≠ [] := fun e he => hkeys e (List.mem_cons_of_mem _ he)
    rcases hcases with hinv1 | ⟨hcur, hinv1⟩
    · obtain ⟨sb', gs', cur', hrun, hinv', hflat, hemp⟩ :=
        ih sb1 gs (cur ++ [(k, v)]) hinv1 hkeys'
      refine ⟨sb', gs', cur', ?_, hinv', ?_, ?_⟩
      · show sb.addAll ((k, v) :: es) = some sb'
        simp only [SsTableBuilder.addAll]
        rw [hadd]
        exact hrun
      · rw [hflat]
        simp
      · intro h
        exact absurd (hemp h).2 (by simp)
    · obtain ⟨sb', gs', cur', hrun, hinv', hflat, hemp⟩ :=
        ih sb1 (gs ++ [cur]) [(k, v)] hinv1 hkeys'
      refine ⟨sb', gs', cur', ?_, hinv', ?_, ?_⟩
      · show sb.addAll ((k, v) :: es) = some sb'
        simp only [SsTableBuilder.addAll]
        rw [hadd]
        exact hrun
      · rw [hflat]
        simp
      · intro h
        exact absurd (hemp h).2 (by simp)

/-- Building an SST from at least one entry: the builder succeeds and the
resulting table is exactly the concatenated encoded blocks of a non-empty
partition of the input, with one meta per block. -/
theorem build_groups (S : Nat) (hS2 : 2 ≤ S) (hS : S < 65536) (es : List Entry)
    (hkeys : ∀ e ∈ es, e.1 ≠ []) (hne : es ≠ []) :
    ∃ sb G, (SsTableBuilder.new S).addAll es = some sb ∧
      G.flatten = es ∧ G ≠ [] ∧ (∀ g ∈ G, g ≠ []) ∧
      (∀ g ∈ G, ∃ bb, (BlockBuilder.new S).addAll g = some bb) ∧
      sb.build = SsTable.mk
        (encodesData G ++ encode_block_meta (metasAux G 0) ++ u32be (encodesData G).length)
        (metasAux G 0) (encodesData G).length := by
  have hinv0 : GInv S (SsTableBuilder.new S) [] [] :=
    { hsize := rfl, hdata := rfl, hmeta := rfl, hbb := rfl,
      hgs := fun g hg => absurd hg (List.not_mem_nil g) }
  obtain ⟨sb, gs, cur, hrun, hinv, hflat, hemp⟩ :=
    sst_addAll_groups S hS2 hS es _ [] [] hinv0 hkeys
  have hcur : cur ≠ [] := fun h => hne (hemp h).1
  have hflat' : gs.flatten ++ cur = es := by
    rw [hflat]
    simp
  obtain ⟨hbd, hbo, _, _, _⟩ := addAll_layout cur _ _ hinv.hbb
  have hbuild : sb.block_builder.build = builtBlock cur :=
    build_of_builder _ _ (by rw [hbd]; rfl) (by rw [hbo]; rfl)
  have hdata1 : sb.data ++ sb.block_builder.build.encode = encodesData (gs ++ [cur]) := by
    rw [hinv.hdata, hbuild, encodesData_append]
  have hmeta1 : sb.meta = metasAux (gs ++ [cur]) 0 := by
    rw [hinv.hmeta]
    have hce : cur.isEmpty = false := by
      cases cur with
      | nil => exact absurd rfl hcur
      | cons c t => rfl
    rw [hce]
    rfl
  refine ⟨sb, gs ++ [cur], hrun, ?_, by simp, ?_, ?_, ?_⟩
  · rw [← hflat']
    simp
  · intro g hg
    rcases List.mem_append.mp hg with h1 | h1
    · exact (hinv.hgs g h1).1
    · rcases List.mem_cons.mp h1 with rfl | h2
      · exact hcur
      · cases h2
  · intro g hg
    rcases List.mem_append.mp hg with h1 | h1
    · exact (hinv.hgs g h1).2
    · rcases List.mem_cons.mp h1 with rfl | h2
      · exact ⟨sb.block_builder, hinv.hbb⟩
      · cases h2
  · show SsTable.mk (sb.finish_block.data ++ encode_block_meta sb.finish_block.meta ++
        u32be sb.finish_block.data.length) sb.finish_block.meta
        sb.finish_block.data.length = _
    have hfd : sb.finish_block.data = encodesData (gs ++ [cur]) := by
      show sb.data ++ sb.block_builder.build.encode = _
      exact hdata1
    have hfm : sb.finish_block.meta = metasAux (gs ++ [cur]) 0 := hmeta1
    rw [hfd, hfm]

/-! ### Reading blocks back from a built SsTable -/

theorem encodesData_append2 (xs ys : List (List Entry)) :
    encodesData (xs ++ ys) = encodesData xs ++ encodesData ys := by
  simp [encodesData]

theorem encodesData_cons (g : List Entry) (gs : List (List Entry)) :
    encodesData (g :: gs) = (builtBlock g).encode ++ encodesData gs := by
  simp [encodesData]

theorem list_split_getD {α} (l : List α) (i : Nat) (hi : i < l.length) (d : α) :
    l = l.take i ++ l.getD i d :: l.drop (i + 1) := by
  rw [List.getD_eq_getElem l d hi]
  conv_lhs => rw [← List.take_append_drop i l]
  rw [List.drop_eq_getElem_cons hi]

theorem length_take_of_lt {α} (l : List α) (i : Nat) (hi : i ≤ l.length) :
    (l.take i).length = i := by
  simp [List.length_take]
  omega

/-- Slicing the concatenated block region at block `i`'s offset recovers block
`i`'s encoding. -/
theorem encodesData_slice (G : List (List Entry)) (i : Nat) (hi : i < G.length)
    (suffix : List Nat) :
    ((encodesData G ++ suffix).drop (encodesData (G.take i)).length).take
        (builtBlock (G.getD i [])).encode.length =
      (builtBlock (G.getD i [])).encode := by
  have hdec : encodesData G = encodesData (G.take i) ++
      ((builtBlock (G.getD i [])).encode ++ encodesData (G.drop (i + 1))) := by
    conv_lhs => rw [list_split_getD G i hi []]
    rw [encodesData_append2, encodesData_cons]
  rw [hdec, List.append_assoc, List.drop_left, List.append_assoc, List.take_left]

theorem take_succ_getD {α} (l : List α) (i : Nat) (hi : i < l.length) (d : α) :
    l.take (i + 1) = l.take i ++ [l.getD i d] := by
  rw [List.take_succ, List.getElem?_eq_getElem hi, List.getD_eq_getElem l d hi]
  rfl

/-- Lengths of the encoded-block prefixes. -/
theorem encodesData_take_succ (G : List (List Entry)) (i : Nat) (hi : i < G.length) :
    (encodesData (G.take (i + 1))).length =
      (encodesData (G.take i)).length + (builtBlock (G.getD i [])).encode.length := by
  rw [take_succ_getD G i hi [], encodesData_append]
  simp

theorem metasAux_getD (gs : List (List Entry)) :
    ∀ (i off : Nat), i < gs.length →
    (metasAux gs off).getD i ⟨0, []⟩ =
      ⟨off + (encodesData (gs.take i)).length, ((gs.getD i []).headD ([], [])).1⟩ := by
  induction gs with
  | nil =>
    intro i off hi
    exact absurd hi (by simp)
  | cons g gs ih =>
    intro i off hi
    cases i with
    | zero =>
      show (⟨off, (g.headD ([], [])).1⟩ : BlockMeta) = _
      have h0 : (encodesData (List.take 0 (g :: gs))).length = 0 := rfl
      rw [h0]
      rfl
    | succ i =>
      show (metasAux gs (off + (builtBlock g).encode.length)).getD i ⟨0, []⟩ = _
      rw [ih i (off + (builtBlock g).encode.length) (by simpa using hi)]
      have h1 : (encodesData (List.take (i + 1) (g :: gs))).length =
          (builtBlock g).encode.length + (encodesData (gs.take i)).length := by
        show (encodesData (g :: gs.take i)).length = _
        rw [encodesData_cons]
        simp
      rw [h1, ← Nat.add_assoc]
      rfl

/-- Bounds needed to decode a block built from one admitted group. -/
theorem group_bounds (S : Nat) (g : List Entry) (hg : g ≠ [])
    (hbb : ∃ bb, (BlockBuilder.new S).addAll g = some bb) :
    (∀ o ∈ entryOffsets g 0, o < 65536) ∧ (entryOffsets g 0).length < 65536 := by
  obtain ⟨bb, hbb⟩ := hbb
  obtain ⟨_, _, _, hkeys, hoff⟩ := addAll_layout g _ _ hbb
  have hoff' : ∀ o ∈ entryOffsets g 0, o < 65536 := by
    intro o ho
    exact hoff o (by simpa using ho)
  refine ⟨hoff', ?_⟩
  have hcnt := entryOffsets_count_bound g 0 hkeys hoff' hg
  rw [entryOffsets_length]
  omega

/-- `read_block` on a table laid out from groups returns block `i` exactly. -/
theorem read_block_built (G : List (List Entry)) (rest : List Nat) (i : Nat)
    (hi : i < G.length) (hgne : ∀ g ∈ G, g ≠ [])
    (hoffb : ∀ o ∈ entryOffsets (G.getD i []) 0, o < 65536)
    (hcntb : (entryOffsets (G.getD i []) 0).length < 65536) :
    (SsTable.mk (encodesData G ++ rest) (metasAux G 0)
        (encodesData G).length).read_block i = some (builtBlock (G.getD i [])) := by
  have hmlen : (metasAux G 0).length = G.length := metasAux_length G 0
  unfold SsTable.read_block
  rw [dif_pos (by rw [hmlen]; exact hi)]
  have hstart : ((metasAux G 0).get ⟨i, by rw [hmlen]; exact hi⟩).offset =
      (encodesData (G.take i)).length := by
    have h1 : (metasAux G 0).get ⟨i, by rw [hmlen]; exact hi⟩ =
        (metasAux G 0).getD i ⟨0, []⟩ := by
      rw [List.getD_eq_getElem _ _ (by rw [hmlen]; exact hi)]
      rfl
    rw [h1, metasAux_getD G i 0 hi]
    exact Nat.zero_add _
  have hendo : (if i + 1 = (metasAux G 0).length then (encodesData G).length
      else ((metasAux G 0).getD (i + 1) ⟨0, []⟩).offset) =
      (encodesData (G.take i)).length + (builtBlock (G.getD i [])).encode.length := by
    by_cases hlast : i + 1 = (metasAux G 0).length
    · rw [if_pos hlast]
      rw [hmlen] at hlast
      have hG : G = G.take i ++ [G.getD i []] := by
        conv_lhs => rw [list_split_getD G i hi []]
        have hdrop : G.drop (i + 1) = [] := by
          apply List.drop_eq_nil_of_le
          omega
        rw [hdrop]
      conv_lhs => rw [hG]
      rw [encodesData_append]
      simp
    · rw [if_neg hlast]
      rw [hmlen] at hlast
      have hi1 : i + 1 < G.length := by omega
      rw [metasAux_getD G (i + 1) 0 hi1]
      show 0 + (encodesData (G.take (i + 1))).length = _
      rw [Nat.zero_add, encodesData_take_succ G i hi]
  rw [hstart, hendo]
  dsimp only
  have hsub : (encodesData (G.take i)).length + (builtBlock (G.getD i [])).encode.length -
      (encodesData (G.take i)).length = (builtBlock (G.getD i [])).encode.length := by
    omega
  rw [hsub, encodesData_slice G i hi rest]
  rw [Block.decode_encode (builtBlock (G.getD i [])) hoffb
    (by rw [show (builtBlock (G.getD i [])).offsets = entryOffsets (G.getD i []) 0 from rfl]
        exact hcntb)]

/-- Characterization of the length of a `takeWhile` prefix. -/
theorem takeWhile_length_char {α} (p : α → Bool) (d : α) : ∀ (l : List α),
    (∀ j, j < (l.takeWhile p).length → p (l.getD j d) = true) ∧
    ((l.takeWhile p).length < l.length → p (l.getD (l.takeWhile p).length d) = false) ∧
    (l.takeWhile p).length ≤ l.length := by
  intro l
  induction l with
  | nil => exact ⟨fun j hj => absurd hj (by simp), fun h => absurd h (by simp), by simp⟩
  | cons a t ih =>
    cases hpa : p a with
    | true =>
      have htw : (a :: t).takeWhile p = a :: t.takeWhile p := by
        rw [List.takeWhile_cons_of_pos hpa]
      rw [htw]
      refine ⟨?_, ?_, ?_⟩
      · intro j hj
        cases j with
        | zero => exact hpa
        | succ j =>
          show p (t.getD j d) = true
          exact ih.1 j (by simpa using hj)
      · intro h
        show p (t.getD (t.takeWhile p).length d) = false
        exact ih.2.1 (by simpa using h)
      · simp only [List.length_cons]
        have := ih.2.2
        omega
    | false =>
      have htw : (a :: t).takeWhile p = [] := by
        rw [List.takeWhile_cons_of_neg (by rw [hpa]; exact fun hc => nomatch hc)]
      rw [htw]
      refine ⟨fun j hj => absurd hj (by simp), fun _ => hpa, by simp⟩

theorem find?_append_of_fail {α} (p : α → Bool) : ∀ (xs ys : List α),
    (∀ x ∈ xs, p x = false) → (xs ++ ys).find? p = ys.find? p := by
  intro xs ys
  induction xs with
  | nil => intro _; rfl
  | cons a t ih =>
    intro hfail
    show List.find? p (a :: (t ++ ys)) = _
    rw [List.find?_cons_of_neg _ (by rw [hfail a (by simp)]; exact fun hc => nomatch hc)]
    exact ih (fun x hx => hfail x (List.mem_cons_of_mem _ hx))

theorem headD_mem {α} (l : List α) (hl : l ≠ []) (d : α) : l.headD d ∈ l := by
  cases l with
  | nil => exact absurd rfl hl
  | cons a t => exact List.mem_cons_self _ _

theorem headD_eq_get {α} (l : List α) (hl : l ≠ []) (d : α) :
    l.headD d = l.get ⟨0, by cases l with | nil => exact absurd rfl hl | cons a t => simp⟩ := by
  cases l with
  | nil => exact absurd rfl hl
  | cons a t => rfl

theorem flatten_split3 (G : List (List Entry)) (b : Nat) (hb : b < G.length) :
    G.flatten = (G.take b).flatten ++ (G.getD b [] ++ (G.drop (b + 1)).flatten) := by
  conv_lhs => rw [list_split_getD G b hb []]
  simp

theorem chain_append_left {X Y : List Entry} (h : List.Chain' keyLt (X ++ Y)) :
    List.Chain' keyLt X := by
  have hp := List.chain'_iff_pairwise.mp h
  exact List.chain'_iff_pairwise.mpr (List.pairwise_append.mp hp).1

theorem chain_append_right {X Y : List Entry} (h : List.Chain' keyLt (X ++ Y)) :
    List.Chain' keyLt Y := by
  have hp := List.chain'_iff_pairwise.mp h
  exact List.chain'_iff_pairwise.mpr (List.pairwise_append.mp hp).2.1

theorem chain_append_cross {X Y : List Entry} (h : List.Chain' keyLt (X ++ Y)) :
    ∀ x ∈ X, ∀ y ∈ Y, x.1 < y.1 := by
  have hp := List.chain'_iff_pairwise.mp h
  exact (List.pairwise_append.mp hp).2.2

/-- Every entry of a group is a flattened entry. -/
theorem mem_flatten_of_mem {g : List Entry} {G : List (List Entry)} {e : Entry}
    (hg : g ∈ G) (he : e ∈ g) : e ∈ G.flatten :=
  List.mem_flatten.mpr ⟨g, hg, he⟩

theorem list_split_get {α} (l : List α) (i : Nat) (hi : i < l.length) :
    l = l.take i ++ l.get ⟨i, hi⟩ :: l.drop (i + 1) := by
  conv_lhs => rw [← List.take_append_drop i l]
  rw [List.drop_eq_getElem_cons hi]
  rfl

/-- Table-level seek on a grouped SST: `create_and_seek_to_key` lands on the
first entry of the whole table with key `≥ k`, or is invalid when no such
entry exists. -/
theorem table_seek (G : List (List Entry)) (rest : List Nat)
    (hGne : G ≠ []) (hgne : ∀ g ∈ G, g ≠ [])
    (hbnd : ∀ g ∈ G,
      (∀ o ∈ entryOffsets g 0, o < 65536) ∧ (entryOffsets g 0).length < 65536)
    (hkeys : ∀ e ∈ G.flatten, e.1 ≠ [])
    (hlens : ∀ e ∈ G.flatten, e.1.length < 65536 ∧ e.2.length < 65536)
    (hsort : List.Chain' keyLt G.flatten) (k : List Nat) (t : SsTable)
    (htf : t.fileData = encodesData G ++ rest)
    (htm : t.block_metas = metasAux G 0)
    (hto : t.block_meta_offset = (encodesData G).length) :
    ∃ it, SsTableIter.create_and_seek_to_key t k = some it ∧
      (match G.flatten.find? (fun e => decide (k ≤ e.1)) with
       | some e => it.is_valid = true ∧ it.key = e.1 ∧ it.value = e.2
       | none => it.is_valid = false) := by
  obtain ⟨fd, bm, bo⟩ := t
  simp only at htf htm hto
  subst htf
  subst htm
  subst hto
  have hmlen : (metasAux G 0).length = G.length := metasAux_length G 0
  have hGlen : 0 < G.length := by
    cases G with
    | nil => exact absurd rfl hGne
    | cons g gs => simp
  obtain ⟨htw1, htw2, htw3⟩ := takeWhile_length_char
    (fun m : BlockMeta => decide (m.first_key ≤ k)) ⟨0, []⟩ (metasAux G 0)
  have hblockfacts : ∀ b, b < G.length →
      List.Chain' keyLt (G.getD b []) ∧ (∀ e ∈ G.getD b [], e.1 ≠ []) ∧
      (∀ e ∈ G.getD b [], e.1.length < 65536 ∧ e.2.length < 65536) ∧
      G.getD b [] ∈ G := by
    intro b hb
    have hmem : G.getD b [] ∈ G := by
      rw [List.getD_eq_getElem G [] hb]
      exact List.getElem_mem hb
    have hs2 := hsort
    rw [flatten_split3 G b hb] at hs2
    exact ⟨chain_append_left (chain_append_right hs2),
      fun e he => hkeys e (mem_flatten_of_mem hmem he),
      fun e he => hlens e (mem_flatten_of_mem hmem he), hmem⟩
  have hread : ∀ b, b < G.length →
      (SsTable.mk (encodesData G ++ rest) (metasAux G 0)
        (encodesData G).length).read_block b = some (builtBlock (G.getD b [])) := by
    intro b hb
    have hmem := (hblockfacts b hb).2.2.2
    exact read_block_built G rest b hb hgne (hbnd _ hmem).1 (hbnd _ hmem).2
  have hprecross : ∀ b, b < G.length →
      ∀ e ∈ (G.take b).flatten, e.1 < ((G.getD b []).headD ([], [])).1 := by
    intro b hb e he
    have hs2 := hsort
    rw [flatten_split3 G b hb] at hs2
    exact chain_append_cross hs2 e he _ (List.mem_append_left _
      (headD_mem _ (hgne _ (hblockfacts b hb).2.2.2) _))
  have hfindsplit : ∀ b, b < G.length → (∀ e ∈ (G.take b).flatten, ¬k ≤ e.1) →
      G.flatten.find? (fun e => decide (k ≤ e.1)) =
      (G.getD b [] ++ (G.drop (b + 1)).flatten).find? (fun e => decide (k ≤ e.1)) := by
    intro b hb hfail
    conv_lhs => rw [flatten_split3 G b hb]
    exact find?_append_of_fail _ _ _ (fun x hx => decide_eq_false (hfail x hx))
  -- the probed block index
  by_cases hI0 : ((metasAux G 0).takeWhile
      (fun m : BlockMeta => decide (m.first_key ≤ k))).length = 0
  case pos =>
    -- first block; its first key is already > k, so the in-block seek hits
    -- index 0
    have hB : (SsTable.mk (encodesData G ++ rest) (metasAux G 0)
        (encodesData G).length).find_block_idx k = 0 := by
      show (if ((metasAux G 0).takeWhile
          (fun m : BlockMeta => decide (m.first_key ≤ k))).length = 0 then _ else _) = 0
      rw [if_pos hI0, hI0]
    have hb : 0 < G.length := hGlen
    obtain ⟨hchain, hgkeys, hglens, _⟩ := hblockfacts 0 hb
    have h0len : 0 < (G.getD 0 []).length := by
      cases hg : G.getD 0 [] with
      | nil => exact absurd hg (hgne _ (hblockfacts 0 hb).2.2.2)
      | cons c t' => simp
    have hkgt : k < ((G.getD 0 []).headD ([], [])).1 := by
      have h2 := htw2 (by rw [hI0, hmlen]; exact hGlen)
      rw [hI0, metasAux_getD G 0 0 hGlen] at h2
      exact not_le.mp (of_decide_eq_false h2)
    obtain ⟨j, hj2, hj3, hj4, hj5, hj6⟩ :=
      create_and_seek_to_key_built (G.getD 0 []) k hgkeys hglens hchain
    have hj0 : j = 0 := by
      by_contra hne
      have h1 : (0 : Nat) < j := by omega
      have := hj3 0 h0len h1
      rw [headD_eq_get _ (hgne _ (hblockfacts 0 hb).2.2.2) _] at hkgt
      exact absurd (lt_trans hkgt this) (lt_irrefl _)
    subst hj0
    obtain ⟨hkey, hval, hvalid⟩ := hj5 h0len
    refine ⟨⟨SsTable.mk (encodesData G ++ rest) (metasAux G 0) (encodesData G).length, 0,
      BlockIterator.create_and_seek_to_key (builtBlock (G.getD 0 [])) k⟩, ?_, ?_⟩
    · unfold SsTableIter.create_and_seek_to_key
      rw [hB, hread 0 hb]
      dsimp only
      rw [if_neg (by rw [hvalid]; simp)]
    · have hfq : G.flatten.find? (fun e => decide (k ≤ e.1)) =
          some ((G.getD 0 []).get ⟨0, h0len⟩) := by
        rw [hfindsplit 0 hb (by intro e he; cases he)]
        conv_lhs => rw [list_split_get (G.getD 0 []) 0 h0len]
        show List.find? _ (((G.getD 0 []).get ⟨0, h0len⟩ ::
          (G.getD 0 []).drop 1) ++ _) = _
        rw [List.cons_append]
        exact List.find?_cons_of_pos _ (decide_eq_true (hj4 0 h0len (le_refl _)))
      rw [hfq]
      exact ⟨hvalid, hkey, hval⟩
  case neg =>
    have hIle : ((metasAux G 0).takeWhile
        (fun m : BlockMeta => decide (m.first_key ≤ k))).length ≤ G.length := by
      rw [← hmlen]
      exact htw3
    have hb : ((metasAux G 0).takeWhile
        (fun m : BlockMeta => decide (m.first_key ≤ k))).length - 1 < G.length := by
      omega
    have hB : (SsTable.mk (encodesData G ++ rest) (metasAux G 0)
        (encodesData G).length).find_block_idx k =
        ((metasAux G 0).takeWhile
          (fun m : BlockMeta => decide (m.first_key ≤ k))).length - 1 := by
      show (if ((metasAux G 0).takeWhile
          (fun m : BlockMeta => decide (m.first_key ≤ k))).length = 0 then
          ((metasAux G 0).takeWhile
            (fun m : BlockMeta => decide (m.first_key ≤ k))).length else _) = _
      rw [if_neg hI0]
    obtain ⟨hchain, hgkeys, hglens, hgmem⟩ := hblockfacts _ hb
    have hheadble : ((G.getD (((metasAux G 0).takeWhile
        (fun m : BlockMeta => decide (m.first_key ≤ k))).length - 1) []).headD
        ([], [])).1 ≤ k := by
      have h1 := htw1 _ (by omega :
        ((metasAux G 0).takeWhile
          (fun m : BlockMeta => decide (m.first_key ≤ k))).length - 1 <
        ((metasAux G 0).takeWhile
          (fun m : BlockMeta => decide (m.first_key ≤ k))).length)
      rw [metasAux_getD G _ 0 hb] at h1
      exact of_decide_eq_true h1
    have hpre : ∀ e ∈ (G.take (((metasAux G 0).takeWhile
        (fun m : BlockMeta => decide (m.first_key ≤ k))).length - 1)).flatten,
        ¬k ≤ e.1 := by
      intro e he
      exact not_le.mpr (lt_of_lt_of_le (hprecross _ hb e he) hheadble)
    obtain ⟨j, hj2, hj3, hj4, hj5, hj6⟩ :=
      create_and_seek_to_key_built (G.getD (((metasAux G 0).takeWhile
        (fun m : BlockMeta => decide (m.first_key ≤ k))).length - 1) []) k
        hgkeys hglens hchain
    have htakefail : ∀ x ∈ (G.getD (((metasAux G 0).takeWhile
        (fun m : BlockMeta => decide (m.first_key ≤ k))).length - 1) []).take j,
        (fun e : Entry => decide (k ≤ e.1)) x = false := by
      intro x hx
      rw [List.mem_take_iff_getElem] at hx
      obtain ⟨i, hi, hxe⟩ := hx
      have hig : i < (G.getD (((metasAux G 0).takeWhile
          (fun m : BlockMeta => decide (m.first_key ≤ k))).length - 1) []).length := by
        omega
      have hlt := hj3 i hig (by omega)
      apply decide_eq_false
      intro hle
      rw [← hxe] at hle
      exact absurd (lt_of_lt_of_le hlt hle) (lt_irrefl _)
    by_cases hjlen : j < (G.getD (((metasAux G 0).takeWhile
        (fun m : BlockMeta => decide (m.first_key ≤ k))).length - 1) []).length
    case pos =>
      obtain ⟨hkey, hval, hvalid⟩ := hj5 hjlen
      refine ⟨⟨SsTable.mk (encodesData G ++ rest) (metasAux G 0) (encodesData G).length,
        ((metasAux G 0).takeWhile
          (fun m : BlockMeta => decide (m.first_key ≤ k))).length - 1,
        BlockIterator.create_and_seek_to_key
        (builtBlock (G.getD (((metasAux G 0).takeWhile
          (fun m : BlockMeta => decide (m.first_key ≤ k))).length - 1) [])) k⟩,
        ?_, ?_⟩
      · unfold SsTableIter.create_and_seek_to_key
        rw [hB, hread _ hb]
        dsimp only
        rw [if_neg (by rw [hvalid]; simp)]
      · have hfq : G.flatten.find? (fun e => decide (k ≤ e.1)) =
            some ((G.getD (((metasAux G 0).takeWhile
              (fun m : BlockMeta => decide (m.first_key ≤ k))).length - 1) []).get
              ⟨j, hjlen⟩) := by
          rw [hfindsplit _ hb hpre]
          conv_lhs => rw [list_split_get _ j hjlen]
          rw [List.append_assoc, List.cons_append]
          rw [find?_append_of_fail _ _ _ htakefail]
          exact List.find?_cons_of_pos _ (decide_eq_true (hj4 j hjlen (le_refl _)))
        rw [hfq]
        exact ⟨hvalid, hkey, hval⟩
    case neg =>
      have hinvalid := hj6 (by omega)
      have hgfail : ∀ x ∈ G.getD (((metasAux G 0).takeWhile
          (fun m : BlockMeta => decide (m.first_key ≤ k))).length - 1) [],
          (fun e : Entry => decide (k ≤ e.1)) x = false := by
        intro x hx
        obtain ⟨i, hig, hxe⟩ := List.getElem_of_mem hx
        have hlt := hj3 i hig (by omega)
        apply decide_eq_false
        intro hle
        rw [← hxe] at hle
        exact absurd (lt_of_lt_of_le hlt hle) (lt_irrefl _)
      by_cases hnext : ((metasAux G 0).takeWhile
          (fun m : BlockMeta => decide (m.first_key ≤ k))).length - 1 + 1 < G.length
      case pos =>
        have hb1 : ((metasAux G 0).takeWhile
            (fun m : BlockMeta => decide (m.first_key ≤ k))).length - 1 + 1 <
            G.length := hnext
        obtain ⟨hchain1, hgkeys1, hglens1, hgmem1⟩ := hblockfacts _ hb1
        have hne1 : G.getD (((metasAux G 0).takeWhile
            (fun m : BlockMeta => decide (m.first_key ≤ k))).length - 1 + 1) [] ≠ [] :=
          hgne _ hgmem1
        have h0len : 0 < (G.getD (((metasAux G 0).takeWhile
            (fun m : BlockMeta => decide (m.first_key ≤ k))).length - 1 + 1) []).length := by
          cases hg : G.getD (((metasAux G 0).takeWhile
              (fun m : BlockMeta => decide (m.first_key ≤ k))).length - 1 + 1) [] with
          | nil => exact absurd hg hne1
          | cons c t' => simp
        have hkgt : k < ((G.getD (((metasAux G 0).takeWhile
            (fun m : BlockMeta => decide (m.first_key ≤ k))).length - 1 + 1) []).headD
            ([], [])).1 := by
          have h2 := htw2 (by rw [hmlen]; omega)
          rw [metasAux_getD G _ 0 (by rw [← hmlen]; omega :
            ((metasAux G 0).takeWhile
              (fun m : BlockMeta => decide (m.first_key ≤ k))).length < G.length)] at h2
          have h3 := not_le.mp (of_decide_eq_false h2)
          rw [show ((metasAux G 0).takeWhile
            (fun m : BlockMeta => decide (m.first_key ≤ k))).length - 1 + 1 =
            ((metasAux G 0).takeWhile
              (fun m : BlockMeta => decide (m.first_key ≤ k))).length from by omega]
          exact h3
        have hmemg0 : (G.getD (((metasAux G 0).takeWhile
            (fun m : BlockMeta => decide (m.first_key ≤ k))).length - 1 + 1) []).get
            ⟨0, h0len⟩ ∈ G.flatten :=
          mem_flatten_of_mem hgmem1 (List.get_mem _ _ _)
        have hfirst := seek_to_idx_built_at (G.getD (((metasAux G 0).takeWhile
            (fun m : BlockMeta => decide (m.first_key ≤ k))).length - 1 + 1) []) 0 h0len
          (BlockIterator.new (builtBlock (G.getD (((metasAux G 0).takeWhile
            (fun m : BlockMeta => decide (m.first_key ≤ k))).length - 1 + 1) []))) rfl
          (hlens _ hmemg0).1 (hlens _ hmemg0).2
        have hfs : BlockIterator.create_and_seek_to_first (builtBlock
            (G.getD (((metasAux G 0).takeWhile
              (fun m : BlockMeta => decide (m.first_key ≤ k))).length - 1 + 1) [])) =
            BlockIterator.mk (BlockIterator.new (builtBlock
              (G.getD (((metasAux G 0).takeWhile
                (fun m : BlockMeta => decide (m.first_key ≤ k))).length - 1 + 1) []))).block
              ((G.getD (((metasAux G 0).takeWhile
                (fun m : BlockMeta => decide (m.first_key ≤ k))).length - 1 + 1) []).get
                ⟨0, h0len⟩).1
              ((G.getD (((metasAux G 0).takeWhile
                (fun m : BlockMeta => decide (m.first_key ≤ k))).length - 1 + 1) []).get
                ⟨0, h0len⟩).2 0 := hfirst
        refine ⟨⟨SsTable.mk (encodesData G ++ rest) (metasAux G 0) (encodesData G).length,
          ((metasAux G 0).takeWhile
            (fun m : BlockMeta => decide (m.first_key ≤ k))).length - 1 + 1,
          BlockIterator.create_and_seek_to_first (builtBlock
          (G.getD (((metasAux G 0).takeWhile
            (fun m : BlockMeta => decide (m.first_key ≤ k))).length - 1 + 1) []))⟩,
          ?_, ?_⟩
        · unfold SsTableIter.create_and_seek_to_key
          rw [hB, hread _ hb]
          dsimp only
          rw [if_pos ⟨hinvalid, by
            show _ < (metasAux G 0).length
            rw [hmlen]
            exact hnext⟩]
          rw [hread _ hb1]
        · have hgc : ((G.getD (((metasAux G 0).takeWhile
              (fun m : BlockMeta => decide (m.first_key ≤ k))).length - 1 + 1) []).headD
              ([], [])) = (G.getD (((metasAux G 0).takeWhile
              (fun m : BlockMeta => decide (m.first_key ≤ k))).length - 1 + 1) []).get
              ⟨0, h0len⟩ := headD_eq_get _ hne1 _
          have hfq : G.flatten.find? (fun e => decide (k ≤ e.1)) =
              some ((G.getD (((metasAux G 0).takeWhile
                (fun m : BlockMeta => decide (m.first_key ≤ k))).length - 1 + 1) []).get
                ⟨0, h0len⟩) := by
            rw [hfindsplit _ hb hpre]
            rw [find?_append_of_fail _ _ _ hgfail]
            have hdropsplit : G.drop (((metasAux G 0).takeWhile
                (fun m : BlockMeta => decide (m.first_key ≤ k))).length - 1 + 1) =
                G.getD (((metasAux G 0).takeWhile
                  (fun m : BlockMeta => decide (m.first_key ≤ k))).length - 1 + 1) [] ::
                G.drop (((metasAux G 0).takeWhile
                  (fun m : BlockMeta => decide (m.first_key ≤ k))).length - 1 + 1 + 1) := by
              rw [List.getD_eq_getElem G [] hb1]
              exact List.drop_eq_getElem_cons hb1
            rw [hdropsplit, List.flatten_cons]
            conv_lhs => rw [list_split_get _ 0 h0len]
            show List.find? _ (((G.getD (((metasAux G 0).takeWhile
              (fun m : BlockMeta => decide (m.first_key ≤ k))).length - 1 + 1) []).get
              ⟨0, h0len⟩ :: _) ++ _) = _
            rw [List.cons_append]
            apply List.find?_cons_of_pos
            apply decide_eq_true
            apply le_of_lt
            rw [hgc] at hkgt
            exact hkgt
          rw [hfq]
          refine ⟨?_, ?_, ?_⟩
          · show (BlockIterator.create_and_seek_to_first _).is_valid = true
            rw [hfs]
            show (!((G.getD (((metasAux G 0).takeWhile
              (fun m : BlockMeta => decide (m.first_key ≤ k))).length - 1 + 1) []).get
              ⟨0, h0len⟩).1.isEmpty) = true
            rw [List.isEmpty_eq_false.mpr (hkeys _ hmemg0)]
            rfl
          · show (BlockIterator.create_and_seek_to_first _).key = _
            rw [hfs]
          · show (BlockIterator.create_and_seek_to_first _).value = _
            rw [hfs]
      case neg =>
        refine ⟨⟨SsTable.mk (encodesData G ++ rest) (metasAux G 0) (encodesData G).length,
          ((metasAux G 0).takeWhile
            (fun m : BlockMeta => decide (m.first_key ≤ k))).length - 1,
          BlockIterator.create_and_seek_to_key
          (builtBlock (G.getD (((metasAux G 0).takeWhile
            (fun m : BlockMeta => decide (m.first_key ≤ k))).length - 1) [])) k⟩,
          ?_, ?_⟩
        · unfold SsTableIter.create_and_seek_to_key
          rw [hB, hread _ hb]
          dsimp only
          rw [if_neg (by
            intro hc
            apply hnext
            have h2 := hc.2
            rw [show (SsTable.mk (encodesData G ++ rest) (metasAux G 0)
              (encodesData G).length).num_of_blocks = G.length from by
                show (metasAux G 0).length = G.length
                exact hmlen] at h2
            exact h2)]
        · have hfq : G.flatten.find? (fun e => decide (k ≤ e.1)) = none := by
            apply List.find?_eq_none.mpr
            intro x hx
            rw [flatten_split3 G _ hb] at hx
            intro hd
            have hle := of_decide_eq_true hd
            rcases List.mem_append.mp hx with h1 | h1
            · exact hpre x h1 hle
            · rcases List.mem_append.mp h1 with h2 | h2
              · have hf2 : decide (k ≤ x.1) = false := hgfail x h2
                rw [decide_eq_true hle] at hf2
                cases hf2
              · have hdrop : G.drop (((metasAux G 0).takeWhile
                    (fun m : BlockMeta => decide (m.first_key ≤ k))).length - 1 + 1) =
                    [] := by
                  apply List.drop_eq_nil_of_le
                  omega
                rw [hdrop] at h2
                cases h2
          rw [hfq]
          exact hinvalid

/-- C6, counterexample.  The claim quantifies over every SST produced by
`SsTableBuilder` and promises an invalid iterator when no entry has key
`≥ k`.  An SST built from no entries has an empty `block_metas`, yet
`find_block_idx` returns 0 and `read_block(0)` indexes
`self.block_metas[0]`, which panics (modelled by `none`) instead of
producing an invalid iterator. -/
theorem C6_counterexample :
    (SsTableBuilder.new 16).addAll [] = some (SsTableBuilder.new 16) ∧
    SsTableIter.create_and_seek_to_key (SsTableBuilder.new 16).build [0] = none :=
  ⟨rfl, rfl⟩

/-- **C6** (amended).  For every SST produced by an `SsTableBuilder` (block
size in `[2, 65536)`) from at least one entry added in strictly ascending key
order, with non-empty keys and key/value lengths below 65536, and for every
probe key `k`: `create_and_seek_to_key` succeeds and yields an iterator
positioned at the first entry of the whole table with key `≥ k`, or an
invalid iterator when no entry has key `≥ k`.  (For an SST built from no
entries the seek panics instead — see the counterexample.) -/
theorem C6_sst_seek (S : Nat) (hS2 : 2 ≤ S) (hS : S < 65536) (es : List Entry)
    (hsort : List.Chain' keyLt es) (hkeys : ∀ e ∈ es, e.1 ≠ [])
    (hlens : ∀ e ∈ es, e.1.length < 65536 ∧ e.2.length < 65536)
    (hne : es ≠ []) (k : List Nat) :
    ∃ sb it, (SsTableBuilder.new S).addAll es = some sb ∧
      SsTableIter.create_and_seek_to_key sb.build k = some it ∧
      (match es.find? (fun e => decide (k ≤ e.1)) with
       | some e => it.is_valid = true ∧ it.key = e.1 ∧ it.value = e.2
       | none => it.is_valid = false) := by
  obtain ⟨sb, G, hrun, hflat, hGne, hgne, hadds, hbuild⟩ :=
    build_groups S hS2 hS es hkeys hne
  have hbnd : ∀ g ∈ G, (∀ o ∈ entryOffsets g 0, o < 65536) ∧
      (entryOffsets g 0).length < 65536 :=
    fun g hg => group_bounds S g (hgne g hg) (hadds g hg)
  have htf : sb.build.fileData = encodesData G ++
      (encode_block_meta (metasAux G 0) ++ u32be (encodesData G).length) := by
    rw [hbuild]
    show encodesData G ++ _ ++ _ = _
    rw [List.append_assoc]
  have htm : sb.build.block_metas = metasAux G 0 := by
    rw [hbuild]
  have hto : sb.build.block_meta_offset = (encodesData G).length := by
    rw [hbuild]
  obtain ⟨it, hseek, hmatch⟩ := table_seek G
    (encode_block_meta (metasAux G 0) ++ u32be (encodesData G).length) hGne hgne hbnd
    (by rw [hflat]; exact hkeys) (by rw [hflat]; exact hlens) (by rw [hflat]; exact hsort)
    k sb.build htf htm hto
  refine ⟨sb, it, hrun, hseek, ?_⟩
  rw [← hflat]
  exact hmatch

/-- C6, witness: the amended claim at a concrete three-entry table with probe
key `[2]`, whose first entry with key `≥ [2]` is `([2], [20])`. -/
theorem C6_witness :
    ∃ sb it, (SsTableBuilder.new 32).addAll
        [(([1], [10]) : Entry), ([2], [20]), ([3], [30])] = some sb ∧
      SsTableIter.create_and_seek_to_key sb.build [2] = some it ∧
      (match ([(([1], [10]) : Entry), ([2], [20]), ([3], [30])].find?
          (fun e => decide ([2] ≤ e.1))) with
       | some e => it.is_valid = true ∧ it.key = e.1 ∧ it.value = e.2
       | none => it.is_valid = false) := by
  apply C6_sst_seek 32 (by omega) (by omega)
    [(([1], [10]) : Entry), ([2], [20]), ([3], [30])]
  · simp only [List.chain'_cons, List.chain'_singleton, and_true]
    constructor
    · show [1] < [2]
      decide
    · show [2] < [3]
      decide
  · decide
  · decide
  · decide

/-! ### LsmIterator (source `lsm_iterator.rs`), over a `TwoMergeIter` inner
iterator -/

/-- Source `std::ops::Bound<Bytes>` as used for the scan end bound. -/
inductive Bound' where
  | included : List Nat → Bound'
  | excluded : List Nat → Bound'
  | unbounded : Bound'
  deriving DecidableEq, Repr

/-- Source `LsmIterator`: the inner iterator (a `TwoMergeIterator` in the
source; the `TwoMergeIter` embedding stands in for it), the end bound, and the
latched validity flag. -/
structure LsmIterator where
  iter : TwoMergeIter
  end_bound : Bound'
  is_valid : Bool

/-- Source `LsmIterator::key`. -/
def LsmIterator.key (s : LsmIterator) : List Nat := s.iter.key

/-- Source `LsmIterator::value`. -/
def LsmIterator.value (s : LsmIterator) : List Nat := s.iter.value

/-- Source `LsmIterator::next_inner`: advance the inner iterator, latch
invalid when it is exhausted, otherwise re-check the end bound (which is not
checked at all in the `Unbounded` case, nor anywhere at construction). -/
def LsmIterator.next_inner (s : LsmIterator) : LsmIterator :=
  let iter1 := s.iter.next
  if iter1.is_valid = false then { s with iter := iter1, is_valid := false }
  else
    match s.end_bound with
    | Bound'.included key => { s with iter := iter1, is_valid := decide (iter1.key ≤ key) }
    | Bound'.excluded key => { s with iter := iter1, is_valid := decide (iter1.key < key) }
    | Bound'.unbounded => { s with iter := iter1 }

/-- Source `LsmIterator::move_to_non_delete`: skip entries whose value is
empty (tombstones), `fuel`-bounded (`none` = fuel exhausted; the source loop
terminates because each `next_inner` advances the inner iterator or clears
`is_valid`). -/
def moveToNonDelete : Nat → LsmIterator → Option LsmIterator
  | 0, s => if s.is_valid = true ∧ s.value.isEmpty = true then none else some s
  | fuel + 1, s =>
    if s.is_valid = true ∧ s.value.isEmpty = true then
      moveToNonDelete fuel s.next_inner
    else some s

/-- Source `LsmIterator::new`: the initial validity is the inner iterator's
validity — the end bound is **not** consulted — followed by
`move_to_non_delete`. -/
def LsmIterator.new (iter : TwoMergeIter) (end_bound : Bound') : Option LsmIterator :=
  moveToNonDelete (iter.a.rem + iter.b.rem + 2)
    { iter := iter, end_bound := end_bound, is_valid := iter.is_valid }

/-- Source `LsmIterator::next` (`StorageIterator` impl): `next_inner` then
`move_to_non_delete`. -/
def LsmIterator.next (fuel : Nat) (s : LsmIterator) : Option LsmIterator :=
  moveToNonDelete fuel s.next_inner

/-- The property the claim asserts of every exposed key. -/
def boundOk : Bound' → List Nat → Prop
  | Bound'.included key, k => k ≤ key
  | Bound'.excluded key, k => k < key
  | Bound'.unbounded, _ => True

theorem next_inner_end_bound (s : LsmIterator) : s.next_inner.end_bound = s.end_bound := by
  unfold LsmIterator.next_inner
  by_cases hv : s.iter.next.is_valid = false
  case pos => rw [if_pos hv]
  case neg =>
    rw [if_neg hv]
    cases s.end_bound <;> rfl

/-- After any `next_inner`, a state that is still valid respects the bound. -/
theorem next_inner_boundOk (s : LsmIterator) :
    s.next_inner.is_valid = true → boundOk s.end_bound s.next_inner.key := by
  unfold LsmIterator.next_inner
  by_cases hv : s.iter.next.is_valid = false
  case pos =>
    rw [if_pos hv]
    intro h
    cases h
  case neg =>
    rw [if_neg hv]
    cases s.end_bound with
    | included key =>
      intro h
      have h' : decide (s.iter.next.key ≤ key) = true := h
      show s.iter.next.key ≤ key
      exact of_decide_eq_true h'
    | excluded key =>
      intro h
      have h' : decide (s.iter.next.key < key) = true := h
      show s.iter.next.key < key
      exact of_decide_eq_true h'
    | unbounded =>
      intro _
      exact trivial

/-- `move_to_non_delete` preserves "valid implies in-bound" and the bound. -/
theorem moveToNonDelete_boundOk : ∀ (fuel : Nat) (s s' : LsmIterator),
    (s.is_valid = true → boundOk s.end_bound s.key) →
    moveToNonDelete fuel s = some s' →
    (s'.end_bound = s.end_bound) ∧ (s'.is_valid = true → boundOk s'.end_bound s'.key) := by
  intro fuel
  induction fuel with
  | zero =>
    intro s s' hP h
    unfold moveToNonDelete at h
    by_cases hc : s.is_valid = true ∧ s.value.isEmpty = true
    · rw [if_pos hc] at h
      cases h
    · rw [if_neg hc] at h
      cases h
      exact ⟨rfl, hP⟩
  | succ fuel ih =>
    intro s s' hP h
    unfold moveToNonDelete at h
    by_cases hc : s.is_valid = true ∧ s.value.isEmpty = true
    · rw [if_pos hc] at h
      have hnb := next_inner_end_bound s
      obtain ⟨he, hQ⟩ := ih s.next_inner s' (by rw [hnb]; exact next_inner_boundOk s) h
      exact ⟨by rw [he, hnb], hQ⟩
    · rw [if_neg hc] at h
      cases h
      exact ⟨rfl, hP⟩

/-- C2, counterexample.  The claim covers the entry the iterator is positioned
on immediately after construction, but `LsmIterator::new` sets `is_valid`
from the inner iterator alone and never consults `end_bound`: constructed
over an inner iterator positioned at key `[98]` with `end_bound =
Included([97])`, the iterator is valid and exposes key `[98] > [97]`. -/
theorem C2_counterexample :
    ∃ s, LsmIterator.new (TwoMergeIter.create ⟨[([98], [1])], 0⟩ ⟨[], 0⟩)
        (Bound'.included [97]) = some s ∧
      s.is_valid = true ∧ s.key = [98] ∧ ¬s.key ≤ [97] := by
  have hcr : TwoMergeIter.create ⟨[([98], [1])], 0⟩ ⟨[], 0⟩ =
      { a := ⟨[([98], [1])], 0⟩, b := ⟨[], 0⟩, choose_a := true } := by
    unfold TwoMergeIter.create
    rw [skipB_of_neg (by decide)]
    rfl
  refine ⟨⟨{ a := ⟨[([98], [1])], 0⟩, b := ⟨[], 0⟩, choose_a := true },
    Bound'.included [97], true⟩, ?_, rfl, rfl, by decide⟩
  unfold LsmIterator.new
  rw [hcr]
  rfl

/-- **C2** (amended).  Whenever a `next` call on an `LsmIterator` completes
and leaves the iterator valid, the exposed key respects the end bound:
`key ≤ k` for `Included(k)` and `key < k` for `Excluded(k)` (`next_inner`
re-checks the bound after every advance, and `move_to_non_delete` only
stops on states produced by such checks).  The entry exposed immediately
after construction is **not** covered: `new` never checks the bound (see the
counterexample). -/
theorem C2_bound_after_next (fuel : Nat) (s s' : LsmIterator)
    (h : s.next fuel = some s') (hv : s'.is_valid = true) :
    s'.end_bound = s.end_bound ∧ boundOk s.end_bound s'.key := by
  unfold LsmIterator.next at h
  have hnb := next_inner_end_bound s
  obtain ⟨he, hQ⟩ := moveToNonDelete_boundOk fuel s.next_inner s'
    (by rw [hnb]; exact next_inner_boundOk s) h
  have he' : s'.end_bound = s.end_bound := by rw [he, hnb]
  refine ⟨he', ?_⟩
  rw [← he']
  exact hQ hv

/-- A `next` on a `TwoMergeIter` whose `b` side is exhausted just advances
the chosen `a` side. -/
theorem next_of_b_invalid_choose_true (a b : MockIterator) (hb : b.is_valid = false) :
    (TwoMergeIter.mk a b true).next = TwoMergeIter.mk a.next b (chooseA a.next b) := by
  rw [next_of_choose_true (TwoMergeIter.mk a b true) rfl]
  show TwoMergeIter.mk a.next (skipB a.next b) (chooseA a.next (skipB a.next b)) = _
  rw [skipB_of_neg (fun hc => by rw [hb] at hc; exact nomatch hc.2.1)]

/-- C2, witness: a concrete `next` that stops exactly on the bound key. -/
theorem C2_witness :
    (LsmIterator.mk ⟨⟨[([96], [1]), ([97], [2])], 0⟩, ⟨[], 0⟩, true⟩
        (Bound'.included [97]) true).next 5 =
      some (LsmIterator.mk ⟨⟨[([96], [1]), ([97], [2])], 1⟩, ⟨[], 0⟩, true⟩
        (Bound'.included [97]) true) ∧
    (LsmIterator.mk ⟨⟨[([96], [1]), ([97], [2])], 1⟩, ⟨[], 0⟩, true⟩
        (Bound'.included [97]) true).end_bound = Bound'.included [97] ∧
    boundOk (Bound'.included [97])
      (LsmIterator.mk ⟨⟨[([96], [1]), ([97], [2])], 1⟩, ⟨[], 0⟩, true⟩
        (Bound'.included [97]) true).key := by
  have hin : (TwoMergeIter.mk (⟨[([96], [1]), ([97], [2])], 0⟩ : MockIterator)
      ⟨[], 0⟩ true).next =
      TwoMergeIter.mk ⟨[([96], [1]), ([97], [2])], 1⟩ ⟨[], 0⟩ true := by
    rw [next_of_b_invalid_choose_true ⟨[([96], [1]), ([97], [2])], 0⟩ ⟨[], 0⟩ rfl]
    rfl
  have hni : (LsmIterator.mk ⟨⟨[([96], [1]), ([97], [2])], 0⟩, ⟨[], 0⟩, true⟩
      (Bound'.included [97]) true).next_inner =
      LsmIterator.mk ⟨⟨[([96], [1]), ([97], [2])], 1⟩, ⟨[], 0⟩, true⟩
        (Bound'.included [97]) true := by
    unfold LsmIterator.next_inner
    rw [show (LsmIterator.mk ⟨⟨[([96], [1]), ([97], [2])], 0⟩, ⟨[], 0⟩, true⟩
        (Bound'.included [97]) true).iter.next =
        TwoMergeIter.mk ⟨[([96], [1]), ([97], [2])], 1⟩ ⟨[], 0⟩ true from hin]
    rfl
  have hnext : (LsmIterator.mk ⟨⟨[([96], [1]), ([97], [2])], 0⟩, ⟨[], 0⟩, true⟩
      (Bound'.included [97]) true).next 5 =
      some (LsmIterator.mk ⟨⟨[([96], [1]), ([97], [2])], 1⟩, ⟨[], 0⟩, true⟩
        (Bound'.included [97]) true) := by
    unfold LsmIterator.next
    rw [hni]
    rfl
  have hq := C2_bound_after_next 5
    (LsmIterator.mk ⟨⟨[([96], [1]), ([97], [2])], 0⟩, ⟨[], 0⟩, true⟩
      (Bound'.included [97]) true)
    (LsmIterator.mk ⟨⟨[([96], [1]), ([97], [2])], 1⟩, ⟨[], 0⟩, true⟩
      (Bound'.included [97]) true) hnext rfl
  exact ⟨hnext, hq.1, hq.2⟩

/-! ### LsmStorage (`lsm_storage.rs`): claims C1 and C10 -/

/-- Modelled from the spec: `mem_table.rs` is not among the repository's
files.  §4.7 describes the MemTable as an in-memory ordered latest-write-wins
map from key to value; it is modelled as a key-sorted association list. -/
structure MemTable where
  entries : List Entry
  deriving DecidableEq, Repr

/-- Modelled from the spec: `MemTable::create` yields the empty map. -/
def MemTable.create : MemTable := ⟨[]⟩

/-- Modelled from the spec: ordered insertion, replacing the value when the
key is already present (`put` writes latest-wins; tombstones are empty
values). -/
def mtInsert (key value : List Nat) : List Entry → List Entry
  | [] => [(key, value)]
  | (k', v') :: es =>
    if key < k' then (key, value) :: (k', v') :: es
    else if key = k' then (key, value) :: es
    else (k', v') :: mtInsert key value es

/-- Modelled from the spec: `MemTable::put`. -/
def MemTable.put (mt : MemTable) (key value : List Nat) : MemTable :=
  ⟨mtInsert key value mt.entries⟩

/-- Modelled from the spec: `MemTable::get` returns the stored value
(possibly an empty tombstone) or nothing when the key is absent. -/
def MemTable.get (mt : MemTable) (key : List Nat) : Option (List Nat) :=
  (mt.entries.find? (fun e => decide (e.1 = key))).map (fun e => e.2)

/-- Modelled from the spec: `MemTable::flush` feeds all entries to the
builder in ascending key order (the association list is kept sorted). -/
def MemTable.flush (mt : MemTable) (sb : SsTableBuilder) : Option SsTableBuilder :=
  sb.addAll mt.entries

/-- Source `LsmStorageInner` (`lsm_storage.rs`): the published snapshot.  The
`levels` field (L1..L6) is declared in the source but never read or written
by the operations here, so it is omitted. -/
structure LsmStorageInner where
  memtable : MemTable
  imm_memtables : List MemTable
  l0_sstables : List SsTable
  next_sst_id : Nat

/-- Source `LsmStorageInner::create`. -/
def LsmStorageInner.create : LsmStorageInner :=
  { memtable := MemTable.create, imm_memtables := [], l0_sstables := [],
    next_sst_id := 1 }

/-- All entries of the table from block `block_idx` on (later blocks decoded
and iterated front to back); out-of-range blocks contribute nothing. -/
def SsTable.entriesFrom (t : SsTable) (block_idx : Nat) : List Entry :=
  ((List.range t.num_of_blocks).drop block_idx).flatMap fun j =>
    match t.read_block j with
    | some b => b.toList
    | none => []

/-- The source `MergeIterator` is generic over `StorageIterator`; its
embedding here is fixed at `MockIterator`, so a seeked `SsTableIterator`
enters a merge as the `MockIterator` stream of exactly the observations the
generic code can make of it: the current (key, value) when valid, then the
entries yielded by repeated `next` (rest of the current block, then the
later blocks). -/
def SsTableIter.toMock (it : SsTableIter) : MockIterator :=
  MockIterator.mk
    (if it.is_valid then
       BlockIterator.collect (it.block_iter.block.offsets.length + 1) it.block_iter
         ++ it.table.entriesFrom (it.block_idx + 1)
     else []) 0

/-- Source `LsmStorage::get` over a published snapshot (the source clones the
snapshot under the read lock and then works lock-free on it).  Outer `none`
models a propagated error/panic; inner `Option` is the source's
`Option<Bytes>`.  Probe the active memtable, then the immutable memtables
newest-first -- a hit with an empty value is a tombstone and returns absent --
then seek every L0 SST (newest-first) and merge: when the merge iterator is
valid its value is returned as present, with no tombstone (or key) check. -/
def LsmStorage.get (s : LsmStorageInner) (key : List Nat) :
    Option (Option (List Nat)) :=
  match s.memtable.get key with
  | some value => some (if value.isEmpty then none else some value)
  | none =>
    match s.imm_memtables.reverse.findSome? (fun mt => mt.get key) with
    | some value => some (if value.isEmpty then none else some value)
    | none =>
      match s.l0_sstables.reverse.mapM
          (fun t => SsTableIter.create_and_seek_to_key t key) with
      | none => none
      | some its =>
        let merge_iter := MergeIter.create (its.map SsTableIter.toMock)
        if merge_iter.is_valid then some (some merge_iter.value) else some none

/-- Source `LsmStorage::put`: the asserts reject an empty value and an empty
key (`none`); otherwise insert into the active memtable. -/
def LsmStorage.put (s : LsmStorageInner) (key value : List Nat) :
    Option LsmStorageInner :=
  if value.isEmpty then none
  else if key.isEmpty then none
  else some { s with memtable := s.memtable.put key value }

/-- Source `LsmStorage::delete`: assert a non-empty key, then put the empty
value (a tombstone). -/
def LsmStorage.delete (s : LsmStorageInner) (key : List Nat) :
    Option LsmStorageInner :=
  if key.isEmpty then none
  else some { s with memtable := s.memtable.put key [] }

/-- Source `LsmStorage::sync`, first locked phase: swap the active memtable
for a fresh one, push the old one onto the immutable list, record the SST id.
Returns (new snapshot, flush_memtable, sst_id). -/
def LsmStorage.syncRotate (s : LsmStorageInner) :
    LsmStorageInner × MemTable × Nat :=
  ({ s with memtable := MemTable.create,
            imm_memtables := s.imm_memtables ++ [s.memtable] },
   s.memtable, s.next_sst_id)

/-- Source `LsmStorage::sync`, between the locks: flush the rotated memtable
through `SsTableBuilder::new(4096)` and build the SST. -/
def LsmStorage.syncBuild (mt : MemTable) : Option SsTable :=
  match mt.flush (SsTableBuilder.new 4096) with
  | some sb => some sb.build
  | none => none

/-- Source `LsmStorage::sync`, second locked phase: pop one immutable
memtable from the end of the list, push the new SST onto L0, bump the id. -/
def LsmStorage.syncPublish (s : LsmStorageInner) (sst : SsTable) :
    LsmStorageInner :=
  { s with imm_memtables := s.imm_memtables.dropLast,
           l0_sstables := s.l0_sstables ++ [sst],
           next_sst_id := s.next_sst_id + 1 }

/-- Source `LsmStorage::sync`: rotate, build, publish (`none` propagates a
build failure). -/
def LsmStorage.sync (s : LsmStorageInner) : Option LsmStorageInner :=
  let r := LsmStorage.syncRotate s
  match LsmStorage.syncBuild r.2.1 with
  | some sst => some (LsmStorage.syncPublish r.1 sst)
  | none => none

/-- The storage operations a sequential caller can issue. -/
inductive Op where
  | put (key value : List Nat)
  | delete (key : List Nat)
  | get (key : List Nat)
  | scan
  | sync
  deriving DecidableEq, Repr

/-- One sequential call against the published snapshot.  `get` and `scan`
clone the snapshot under the read lock and never write it back, so they leave
the published state unchanged. -/
def runOp (s : LsmStorageInner) : Op → Option LsmStorageInner
  | Op.put k v => LsmStorage.put s k v
  | Op.delete k => LsmStorage.delete s k
  | Op.get _ => some s
  | Op.scan => some s
  | Op.sync => LsmStorage.sync s

/-- A whole call sequence from a freshly opened storage. -/
def runOps (ops : List Op) : Option LsmStorageInner :=
  List.foldlM runOp LsmStorageInner.create ops

/-- Each completed operation preserves an empty immutable-memtable list:
`put`/`delete`/`get`/`scan` never touch it, and `sync` pushes exactly one
memtable in its first phase and pops exactly one in its second. -/
theorem runOp_imm_empty (s s' : LsmStorageInner) (op : Op)
    (h0 : s.imm_memtables = []) (h : runOp s op = some s') :
    s'.imm_memtables = [] := by
  cases op with
  | put k v =>
    simp only [runOp, LsmStorage.put] at h
    by_cases hv : v.isEmpty
    · rw [if_pos hv] at h; exact Option.noConfusion h
    · rw [if_neg hv] at h
      by_cases hk : k.isEmpty
      · rw [if_pos hk] at h; exact Option.noConfusion h
      · rw [if_neg hk] at h
        have h2 := Option.some.inj h
        rw [← h2]
        exact h0
  | delete k =>
    simp only [runOp, LsmStorage.delete] at h
    by_cases hk : k.isEmpty
    · rw [if_pos hk] at h; exact Option.noConfusion h
    · rw [if_neg hk] at h
      have h2 := Option.some.inj h
      rw [← h2]
      exact h0
  | get k =>
    have h2 := Option.some.inj h
    rw [← h2]; exact h0
  | scan =>
    have h2 := Option.some.inj h
    rw [← h2]; exact h0
  | sync =>
    simp only [runOp, LsmStorage.sync, LsmStorage.syncRotate] at h
    cases hb : LsmStorage.syncBuild s.memtable with
    | none => rw [hb] at h; exact Option.noConfusion h
    | some sst =>
      rw [hb] at h
      have h2 := Option.some.inj h
      rw [← h2]
      show (s.imm_memtables ++ [s.memtable]).dropLast = []
      rw [h0]
      rfl

/-- Invariant of whole completed call sequences: the published snapshot's
immutable-memtable list stays empty. -/
theorem runOps_imm_empty (ops : List Op) :
    ∀ s0, s0.imm_memtables = [] → ∀ s, List.foldlM runOp s0 ops = some s →
      s.imm_memtables = [] := by
  induction ops with
  | nil =>
    intro s0 h0 s h
    have h2 := Option.some.inj h
    rw [← h2]; exact h0
  | cons op ops ih =>
    intro s0 h0 s h
    rw [List.foldlM_cons] at h
    cases hstep : runOp s0 op with
    | none => rw [hstep] at h; exact Option.noConfusion h
    | some s1 =>
      rw [hstep] at h
      exact ih s1 (runOp_imm_empty s0 s1 op h0 hstep) s h

/-- C10: after any sequence of completed put/delete/get/scan/sync calls from
a freshly opened storage, the published snapshot's immutable-memtable list is
empty; consequently, during a single sync the first locked phase leaves the
list holding exactly the one memtable it rotated out, so the pop from the end
of the list in the second locked phase removes precisely the memtable that
was just flushed (leaving the list empty again, whatever SST was built). -/
theorem C10_sync_imm_empty (ops : List Op) (s : LsmStorageInner)
    (h : runOps ops = some s) :
    s.imm_memtables = [] ∧
    (LsmStorage.syncRotate s).1.imm_memtables = [(LsmStorage.syncRotate s).2.1] ∧
    ∀ sst, (LsmStorage.syncPublish (LsmStorage.syncRotate s).1 sst).imm_memtables
      = [] := by
  unfold runOps at h
  have himm := runOps_imm_empty ops LsmStorageInner.create rfl s h
  refine ⟨himm, ?_, ?_⟩
  · show s.imm_memtables ++ [s.memtable] = [s.memtable]
    rw [himm]; rfl
  · intro sst
    show (s.imm_memtables ++ [s.memtable]).dropLast = []
    rw [himm]; rfl

/-- C10, witness: the invariant evaluated after `put(a, 1); sync()`. -/
theorem C10_witness :
    runOps [Op.put [97] [49], Op.sync] = some (LsmStorageInner.mk (MemTable.mk []) [] [SsTable.mk [0, 1, 97, 0, 1, 49, 0, 0, 0, 1, 0, 0, 0, 0, 0, 1, 97, 0, 0, 0, 10] [BlockMeta.mk 0 [97]] 10] 2) ∧
    (LsmStorageInner.mk (MemTable.mk []) [] [SsTable.mk [0, 1, 97, 0, 1, 49, 0, 0, 0, 1, 0, 0, 0, 0, 0, 1, 97, 0, 0, 0, 10] [BlockMeta.mk 0 [97]] 10] 2).imm_memtables = [] ∧
    (LsmStorage.syncRotate (LsmStorageInner.mk (MemTable.mk []) [] [SsTable.mk [0, 1, 97, 0, 1, 49, 0, 0, 0, 1, 0, 0, 0, 0, 0, 1, 97, 0, 0, 0, 10] [BlockMeta.mk 0 [97]] 10] 2)).1.imm_memtables = [(LsmStorage.syncRotate (LsmStorageInner.mk (MemTable.mk []) [] [SsTable.mk [0, 1, 97, 0, 1, 49, 0, 0, 0, 1, 0, 0, 0, 0, 0, 1, 97, 0, 0, 0, 10] [BlockMeta.mk 0 [97]] 10] 2)).2.1] ∧
    (LsmStorage.syncPublish (LsmStorage.syncRotate (LsmStorageInner.mk (MemTable.mk []) [] [SsTable.mk [0, 1, 97, 0, 1, 49, 0, 0, 0, 1, 0, 0, 0, 0, 0, 1, 97, 0, 0, 0, 10] [BlockMeta.mk 0 [97]] 10] 2)).1 (SsTable.mk [] [] 0)).imm_memtables = [] :=
  ⟨rfl,
   (C10_sync_imm_empty [Op.put [97] [49], Op.sync] (LsmStorageInner.mk (MemTable.mk []) [] [SsTable.mk [0, 1, 97, 0, 1, 49, 0, 0, 0, 1, 0, 0, 0, 0, 0, 1, 97, 0, 0, 0, 10] [BlockMeta.mk 0 [97]] 10] 2) rfl).1,
   (C10_sync_imm_empty [Op.put [97] [49], Op.sync] (LsmStorageInner.mk (MemTable.mk []) [] [SsTable.mk [0, 1, 97, 0, 1, 49, 0, 0, 0, 1, 0, 0, 0, 0, 0, 1, 97, 0, 0, 0, 10] [BlockMeta.mk 0 [97]] 10] 2) rfl).2.1,
   (C10_sync_imm_empty [Op.put [97] [49], Op.sync] (LsmStorageInner.mk (MemTable.mk []) [] [SsTable.mk [0, 1, 97, 0, 1, 49, 0, 0, 0, 1, 0, 0, 0, 0, 0, 1, 97, 0, 0, 0, 10] [BlockMeta.mk 0 [97]] 10] 2) rfl).2.2 (SsTable.mk [] [] 0)⟩

/-- C1: the claim fails on the L0-SST fallback path of `get`.  After
`put(a, 1); sync(); delete(a); sync()` the latest occurrence of key `a = [97]`
is a tombstone living in an L0 SST; the claim then requires `get(a)` to
return absent, but the source (`lsm_storage.rs` lines 100-102) returns
`Some(merge_iter.value())` whenever the merge iterator over the seeked L0
iterators is valid, with no empty-value check, so `get(a)` returns the
present empty value `Some([])` instead of `None`. -/
theorem C1_tombstone_exposed :
    runOps [Op.put [97] [49], Op.sync, Op.delete [97], Op.sync] =
      some (LsmStorageInner.mk (MemTable.mk []) []
        [SsTable.mk [0, 1, 97, 0, 1, 49, 0, 0, 0, 1, 0, 0, 0, 0, 0, 1, 97, 0, 0, 0, 10] [BlockMeta.mk 0 [97]] 10,
         SsTable.mk [0, 1, 97, 0, 0, 0, 0, 0, 1, 0, 0, 0, 0, 0, 1, 97, 0, 0, 0, 9] [BlockMeta.mk 0 [97]] 9] 3) ∧
    LsmStorage.get
      (LsmStorageInner.mk (MemTable.mk []) []
        [SsTable.mk [0, 1, 97, 0, 1, 49, 0, 0, 0, 1, 0, 0, 0, 0, 0, 1, 97, 0, 0, 0, 10] [BlockMeta.mk 0 [97]] 10,
         SsTable.mk [0, 1, 97, 0, 0, 0, 0, 0, 1, 0, 0, 0, 0, 0, 1, 97, 0, 0, 0, 9] [BlockMeta.mk 0 [97]] 9] 3)
      [97] = some (some []) := by
  constructor
  · rfl
  · have hseek2 : BlockIterator.create_and_seek_to_key (Block.mk [0, 1, 97, 0, 0] [0]) [97]
        = BlockIterator.mk (Block.mk [0, 1, 97, 0, 0] [0]) [97] [] 0 := by
      show (BlockIterator.new (Block.mk [0, 1, 97, 0, 0] [0])).seekLoop [97] 0 1 = _
      rw [BlockIterator.seekLoop]
      rfl
    have hseek1 : BlockIterator.create_and_seek_to_key (Block.mk [0, 1, 97, 0, 1, 49] [0]) [97]
        = BlockIterator.mk (Block.mk [0, 1, 97, 0, 1, 49] [0]) [97] [49] 0 := by
      show (BlockIterator.new (Block.mk [0, 1, 97, 0, 1, 49] [0])).seekLoop [97] 0 1 = _
      rw [BlockIterator.seekLoop]
      rfl
    have h2 : SsTableIter.create_and_seek_to_key
        (SsTable.mk [0, 1, 97, 0, 0, 0, 0, 0, 1, 0, 0, 0, 0, 0, 1, 97, 0, 0, 0, 9] [BlockMeta.mk 0 [97]] 9) [97]
        = some (SsTableIter.mk (SsTable.mk [0, 1, 97, 0, 0, 0, 0, 0, 1, 0, 0, 0, 0, 0, 1, 97, 0, 0, 0, 9] [BlockMeta.mk 0 [97]] 9) 0
            (BlockIterator.mk (Block.mk [0, 1, 97, 0, 0] [0]) [97] [] 0)) := by
      have hb : SsTableIter.create_and_seek_to_key
          (SsTable.mk [0, 1, 97, 0, 0, 0, 0, 0, 1, 0, 0, 0, 0, 0, 1, 97, 0, 0, 0, 9] [BlockMeta.mk 0 [97]] 9) [97]
          = (fun bi => if bi.is_valid = false ∧ 0 + 1 < 1 then none
              else some (SsTableIter.mk (SsTable.mk [0, 1, 97, 0, 0, 0, 0, 0, 1, 0, 0, 0, 0, 0, 1, 97, 0, 0, 0, 9] [BlockMeta.mk 0 [97]] 9) 0 bi))
              (BlockIterator.create_and_seek_to_key (Block.mk [0, 1, 97, 0, 0] [0]) [97]) := rfl
      rw [hb, hseek2]
      rfl
    have h1 : SsTableIter.create_and_seek_to_key
        (SsTable.mk [0, 1, 97, 0, 1, 49, 0, 0, 0, 1, 0, 0, 0, 0, 0, 1, 97, 0, 0, 0, 10] [BlockMeta.mk 0 [97]] 10) [97]
        = some (SsTableIter.mk (SsTable.mk [0, 1, 97, 0, 1, 49, 0, 0, 0, 1, 0, 0, 0, 0, 0, 1, 97, 0, 0, 0, 10] [BlockMeta.mk 0 [97]] 10) 0
            (BlockIterator.mk (Block.mk [0, 1, 97, 0, 1, 49] [0]) [97] [49] 0)) := by
      have hb : SsTableIter.create_and_seek_to_key
          (SsTable.mk [0, 1, 97, 0, 1, 49, 0, 0, 0, 1, 0, 0, 0, 0, 0, 1, 97, 0, 0, 0, 10] [BlockMeta.mk 0 [97]] 10) [97]
          = (fun bi => if bi.is_valid = false ∧ 0 + 1 < 1 then none
              else some (SsTableIter.mk (SsTable.mk [0, 1, 97, 0, 1, 49, 0, 0, 0, 1, 0, 0, 0, 0, 0, 1, 97, 0, 0, 0, 10] [BlockMeta.mk 0 [97]] 10) 0 bi))
              (BlockIterator.create_and_seek_to_key (Block.mk [0, 1, 97, 0, 1, 49] [0]) [97]) := rfl
      rw [hb, hseek1]
      rfl
    have hm : List.mapM (fun t => SsTableIter.create_and_seek_to_key t [97])
        [SsTable.mk [0, 1, 97, 0, 0, 0, 0, 0, 1, 0, 0, 0, 0, 0, 1, 97, 0, 0, 0, 9] [BlockMeta.mk 0 [97]] 9,
         SsTable.mk [0, 1, 97, 0, 1, 49, 0, 0, 0, 1, 0, 0, 0, 0, 0, 1, 97, 0, 0, 0, 10] [BlockMeta.mk 0 [97]] 10]
        = some [SsTableIter.mk (SsTable.mk [0, 1, 97, 0, 0, 0, 0, 0, 1, 0, 0, 0, 0, 0, 1, 97, 0, 0, 0, 9] [BlockMeta.mk 0 [97]] 9) 0
                  (BlockIterator.mk (Block.mk [0, 1, 97, 0, 0] [0]) [97] [] 0),
                SsTableIter.mk (SsTable.mk [0, 1, 97, 0, 1, 49, 0, 0, 0, 1, 0, 0, 0, 0, 0, 1, 97, 0, 0, 0, 10] [BlockMeta.mk 0 [97]] 10) 0
                  (BlockIterator.mk (Block.mk [0, 1, 97, 0, 1, 49] [0]) [97] [49] 0)] := by
      simp only [List.mapM_cons, List.mapM_nil, h2, h1]
      rfl
    have hbridge : LsmStorage.get
        (LsmStorageInner.mk (MemTable.mk []) []
          [SsTable.mk [0, 1, 97, 0, 1, 49, 0, 0, 0, 1, 0, 0, 0, 0, 0, 1, 97, 0, 0, 0, 10] [BlockMeta.mk 0 [97]] 10,
           SsTable.mk [0, 1, 97, 0, 0, 0, 0, 0, 1, 0, 0, 0, 0, 0, 1, 97, 0, 0, 0, 9] [BlockMeta.mk 0 [97]] 9] 3)
        [97]
        = (match List.mapM (fun t => SsTableIter.create_and_seek_to_key t [97])
              [SsTable.mk [0, 1, 97, 0, 0, 0, 0, 0, 1, 0, 0, 0, 0, 0, 1, 97, 0, 0, 0, 9] [BlockMeta.mk 0 [97]] 9,
               SsTable.mk [0, 1, 97, 0, 1, 49, 0, 0, 0, 1, 0, 0, 0, 0, 0, 1, 97, 0, 0, 0, 10] [BlockMeta.mk 0 [97]] 10] with
           | none => none
           | some its =>
             if (MergeIter.create (its.map SsTableIter.toMock)).is_valid
             then some (some (MergeIter.create (its.map SsTableIter.toMock)).value)
             else some none) := rfl
    rw [hbridge, hm]
    rfl

end Lsm
